import Mathlib

/-!
# ChatGPT offline archive extension: merge engine, extractor, renderer, import

A shallow embedding of the data-integrity core of the extension:

* `background.js`: `saveConversation` (merge and dedup against the persisted map)
  and `importData`;
* `content.js`: `getMessageRole`, `getMessageContent`, `extractMessages`;
* `viewer.js`: `processMessageContent`, `createMessageElement`.

Modelling conventions.

* A JavaScript string is a `List Char` (`JSString`).  Lengths are counted in UTF-16
  code units, as `String.prototype.length` does (`JSString.length16`).
* `new Date().toISOString()` is a parameter `now` of the function that reads the clock.
* The persisted `conversations` object is an association list from conversation id to
  record; property lookup finds the first entry for a key, property assignment replaces
  that entry or appends a new one.  Keys inherited from `Object.prototype` are not
  modelled, and storage I/O is assumed not to fail.
* DOM queries are fields of an `Element` record holding the answer of each query.
-/

namespace ChatArchive

/-! ## JavaScript strings -/

/-- A JavaScript string, as its sequence of characters. -/
abbrev JSString := List Char

namespace JSString

/-- Number of UTF-16 code units of one character. -/
def units (c : Char) : Nat := if c.toNat < 65536 then 1 else 2

/-- The value of `s.length`: the number of UTF-16 code units. -/
def length16 : JSString → Nat
  | [] => 0
  | c :: t => units c + length16 t

/-- The value of `s.includes(pat)`: `pat` occurs in `s` as a contiguous substring. -/
def includes : JSString → JSString → Bool
  | [], pat => pat.isPrefixOf []
  | c :: t, pat => pat.isPrefixOf (c :: t) || includes t pat

/-- ECMAScript `WhiteSpace` and `LineTerminator` code points: what `trim` strips and
what `\s` matches. -/
def isWhiteSpace (c : Char) : Bool :=
  let n := c.toNat
  n == 9 || n == 10 || n == 11 || n == 12 || n == 13 || n == 32 || n == 160 ||
  n == 5760 || (8192 ≤ n && n ≤ 8202) || n == 8232 || n == 8233 || n == 8239 ||
  n == 8287 || n == 12288 || n == 65279

/-- The value of `s.trimStart()`. -/
def trimStart (s : JSString) : JSString := s.dropWhile isWhiteSpace

/-- The value of `s.trim()`. -/
def trim (s : JSString) : JSString :=
  ((trimStart s).reverse.dropWhile isWhiteSpace).reverse

end JSString

/-! ## Regular expressions

The fragment of ECMAScript regular expressions the sources use, with the backtracking
semantics of the language: a matcher lists every way a pattern can match at a position,
in the order backtracking tries them, and `exec` takes the first.

Patterns are matched character by character.  The patterns of the sources have literals
of the Basic Multilingual Plane only and meet characters beyond it only under a starred
class, so matching code unit by code unit, as the language does without the `u` flag,
finds the same matches. -/

/-- Regular-expression syntax. -/
inductive Regex where
  /-- One character satisfying `p`: a literal character, a class or an escape. -/
  | chr (p : Char → Bool)
  /-- The empty pattern. -/
  | empty
  /-- Concatenation `rs`. -/
  | seq (r s : Regex)
  /-- Repetition `r*` (greedy) or `r*?` (lazy). -/
  | star (r : Regex) (greedy : Bool)
  /-- Greedy option `r?`. -/
  | opt (r : Regex)
  /-- Capture group number `i`. -/
  | group (i : Nat) (r : Regex)
  /-- Assertion `^` (no `m` flag): start of input. -/
  | bol
  /-- Assertion `$` (no `m` flag): end of input. -/
  | eol

/-- A position of a match in progress: `pos` characters are behind, `rest` is ahead,
`caps` are the capture groups set so far (latest first). -/
structure MatchState where
  pos : Nat
  rest : JSString
  caps : List (Nat × JSString)
  deriving DecidableEq, Repr

namespace Regex

/-- Repetition `r+`. -/
def plus (r : Regex) (greedy : Bool) : Regex := seq r (star r greedy)

/-- A literal string. -/
def lit : JSString → Regex
  | [] => empty
  | c :: t => seq (chr (fun x => x == c)) (lit t)

/-- A literal string under the `i` flag: each ASCII letter matches in both cases. -/
def litCI : JSString → Regex
  | [] => empty
  | c :: t => seq (chr (fun x => x.toLower == c.toLower)) (litCI t)

/-- The capture groups inside a pattern. -/
def groups : Regex → List Nat
  | chr _ => []
  | empty => []
  | seq r s => groups r ++ groups s
  | star r _ => groups r
  | opt r => groups r
  | group i r => i :: groups r
  | bol => []
  | eol => []

/-- Capture groups of a repeated pattern are reset when an iteration starts. -/
def resetCaps (gs : List Nat) (s : MatchState) : MatchState :=
  { s with caps := s.caps.filter (fun kv => !gs.contains kv.1) }

/-- Iterations of a repeated pattern from state `s`: an iteration that consumes nothing
is rejected; a greedy repetition tries one more iteration before stopping, a lazy one
tries stopping first.  `fuel` bounds the number of iterations by the input left. -/
def starLoop (body : MatchState → List MatchState) (greedy : Bool) :
    Nat → MatchState → List MatchState
  | 0, s => [s]
  | fuel + 1, s =>
    let more := ((body s).filter (fun s2 => s2.rest.length < s.rest.length)).flatMap
      (starLoop body greedy fuel)
    if greedy then more ++ [s] else s :: more

/-- All matches of a pattern from a state, in backtracking order. -/
def run : Regex → MatchState → List MatchState
  | chr p, s =>
    match s.rest with
    | [] => []
    | c :: t => if p c then [{ s with pos := s.pos + 1, rest := t }] else []
  | empty, s => [s]
  | seq r1 r2, s => (run r1 s).flatMap (run r2)
  | star r greedy, s =>
    starLoop (fun x => run r (resetCaps (groups r) x)) greedy s.rest.length s
  | opt r, s =>
    ((run r (resetCaps (groups r) s)).filter
      (fun s2 => s2.rest.length < s.rest.length)) ++ [s]
  | group i r, s =>
    (run r s).map (fun s2 =>
      { s2 with caps := (i, s.rest.take (s.rest.length - s2.rest.length)) :: s2.caps })
  | bol, s => if s.pos = 0 then [s] else []
  | eol, s => if s.rest.isEmpty then [s] else []

/-- The first match of the pattern starting exactly at the given position. -/
def matchAt (r : Regex) (pos : Nat) (rest : JSString) : Option MatchState :=
  (run r { pos := pos, rest := rest, caps := [] }).head?

/-- The leftmost match at or after the given position, as `exec` finds it: the number
of characters skipped and the match. -/
def search (r : Regex) : Nat → JSString → Option (Nat × MatchState)
  | pos, [] => (matchAt r pos []).map (fun m => (0, m))
  | pos, c :: t =>
    match matchAt r pos (c :: t) with
    | some m => some (0, m)
    | none => (search r (pos + 1) t).map (fun km => (km.1 + 1, km.2))

/-- The value of `regex.test(s)` and the truth value of `s.match(regex)` for a regex
without the `g` flag. -/
def test (r : Regex) (s : JSString) : Bool := (search r 0 s).isSome

/-- The value of capture group `i` in a replacement string (`$i`): the text captured, or
the empty string when the group did not take part in the match. -/
def capture (m : MatchState) (i : Nat) : JSString :=
  match m.caps.lookup i with
  | some s => s
  | none => []

/-- The loop of `s.replace(regex, replacement)` for a regex with the `g` flag, from
position `pos` with `rest` ahead: every match, left to right and not overlapping, is
replaced by `repl` of the match; after an empty match the scan moves on by one
character.  `fuel` exceeds the length of `rest`. -/
def replaceLoop (r : Regex) (repl : MatchState → JSString) :
    Nat → Nat → JSString → JSString
  | 0, _, rest => rest
  | fuel + 1, pos, rest =>
    match matchAt r pos rest with
    | some m =>
      if m.rest.length < rest.length then
        repl m ++ replaceLoop r repl fuel m.pos m.rest
      else
        match rest with
        | [] => repl m
        | c :: t => repl m ++ c :: replaceLoop r repl fuel (pos + 1) t
    | none =>
      match rest with
      | [] => []
      | c :: t => c :: replaceLoop r repl fuel (pos + 1) t

/-- The value of `s.replace(regex, replacement)` for a regex with the `g` flag. -/
def replaceAll (r : Regex) (repl : MatchState → JSString) (s : JSString) : JSString :=
  replaceLoop r repl (s.length + 1) 0 s

/-- Character classes. -/
def isDigit (c : Char) : Bool := '0' ≤ c && c ≤ '9'

/-- The class `\w`. -/
def isWord (c : Char) : Bool :=
  ('a' ≤ c && c ≤ 'z') || ('A' ≤ c && c ≤ 'Z') || ('0' ≤ c && c ≤ '9') || c == '_'

/-- The class `.` (no `s` flag): anything but a line terminator. -/
def isDot (c : Char) : Bool :=
  !(c.toNat == 10 || c.toNat == 13 || c.toNat == 8232 || c.toNat == 8233)

/-- The class `[\s\S]`: any character. -/
def anyChar : Regex := chr (fun c => JSString.isWhiteSpace c || !JSString.isWhiteSpace c)

end Regex

/-! ## `background.js`: data model and merge engine -/

/-- A message object as `extractMessages` builds it. -/
structure Message where
  id : JSString
  role : JSString
  content : JSString
  html : JSString
  timestamp : JSString
  deriving DecidableEq, Repr

/-- A conversation object.  The snapshot built by `extractCurrentConversation` has no
`lastUpdated` property (`none`); a stored record has one. -/
structure Conversation where
  id : JSString
  title : JSString
  createdAt : JSString
  messages : List Message
  url : JSString
  lastUpdated : Option JSString
  deriving DecidableEq, Repr

/-- The persisted `conversations` object: conversation id ↦ record. -/
abbrev Store := List (JSString × Conversation)

namespace Store

/-- Property read `conversations[id]`; `none` is `undefined`. -/
def get : Store → JSString → Option Conversation
  | [], _ => none
  | (k, v) :: rest, id => if k = id then some v else get rest id

/-- Property write `conversations[id] = rec`. -/
def set : Store → JSString → Conversation → Store
  | [], id, r => [(id, r)]
  | (k, v) :: rest, id, r => if k = id then (k, r) :: rest else (k, v) :: set rest id r

end Store

/-- A JavaScript `Set` of strings: its elements in insertion order, without repeats. -/
abbrev JSSet := List JSString

namespace JSSet

/-- The value of `set.has(x)`. -/
def has (s : JSSet) (x : JSString) : Bool := s.contains x

/-- The effect of `set.add(x)`. -/
def add (s : JSSet) (x : JSString) : JSSet := if has s x then s else s ++ [x]

/-- The value of `new Set(xs)`: the elements of `xs` added one by one. -/
def ofList (xs : List JSString) : JSSet := xs.foldl add []

end JSSet

/-- The property names a plain object inherits from `Object.prototype`. -/
def objectPrototypeKeys : List JSString :=
  ["constructor", "__defineGetter__", "__defineSetter__", "hasOwnProperty",
   "__lookupGetter__", "__lookupSetter__", "isPrototypeOf", "propertyIsEnumerable",
   "toString", "valueOf", "__proto__", "toLocaleString"].map String.toList

/-- The value of `conversations[id]` for a map without own property `id` is not
`undefined`: it is a member of `Object.prototype`, a function or the prototype itself. -/
def Store.inherits (id : JSString) : Bool := objectPrototypeKeys.contains id

/-- `saveConversation(conversation)` of `background.js`, run at clock reading `now`
on the persisted map `conversations`; the result is the map persisted afterwards.

The test `conversations[conversation.id]` reads an own property or, when there is none,
the property inherited from `Object.prototype`.  An inherited value is truthy and has no
`messages`, so `existing.messages.map` raises a `TypeError`; the `catch` logs it and
`storage.set` is not reached: the persisted map stays as it was. -/
def saveConversation (now : JSString) (conversation : Conversation)
    (conversations : Store) : Store :=
  match conversations.get conversation.id with
  | some existing =>
    let existingContent := JSSet.ofList (existing.messages.map (fun m => m.content))
    let newMessages := conversation.messages.filter
      (fun msg => !existingContent.has msg.content)
    if newMessages.length > 0 then
      conversations.set conversation.id
        { existing with
          messages := existing.messages ++ newMessages
          lastUpdated := some now }
    else
      conversations
  | none =>
    if Store.inherits conversation.id then
      conversations
    else
      conversations.set conversation.id { conversation with lastUpdated := some now }

/-- A run of `saveConversation` calls, each with its own clock reading, in order. -/
def saveAll (calls : List (JSString × Conversation)) (conversations : Store) : Store :=
  calls.foldl (fun st call => saveConversation call.1 call.2 st) conversations

/-- The content of `m` is the content of no message of `existing`. -/
def FreshContent (existing : List Message) (m : Message) : Prop :=
  ∀ x ∈ existing, x.content ≠ m.content

instance (existing : List Message) (m : Message) : Decidable (FreshContent existing m) := by
  unfold FreshContent; infer_instance

/-- The merge contract of the spec, in its own words: with no existing record the
incoming snapshot is stored with `lastUpdated` set; otherwise the incoming messages whose
content is not already stored are appended, and `lastUpdated` advances only when there
are such messages. -/
def mergeSpec (now : JSString) (existing : Option Conversation)
    (incoming : Conversation) : Conversation :=
  match existing with
  | none => { incoming with lastUpdated := some now }
  | some e =>
    let fresh := incoming.messages.filter (fun m => decide (FreshContent e.messages m))
    if fresh = [] then e
    else { e with messages := e.messages ++ fresh, lastUpdated := some now }

/-- No two messages of the list have the same content. -/
def NoDuplicateContent (ms : List Message) : Prop :=
  (ms.map (fun m => m.content)).Nodup

instance (ms : List Message) : Decidable (NoDuplicateContent ms) := by
  unfold NoDuplicateContent; infer_instance


/-! ## `content.js`: extractor -/

/-- A candidate message element, as the answers of the DOM queries the extractor makes
on it. -/
structure Element where
  /-- The value of `getAttribute('data-message-author-role')`; `none` is `null`. -/
  roleAttr : Option JSString
  /-- The value of `element.textContent`. -/
  textContent : JSString
  /-- Whether `querySelector('img[alt*="user"]')` finds a node. -/
  hasUserImage : Bool
  /-- Whether `closest('[data-testid*="user"]')` finds a node. -/
  insideUserTestid : Bool
  /-- Whether `querySelector('svg')` finds a node. -/
  hasSvg : Bool
  /-- Whether `querySelector('.markdown')` finds a node. -/
  hasMarkdown : Bool
  /-- Whether `querySelector('pre code')` finds a node. -/
  hasPreCode : Bool
  /-- Whether `closest('[data-testid*="assistant"]')` finds a node. -/
  insideAssistantTestid : Bool
  /-- The value of `clone.textContent`: the text of the content node (first match of
  the content selectors, else the element) after its buttons, hidden nodes, icons,
  scripts and styles were removed from the clone. -/
  cleanText : JSString
  /-- The value of `element.innerHTML`. -/
  innerHTML : JSString
  deriving DecidableEq, Repr

/-- The value of `s.toLowerCase()` on the ASCII letters (the only ones that can produce
the markers searched for). -/
def toLowerCase (s : JSString) : JSString := s.map Char.toLower

/-- `getMessageRole(element, index)` of `content.js`. -/
def getMessageRole (element : Element) (index : Nat) : JSString :=
  match element.roleAttr with
  | some (c :: t) => c :: t
  | _ =>
    let text := toLowerCase element.textContent
    if element.hasUserImage || JSString.includes text "you:".toList ||
        element.insideUserTestid then
      "user".toList
    else if element.hasSvg || element.hasMarkdown || element.hasPreCode ||
        JSString.includes text "chatgpt:".toList || element.insideAssistantTestid then
      "assistant".toList
    else if index % 2 = 0 then "user".toList else "assistant".toList

/-- The regular expression `/^\d+\s*\/\s*\d+$/`. -/
def pageCounterRegex : Regex :=
  .seq .bol (.seq (Regex.plus (.chr Regex.isDigit) true)
    (.seq (.star (.chr JSString.isWhiteSpace) true)
      (.seq (Regex.lit "/".toList)
        (.seq (.star (.chr JSString.isWhiteSpace) true)
          (.seq (Regex.plus (.chr Regex.isDigit) true) .eol)))))

/-- `getMessageContent(element)` of `content.js`, from the text of the cleaned clone. -/
def getMessageContent (element : Element) : JSString :=
  let content := JSString.trim element.cleanText
  if JSString.length16 content < 5 ||
      JSString.includes content "Copy code".toList ||
      JSString.includes content "Regenerate".toList ||
      JSString.includes content "window.__oai".toList ||
      JSString.includes content "requestAnimationFrame".toList ||
      JSString.includes content ".starburst".toList ||
      JSString.includes content "ChatGPT can make mistakes".toList ||
      Regex.test pageCounterRegex content then
    []
  else
    content

/-- The callback of `messageElements.forEach` in `extractMessages`: the message pushed
for the candidate at `index`, if any.  `clock index` is the clock reading then. -/
def extractMessage (clock : Nat → JSString) (element : Element) (index : Nat) :
    Option Message :=
  let role := getMessageRole element index
  let content := getMessageContent element
  if !role.isEmpty && !content.isEmpty && JSString.length16 content > 5 then
    some { id := "msg_".toList ++ (Nat.repr index).toList
           role := role
           content := content
           html := element.innerHTML
           timestamp := clock index }
  else
    none

/-- The loop of `extractMessages` over the candidates from index `index` on. -/
def extractFrom (clock : Nat → JSString) : List Element → Nat → List Message
  | [], _ => []
  | element :: rest, index =>
    match extractMessage clock element index with
    | some m => m :: extractFrom clock rest (index + 1)
    | none => extractFrom clock rest (index + 1)

/-- `extractMessages()` of `content.js` on the candidate elements the selector
strategies found, in document order. -/
def extractMessages (clock : Nat → JSString) (messageElements : List Element) :
    List Message :=
  extractFrom clock messageElements 0

/-- `extractCurrentConversation()` of `content.js`: the snapshot sent to
`saveConversation`, if one is sent.  `conversationId` and `title` are the values of
`getConversationId()` and `getConversationTitle()`, `href` is `window.location.href`. -/
def extractCurrentConversation (conversationId title href now : JSString)
    (clock : Nat → JSString) (messageElements : List Element) : Option Conversation :=
  let messages := extractMessages clock messageElements
  if !conversationId.isEmpty && messages.length > 0 then
    some { id := conversationId
           title := if title.isEmpty then "Untitled Chat".toList else title
           createdAt := now
           messages := messages
           url := href
           lastUpdated := none }
  else
    none

/-- One extraction cycle against the persisted map: extract, and save when a snapshot
is produced (`saveTime` is the clock reading of the merge). -/
def extractAndSave (conversationId title href now saveTime : JSString)
    (clock : Nat → JSString) (messageElements : List Element) (store : Store) : Store :=
  match extractCurrentConversation conversationId title href now clock messageElements with
  | some conversation => saveConversation saveTime conversation store
  | none => store

/-- The regular expression `/\/c\/([^\/]+)/`. -/
def conversationIdRegex : Regex :=
  .seq (Regex.lit "/c/".toList) (.group 1 (Regex.plus (.chr (fun c => c != '/')) true))

/-- `getConversationId()` of `content.js`, from `window.location.pathname` and the value
of `Date.now()`. -/
def getConversationId (pathname : JSString) (dateNow : Nat) : JSString :=
  match Regex.search conversationIdRegex 0 pathname with
  | some (_, urlMatch) => Regex.capture urlMatch 1
  | none => "temp_".toList ++ (Nat.repr dateNow).toList

/-! ## `viewer.js`: content renderer -/

/-- The regular expression `/window\.__oai[\s\S]*?;/g`. -/
def oaiRegex : Regex :=
  .seq (Regex.lit "window.__oai".toList)
    (.seq (.star Regex.anyChar false) (Regex.lit ";".toList))

/-- The regular expression `/requestAnimationFrame[\s\S]*?\)\)/g`. -/
def rafRegex : Regex :=
  .seq (Regex.lit "requestAnimationFrame".toList)
    (.seq (.star Regex.anyChar false) (Regex.lit "))".toList))

/-- The regular expression `/\.starburst[\s\S]*?}/g`. -/
def starburstRegex : Regex :=
  .seq (Regex.lit ".starburst".toList)
    (.seq (.star Regex.anyChar false) (Regex.lit "\x7d".toList))

/-- The regular expression ``/```(\w+)?\n([\s\S]*?)```/g``. -/
def fenceRegex : Regex :=
  .seq (Regex.lit "```".toList)
    (.seq (.opt (.group 1 (Regex.plus (.chr Regex.isWord) true)))
      (.seq (Regex.lit "\n".toList)
        (.seq (.group 2 (.star Regex.anyChar false)) (Regex.lit "```".toList))))

/-- The regular expression ``/`([^`]+)`/g``. -/
def inlineCodeRegex : Regex :=
  .seq (Regex.lit "`".toList)
    (.seq (.group 1 (Regex.plus (.chr (fun c => c != '`')) true)) (Regex.lit "`".toList))

/-- The regular expression `/\*\*(.*?)\*\*/g`. -/
def boldRegex : Regex :=
  .seq (Regex.lit "**".toList)
    (.seq (.group 1 (.star (.chr Regex.isDot) false)) (Regex.lit "**".toList))

/-- The regular expression `/\*(.*?)\*/g`. -/
def italicRegex : Regex :=
  .seq (Regex.lit "*".toList)
    (.seq (.group 1 (.star (.chr Regex.isDot) false)) (Regex.lit "*".toList))

/-- The regular expression `/<script[\s\S]*?<\/script>/gi`. -/
def scriptRegex : Regex :=
  .seq (Regex.litCI "<script".toList)
    (.seq (.star Regex.anyChar false) (Regex.litCI "</script>".toList))

/-- The regular expression `/<style[\s\S]*?<\/style>/gi`. -/
def styleRegex : Regex :=
  .seq (Regex.litCI "<style".toList)
    (.seq (.star Regex.anyChar false) (Regex.litCI "</style>".toList))

/-- The replacement string `''`. -/
def removeMatch : MatchState → JSString := fun _ => []

/-- The steps of `processMessageContent` before the paragraph wrap: the chain of
`replace` calls. -/
def processReplacements (content : JSString) : JSString :=
  let s1 := Regex.replaceAll oaiRegex removeMatch content
  let s2 := Regex.replaceAll rafRegex removeMatch s1
  let s3 := Regex.replaceAll starburstRegex removeMatch s2
  let s4 := Regex.replaceAll fenceRegex
    (fun m => "<pre><code>".toList ++ Regex.capture m 2 ++ "</code></pre>".toList) s3
  let s5 := Regex.replaceAll inlineCodeRegex
    (fun m => "<code>".toList ++ Regex.capture m 1 ++ "</code>".toList) s4
  let s6 := Regex.replaceAll boldRegex
    (fun m => "<strong>".toList ++ Regex.capture m 1 ++ "</strong>".toList) s5
  let s7 := Regex.replaceAll italicRegex
    (fun m => "<em>".toList ++ Regex.capture m 1 ++ "</em>".toList) s6
  let s8 := Regex.replaceAll (Regex.lit "\n\n".toList) (fun _ => "</p><p>".toList) s7
  Regex.replaceAll (Regex.lit "\n".toList) (fun _ => "<br>".toList) s8

/-- `processMessageContent(content)` of `viewer.js`. -/
def processMessageContent (content : JSString) : JSString :=
  let processed := processReplacements content
  if !JSString.includes processed "<".toList && JSString.length16 processed > 0 then
    "<p>".toList ++ processed ++ "</p>".toList
  else
    processed

/-- `createMessageElement(message)` of `viewer.js`: the string it assigns to
`messageText.innerHTML`. -/
def createMessageElement (message : Message) : JSString :=
  if !message.html.isEmpty && JSString.length16 message.html > 0 &&
      !JSString.includes message.html "window.__oai".toList then
    let cleanHtml :=
      Regex.replaceAll styleRegex removeMatch
        (Regex.replaceAll scriptRegex removeMatch
          (Regex.replaceAll rafRegex removeMatch
            (Regex.replaceAll oaiRegex removeMatch message.html)))
    cleanHtml
  else
    processMessageContent message.content

/-! ## JSON values and `importData` -/

/-- A value produced by `JSON.parse`.  A number is kept as the decimal it was written
as, `± digits × 10 ^ exponent`; an object lists its own properties in insertion order,
each key once. -/
inductive JSValue where
  | null
  | bool (b : Bool)
  | number (negative : Bool) (digits : Nat) (exponent : Int)
  | string (s : JSString)
  | array (items : List JSValue)
  | object (props : List (JSString × JSValue))
  deriving Repr

namespace JSValue

/-- Whether the decimal `digits × 10 ^ exponent` denotes the Number zero: it is zero, or
so small that it rounds to zero (at most `2 ^ (-1075)`). -/
def numberIsZero (digits : Nat) (exponent : Int) : Bool :=
  digits == 0 ||
    (match exponent with
     | Int.ofNat _ => false
     | Int.negSucc k => decide (digits * 2 ^ 1075 ≤ 10 ^ (k + 1)))

/-- JavaScript truthiness (`ToBoolean`) of a value. -/
def truthy : JSValue → Bool
  | null => false
  | bool b => b
  | number _ digits exponent => !numberIsZero digits exponent
  | string s => !s.isEmpty
  | array _ => true
  | object _ => true

/-- Own property lookup in a property list. -/
def lookupProp : List (JSString × JSValue) → JSString → Option JSValue
  | [], _ => none
  | (k, v) :: rest, key => if k = key then some v else lookupProp rest key

/-- Property definition in a property list: an existing key keeps its place. -/
def setProp : List (JSString × JSValue) → JSString → JSValue → List (JSString × JSValue)
  | [], key, v => [(key, v)]
  | (k, w) :: rest, key, v =>
    if k = key then (k, v) :: rest else (k, w) :: setProp rest key v

/-- The value of `data.conversations`: reading a property of `null` throws a
`TypeError` (`none`); otherwise the result is the property's value or `undefined`
(`some none`).  Arrays and primitives have no property of that name. -/
def conversations : JSValue → Option (Option JSValue)
  | null => none
  | object props => some (lookupProp props "conversations".toList)
  | _ => some none

/-- The value of `Object.keys(v).length` for a truthy value `v`. -/
def keyCount : JSValue → Nat
  | object props => props.length
  | array items => items.length
  | string s => JSString.length16 s
  | _ => 0

end JSValue

/-- The outcome of `JSON.parse(text)`: the value, or the message of the `SyntaxError`
thrown. -/
abbrev ParseResult := Except JSString JSValue

/-- The object `importData` resolves to. -/
inductive ImportResult where
  /-- The object `{ success: true, count }`. -/
  | success (count : Nat)
  /-- The object `{ success: false, error }`. -/
  | failure (error : JSString)
  deriving DecidableEq, Repr

/-- `importData(jsonData)` of `background.js`.  `parse` is the platform's `JSON.parse`,
`typeErrorMessage` the message of the `TypeError` raised by reading a property of
`null`, `persisted` the value stored under the key `conversations`; the result is the
value stored under that key afterwards and the object the call resolves to. -/
def importData (parse : JSString → ParseResult) (typeErrorMessage : JSString)
    (jsonData : JSString) (persisted : JSValue) : JSValue × ImportResult :=
  match parse jsonData with
  | .error message => (persisted, .failure message)
  | .ok data =>
    match data.conversations with
    | none => (persisted, .failure typeErrorMessage)
    | some none => (persisted, .failure "Invalid data format".toList)
    | some (some conversations) =>
      if conversations.truthy then
        (conversations, .success conversations.keyCount)
      else
        (persisted, .failure "Invalid data format".toList)

/-! ### A JSON parser

A recursive-descent reading of the JSON grammar, used to run `importData` on concrete
texts. -/

namespace Json

/-- JSON whitespace is skipped. -/
def skipWs : JSString → JSString
  | c :: t => if c == ' ' || c == '\t' || c == '\n' || c == '\r' then skipWs t else c :: t
  | [] => []

/-- The value of a hexadecimal digit. -/
def hexVal (c : Char) : Option Nat :=
  if '0' ≤ c && c ≤ '9' then some (c.toNat - 48)
  else if 'a' ≤ c && c ≤ 'f' then some (c.toNat - 87)
  else if 'A' ≤ c && c ≤ 'F' then some (c.toNat - 55)
  else none

/-- Four hexadecimal digits of a `\u` escape. -/
def hex4 : JSString → Option (Nat × JSString)
  | a :: b :: c :: d :: t =>
    match hexVal a, hexVal b, hexVal c, hexVal d with
    | some x, some y, some z, some w => some (((x * 16 + y) * 16 + z) * 16 + w, t)
    | _, _, _, _ => none
  | _ => none

/-- The body of a string literal after its opening quote: the text and what follows the
closing quote.  A surrogate pair written as two `\u` escapes is one character; a lone
surrogate escape is read as U+FFFD. -/
def parseString : Nat → JSString → JSString → Option (JSString × JSString)
  | 0, _, _ => none
  | _ + 1, [], _ => none
  | _ + 1, '"' :: t, acc => some (acc.reverse, t)
  | fuel + 1, '\\' :: 'u' :: t, acc =>
    match hex4 t with
    | none => none
    | some (hi, t1) =>
      if 55296 ≤ hi && hi < 56320 then
        match t1 with
        | '\\' :: 'u' :: t2 =>
          match hex4 t2 with
          | some (lo, t3) =>
            if 56320 ≤ lo && lo < 57344 then
              parseString fuel t3
                (Char.ofNat (65536 + (hi - 55296) * 1024 + (lo - 56320)) :: acc)
            else parseString fuel t1 (Char.ofNat 65533 :: acc)
          | none => none
        | _ => parseString fuel t1 (Char.ofNat 65533 :: acc)
      else if 56320 ≤ hi && hi < 57344 then parseString fuel t1 (Char.ofNat 65533 :: acc)
      else parseString fuel t1 (Char.ofNat hi :: acc)
  | fuel + 1, '\\' :: c :: t, acc =>
    if c == '"' then parseString fuel t ('"' :: acc)
    else if c == '\\' then parseString fuel t ('\\' :: acc)
    else if c == '/' then parseString fuel t ('/' :: acc)
    else if c == 'b' then parseString fuel t (Char.ofNat 8 :: acc)
    else if c == 'f' then parseString fuel t (Char.ofNat 12 :: acc)
    else if c == 'n' then parseString fuel t ('\n' :: acc)
    else if c == 'r' then parseString fuel t ('\r' :: acc)
    else if c == 't' then parseString fuel t ('\t' :: acc)
    else none
  | fuel + 1, c :: t, acc =>
    if c.toNat < 32 || c == '\\' then none else parseString fuel t (c :: acc)

/-- A run of decimal digits: how many, the number they write after `acc`, the rest. -/
def parseDigits : JSString → Nat → Nat → Nat × Nat × JSString
  | c :: t, count, acc =>
    if '0' ≤ c && c ≤ '9' then parseDigits t (count + 1) (acc * 10 + (c.toNat - 48))
    else (count, acc, c :: t)
  | [], count, acc => (count, acc, [])

/-- The exponent part of a number, if there is one. -/
def parseExponent (s : JSString) : Option (Int × JSString) :=
  match s with
  | e :: t =>
    if e == 'e' || e == 'E' then
      let (neg, t1) := match t with
        | '-' :: r => (true, r)
        | '+' :: r => (false, r)
        | r => (false, r)
      match parseDigits t1 0 0 with
      | (0, _, _) => none
      | (_, n, r) => some (if neg then -(n : Int) else (n : Int), r)
    else some (0, s)
  | [] => some (0, [])

/-- A number literal. -/
def parseNumber (s : JSString) : Option (JSValue × JSString) :=
  let (neg, s1) := match s with
    | '-' :: r => (true, r)
    | r => (false, r)
  match s1, parseDigits s1 0 0 with
  | _, (0, _, _) => none
  | first :: _, (intCount, intVal, s2) =>
    if first == '0' && intCount > 1 then none
    else
      match s2 with
      | '.' :: s3 =>
        match parseDigits s3 0 intVal with
        | (0, _, _) => none
        | (fracCount, mant, s4) =>
          match parseExponent s4 with
          | none => none
          | some (e, s5) => some (.number neg mant (e - (fracCount : Int)), s5)
      | _ =>
        match parseExponent s2 with
        | none => none
        | some (e, s5) => some (.number neg intVal e, s5)
  | [], _ => none

/-- What the parser is reading: a value, the rest of an array, the rest of an object. -/
inductive Mode where
  | value
  | elements (acc : List JSValue)
  | members (acc : List (JSString × JSValue))

/-- The parser proper: the value read and the text after it. -/
def parseAux : Nat → Mode → JSString → Option (JSValue × JSString)
  | 0, _, _ => none
  | fuel + 1, .value, s =>
    match skipWs s with
    | 'n' :: 'u' :: 'l' :: 'l' :: r => some (.null, r)
    | 't' :: 'r' :: 'u' :: 'e' :: r => some (.bool true, r)
    | 'f' :: 'a' :: 'l' :: 's' :: 'e' :: r => some (.bool false, r)
    | '"' :: r =>
      match parseString (r.length + 1) r [] with
      | some (str, r1) => some (.string str, r1)
      | none => none
    | '[' :: r =>
      match skipWs r with
      | ']' :: r1 => some (.array [], r1)
      | _ => parseAux fuel (.elements []) r
    | '{' :: r =>
      match skipWs r with
      | '}' :: r1 => some (.object [], r1)
      | _ => parseAux fuel (.members []) r
    | other => parseNumber other
  | fuel + 1, .elements acc, s =>
    match parseAux fuel .value s with
    | none => none
    | some (v, r) =>
      match skipWs r with
      | ',' :: r1 => parseAux fuel (.elements (acc ++ [v])) r1
      | ']' :: r1 => some (.array (acc ++ [v]), r1)
      | _ => none
  | fuel + 1, .members acc, s =>
    match skipWs s with
    | '"' :: r =>
      match parseString (r.length + 1) r [] with
      | none => none
      | some (key, r1) =>
        match skipWs r1 with
        | ':' :: r2 =>
          match parseAux fuel .value r2 with
          | none => none
          | some (v, r3) =>
            match skipWs r3 with
            | ',' :: r4 => parseAux fuel (.members (JSValue.setProp acc key v)) r4
            | '}' :: r4 => some (.object (JSValue.setProp acc key v), r4)
            | _ => none
        | _ => none
    | _ => none

/-- A model of `JSON.parse`: one value, then nothing but whitespace. -/
def parse (text : JSString) : ParseResult :=
  match parseAux (2 * text.length + 2) .value text with
  | some (v, r) =>
    if (skipWs r).isEmpty then .ok v
    else .error "Unexpected non-whitespace character after JSON".toList
  | none => .error "Unexpected token in JSON".toList

end Json

/-! ### `exportData` and a model of `JSON.stringify(value, null, 2)` -/

/-- `getConversations()` of `background.js`: `result.conversations || {}`. -/
def getConversations (persisted : JSValue) : JSValue :=
  if persisted.truthy then persisted else .object []

/-- The object `exportData` serialises, with `now` the value of
`new Date().toISOString()`. -/
def exportDocument (now : JSString) (conversations : JSValue) : JSValue :=
  .object [("version".toList, .string "1.0.0".toList),
           ("exportDate".toList, .string now),
           ("conversations".toList, conversations)]

/-- `exportData()` of `background.js`; `stringify` is the platform's
`JSON.stringify(value, null, 2)`. -/
def exportData (stringify : JSValue → JSString) (now : JSString) (persisted : JSValue) :
    JSString :=
  stringify (exportDocument now (getConversations persisted))

namespace Json

/-- A lower-case hexadecimal digit. -/
def hexDigit (n : Nat) : Char :=
  if n < 10 then Char.ofNat (48 + n) else Char.ofNat (87 + n)

/-- One character inside a JSON string literal, as `JSON.stringify` writes it. -/
def escapeChar (c : Char) : JSString :=
  if c == '"' then ['\\', '"']
  else if c == '\\' then ['\\', '\\']
  else if c.toNat == 8 then ['\\', 'b']
  else if c.toNat == 12 then ['\\', 'f']
  else if c.toNat == 10 then ['\\', 'n']
  else if c.toNat == 13 then ['\\', 'r']
  else if c.toNat == 9 then ['\\', 't']
  else if c.toNat < 32 then
    ['\\', 'u', '0', '0', hexDigit (c.toNat / 16), hexDigit (c.toNat % 16)]
  else [c]

/-- The text of a string inside its quotes. -/
def escape : JSString → JSString
  | [] => []
  | c :: t => escapeChar c ++ escape t

/-- A string literal (`QuoteJSONString`). -/
def quote (s : JSString) : JSString := '"' :: escape s ++ ['"']

/-- A number literal for the decimal `± digits × 10 ^ exponent`.  (The platform prints
the shortest decimal of the same Number; the records of the archive hold no number.) -/
def numberText (negative : Bool) (digits : Nat) (exponent : Int) : JSString :=
  (if negative then ['-'] else []) ++ (Nat.repr digits).toList ++
    (match exponent with
     | Int.ofNat 0 => []
     | Int.ofNat (k + 1) => 'e' :: (Nat.repr (k + 1)).toList
     | Int.negSucc k => 'e' :: '-' :: (Nat.repr (k + 1)).toList)

mutual
/-- A value with indentation unit of two spaces; `indent` is the current indentation. -/
def stringifyValue (indent : JSString) : JSValue → JSString
  | .null => "null".toList
  | .bool true => "true".toList
  | .bool false => "false".toList
  | .number negative digits exponent => numberText negative digits exponent
  | .string s => quote s
  | .array [] => "[]".toList
  | .array (v :: rest) =>
    '[' :: '\n' :: (' ' :: ' ' :: indent) ++ stringifyValue (' ' :: ' ' :: indent) v ++
      stringifyItems (' ' :: ' ' :: indent) rest ++ '\n' :: indent ++ [']']
  | .object [] => "\x7b\x7d".toList
  | .object ((k, v) :: rest) =>
    '\x7b' :: '\n' :: (' ' :: ' ' :: indent) ++ quote k ++ ':' :: ' ' ::
      stringifyValue (' ' :: ' ' :: indent) v ++
      stringifyProps (' ' :: ' ' :: indent) rest ++ '\n' :: indent ++ ['\x7d']
/-- The elements of an array after the first. -/
def stringifyItems (indent : JSString) : List JSValue → JSString
  | [] => []
  | v :: rest => ',' :: '\n' :: indent ++ stringifyValue indent v ++ stringifyItems indent rest
/-- The members of an object after the first. -/
def stringifyProps (indent : JSString) : List (JSString × JSValue) → JSString
  | [] => []
  | (k, v) :: rest =>
    ',' :: '\n' :: indent ++ quote k ++ ':' :: ' ' :: stringifyValue indent v ++
      stringifyProps indent rest
end

/-- A model of `JSON.stringify(value, null, 2)`. -/
def stringify (v : JSValue) : JSString := stringifyValue [] v

end Json

namespace Json

mutual
/-- The values the round trip is proved for: no number (see `numberText`), and in every
object pairwise different keys, as in any JavaScript object. -/
def Serializable : JSValue → Prop
  | .null => True
  | .bool _ => True
  | .number _ _ _ => False
  | .string _ => True
  | .array items => SerializableItems items
  | .object props => (props.map Prod.fst).Nodup ∧ SerializableProps props
/-- Every element is serializable. -/
def SerializableItems : List JSValue → Prop
  | [] => True
  | v :: rest => Serializable v ∧ SerializableItems rest
/-- Every member value is serializable. -/
def SerializableProps : List (JSString × JSValue) → Prop
  | [] => True
  | (_, v) :: rest => Serializable v ∧ SerializableProps rest
end

/-- Spaces and newlines: the whitespace `stringify` writes. -/
def IsBlank (s : JSString) : Prop := ∀ c ∈ s, c = ' ' ∨ c = '\n'

/-- The first character of a written value. -/
def IsStart (c : Char) : Prop :=
  c = 'n' ∨ c = 't' ∨ c = 'f' ∨ c = '"' ∨ c = '[' ∨ c = '\x7b'

/-- The parser reads the written form of `v` back as `v`, after any blank text, at any
indentation and before any text, and leaves that text. -/
def ReadsBack (v : JSValue) : Prop :=
  ∀ (indent ws rest : JSString) (fuel : Nat), IsBlank indent → IsBlank ws →
    2 * (stringifyValue indent v ++ rest).length + 1 ≤ fuel →
    parseAux fuel .value (ws ++ (stringifyValue indent v ++ rest)) = some (v, rest)

end Json

/-- The JSON value of a stored message. -/
def Message.toJSValue (m : Message) : JSValue :=
  .object [("id".toList, .string m.id), ("role".toList, .string m.role),
           ("content".toList, .string m.content), ("html".toList, .string m.html),
           ("timestamp".toList, .string m.timestamp)]

/-- The JSON value of a stored conversation record: the properties of the snapshot, then
`lastUpdated` when it is set. -/
def Conversation.toJSValue (c : Conversation) : JSValue :=
  .object ([("id".toList, .string c.id), ("title".toList, .string c.title),
            ("createdAt".toList, .string c.createdAt),
            ("messages".toList, .array (c.messages.map Message.toJSValue)),
            ("url".toList, .string c.url)] ++
    (match c.lastUpdated with
     | some t => [("lastUpdated".toList, .string t)]
     | none => []))

/-- The JSON value of the persisted `conversations` map. -/
def Store.toJSValue (store : Store) : JSValue :=
  .object (store.map (fun kv => (kv.1, kv.2.toJSValue)))

/-- The message of the `TypeError` raised by `data.conversations` when `data` is
`null`. -/
def nullTypeError : JSString :=
  "Cannot read properties of null (reading 'conversations')".toList

/-- The pathname has `/c/` followed by a character other than a slash. -/
def HasChatSegment (pathname : JSString) : Prop :=
  ∃ (pre rest : JSString) (c : Char), pathname = pre ++ ("/c/".toList ++ c :: rest) ∧ c ≠ '/'

/-- The path segment `segment` follows the first `/c/` of the pathname that has one:
`/c/` is followed by `segment`, a non-empty run of characters other than a slash that
ends at a slash or at the end of the pathname, and no `/c/` further left is followed by a
character other than a slash. -/
def IsFirstChatSegment (pathname segment : JSString) : Prop :=
  ∃ pre rest : JSString, pathname = pre ++ ("/c/".toList ++ (segment ++ rest)) ∧
    segment ≠ [] ∧ '/' ∉ segment ∧ (∀ c t, rest = c :: t → c = '/') ∧
    ¬ HasChatSegment (pre ++ "/c/".toList)

/-- The last two `replace` calls of `processMessageContent`: every double newline becomes
`</p><p>`, then every newline left becomes `<br>`. -/
def lineBreaks (s : JSString) : JSString :=
  Regex.replaceAll (Regex.lit "\n".toList) (fun _ => "<br>".toList)
    (Regex.replaceAll (Regex.lit "\n\n".toList) (fun _ => "</p><p>".toList) s)

/-- The patterns of `processMessageContent` that come before the line breaks. -/
def markupRules : List Regex :=
  [oaiRegex, rafRegex, starburstRegex, fenceRegex, inlineCodeRegex, boldRegex, italicRegex]

/-- Text without backtick and without asterisk. -/
def MarkerFree (s : JSString) : Prop :=
  ∀ c ∈ s, c ≠ '`' ∧ c ≠ '*'

instance (s : JSString) : Decidable (MarkerFree s) := by
  unfold MarkerFree; infer_instance

/-! ## Sample data -/

/-- A message with the given id, role and content, as extracted at a fixed instant. -/
def sampleMessage (id role content : String) : Message :=
  { id := id.toList, role := role.toList, content := content.toList,
    html := ("<div>" ++ content ++ "</div>").toList,
    timestamp := "2024-05-01T10:00:00.000Z".toList }

/-- A snapshot of conversation `abc123` with the given messages. -/
def sampleSnapshot (messages : List Message) : Conversation :=
  { id := "abc123".toList, title := "Greetings".toList,
    createdAt := "2024-05-01T10:00:00.000Z".toList, messages := messages,
    url := "https://chatgpt.com/c/abc123".toList, lastUpdated := none }

/-- Two clock readings. -/
def t1 : JSString := "2024-05-01T10:00:01.000Z".toList
/-- A later clock reading. -/
def t2 : JSString := "2024-05-01T10:05:00.000Z".toList

/-- A snapshot with two messages of different content. -/
def helloSnapshot : Conversation :=
  sampleSnapshot [sampleMessage "msg_0" "user" "Hello there",
                  sampleMessage "msg_1" "assistant" "General Kenobi"]

/-- A record saved earlier: `helloSnapshot` stored at `t1`. -/
def helloRecord : Conversation := { helloSnapshot with lastUpdated := some t1 }

/-- The persisted map after `helloSnapshot` was saved at `t1` into an empty map. -/
def helloStore : Store := saveConversation t1 helloSnapshot []

/-- A later snapshot of the same page: the user sent "Thanks a lot" twice in a row. -/
def doubleThanksSnapshot : Conversation :=
  sampleSnapshot [sampleMessage "msg_0" "user" "Hello there",
                  sampleMessage "msg_1" "assistant" "General Kenobi",
                  sampleMessage "msg_2" "user" "Thanks a lot",
                  sampleMessage "msg_3" "user" "Thanks a lot"]

/-- A later snapshot of the same page with one more message. -/
def thanksSnapshot : Conversation :=
  sampleSnapshot [sampleMessage "msg_0" "user" "Hello there",
                  sampleMessage "msg_1" "assistant" "General Kenobi",
                  sampleMessage "msg_2" "user" "Thanks a lot"]

/-- A candidate element carrying `data-message-author-role` with the given text. -/
def roleElement (role text : String) : Element :=
  { roleAttr := some role.toList, textContent := text.toList,
    hasUserImage := false, insideUserTestid := false, hasSvg := false,
    hasMarkdown := false, hasPreCode := false, insideAssistantTestid := false,
    cleanText := text.toList, innerHTML := ("<div>" ++ text ++ "</div>").toList }

/-- A clock that reads the same instant for every candidate. -/
def fixedClock : Nat → JSString := fun _ => "2024-05-01T10:00:00.000Z".toList

/-- The page of the end-to-end scenario at the first extraction. -/
def scenarioPage1 : List Element :=
  [roleElement "user" "Hello", roleElement "assistant" "Hi there"]

/-- The page of the end-to-end scenario at the second extraction. -/
def scenarioPage2 : List Element :=
  [roleElement "user" "Hello", roleElement "assistant" "Hi there",
   roleElement "user" "Thanks"]

/-- The persisted map after the two extraction cycles of the scenario. -/
def scenarioStore : Store :=
  extractAndSave "abc123".toList "Greetings".toList "https://chatgpt.com/c/abc123".toList
    t2 t2 fixedClock scenarioPage2
    (extractAndSave "abc123".toList "Greetings".toList
      "https://chatgpt.com/c/abc123".toList t1 t1 fixedClock scenarioPage1 [])

/-- A page on which the user said the same thing twice. -/
def repeatPage : List Element :=
  [roleElement "user" "Thanks a lot", roleElement "assistant" "You are welcome",
   roleElement "user" "Thanks a lot"]

/-- The snapshot extracted from `repeatPage`. -/
def repeatSnapshot : Conversation :=
  sampleSnapshot [sampleMessage "msg_0" "user" "Thanks a lot",
                  sampleMessage "msg_1" "assistant" "You are welcome",
                  sampleMessage "msg_2" "user" "Thanks a lot"]

/-- The fragments `getMessageContent` rejects. -/
def noiseFragments : List JSString :=
  ["Copy code".toList, "Regenerate".toList, "window.__oai".toList,
   "requestAnimationFrame".toList, ".starburst".toList,
   "ChatGPT can make mistakes".toList]

/-- A page counter, in the words of the spec: digits, optional whitespace, a slash,
optional whitespace, digits, and nothing else. -/
def IsPageCounter (s : JSString) : Prop :=
  ∃ d1 w1 w2 d2 : JSString, d1 ≠ [] ∧ d2 ≠ [] ∧
    (∀ c ∈ d1, Regex.isDigit c = true) ∧ (∀ c ∈ w1, JSString.isWhiteSpace c = true) ∧
    (∀ c ∈ w2, JSString.isWhiteSpace c = true) ∧ (∀ c ∈ d2, Regex.isDigit c = true) ∧
    s = d1 ++ w1 ++ '/' :: (w2 ++ d2)

/-- A page with a code-copy button, a reply and a page counter among the candidates. -/
def noisyPage : List Element :=
  [roleElement "assistant" "Copy code", roleElement "assistant" "General Kenobi",
   roleElement "assistant" "3 / 7"]

/-- An export document whose `conversations` entry is `null`. -/
def nullConversationsText : JSString := "\x7b\"conversations\": null\x7d".toList

/-- An export document with two conversations. -/
def twoConversationsText : JSString :=
  ("\x7b\"version\": \"1.0.0\", \"conversations\": " ++
    "\x7b\"abc123\": \x7b\"messages\": []\x7d, \"def456\": \x7b\"messages\": []\x7d\x7d\x7d").toList

/-- A stored message whose html carries an instrumentation script. -/
def scriptedMessage : Message :=
  { sampleMessage "msg_1" "assistant" "General Kenobi" with
    html := "<script>window.__oai_logHTML();</script><p>General Kenobi</p>".toList }

/-- A stored message whose html has a style block in the middle of a word. -/
def splitMessage : Message :=
  { sampleMessage "msg_1" "assistant" "General Kenobi" with
    html := "window.__<style></style>oai".toList }

/-- A stored message without html whose content is the fingerprint itself. -/
def bareMessage : Message :=
  { sampleMessage "msg_1" "assistant" "window.__oai" with html := [] }

/-- A candidate element without role attribute and without any role marker. -/
def plainElement (text : String) : Element :=
  { roleAttr := none, textContent := text.toList,
    hasUserImage := false, insideUserTestid := false, hasSvg := false,
    hasMarkdown := false, hasPreCode := false, insideAssistantTestid := false,
    cleanText := text.toList, innerHTML := ("<div>" ++ text ++ "</div>").toList }

/-- A page whose second candidate carries the role attribute `tool`. -/
def toolPage : List Element :=
  [roleElement "user" "What is the weather in Paris?",
   roleElement "tool" "weather lookup: Paris, 18 degrees"]

/-- The message extracted from the second candidate of `toolPage`. -/
def toolMessage : Message :=
  { id := "msg_1".toList, role := "tool".toList,
    content := "weather lookup: Paris, 18 degrees".toList,
    html := "<div>weather lookup: Paris, 18 degrees</div>".toList,
    timestamp := "2024-05-01T10:00:00.000Z".toList }

/-- The patterns of `processMessageContent`, in the order of its `replace` calls. -/
def transformRules : List Regex :=
  [oaiRegex, rafRegex, starburstRegex, fenceRegex, inlineCodeRegex, boldRegex,
   italicRegex, Regex.lit "\n\n".toList, Regex.lit "\n".toList]

/-- The fragments `processMessageContent` starts deleting at. -/
def strippedFragments : List JSString :=
  ["window.__oai".toList, "requestAnimationFrame".toList, ".starburst".toList]

/-- A stored message whose html has a script opener split by a script block. -/
def nestedScriptMessage : Message :=
  { sampleMessage "msg_1" "assistant" "General Kenobi" with
    html := "<scr<script></script>ipt>alert(1)</script>".toList }

/-- A snapshot of the page `/c/constructor`. -/
def constructorSnapshot : Conversation :=
  { helloSnapshot with id := "constructor".toList,
                       url := "https://chatgpt.com/c/constructor".toList }

/-- The snapshot `thanksSnapshot` taken after the page changed its title, with a later
creation time and another URL. -/
def renamedThanksSnapshot : Conversation :=
  { thanksSnapshot with title := "Renamed".toList, createdAt := t2,
                        url := "https://chatgpt.com/c/abc123?model=x".toList }

/-! ## Deletion passes: fragments that can join text -/

/-- The non-empty proper beginnings of `w`. -/
def beginnings (w : JSString) : List JSString :=
  (List.range (w.length - 1)).map (fun k => w.take (k + 1))

/-- After a deleted match that ends at position `pos` with `rest` ahead, the beginning
`p` of `w` written before the match can be continued: a further match starts right
there, or the next character continues `p` (characters are compared through `f`). -/
def continues (f : Char → Char) (r : Regex) (w p : JSString) (pos : Nat)
    (rest : JSString) : Bool :=
  (Regex.matchAt r pos rest).isSome ||
    match rest with
    | [] => false
    | c :: _ => (p ++ [f c]).isPrefixOf w

/-- A match of `r` at position `i` of `s` can join text into `w`: some beginning of `w`
ends right before the match and can be continued right after it. -/
def joinsAt (f : Char → Char) (r : Regex) (w s : JSString) (i : Nat) : Bool :=
  match Regex.matchAt r i (s.drop i) with
  | none => false
  | some m =>
    (beginnings w).any (fun p =>
      p.isSuffixOf ((s.take i).map f) && continues f r w p m.pos m.rest)

/-- Some match of `r` in `s` can join text into `w`. -/
def joins (f : Char → Char) (r : Regex) (w s : JSString) : Bool :=
  (List.range (s.length + 1)).any (joinsAt f r w s)

/-- Bookkeeping of the deletion scan for a word `w`: every beginning `p` of `w` that
ends the output `e` ends the input read `a` too, as a piece copied from a position where
the pattern did not match, or else cannot be continued. -/
def Tracked (f : Char → Char) (r : Regex) (w a e rest : JSString) : Prop :=
  ∀ p ∈ beginnings w, p <:+ e.map f →
    (∃ a0 z, a = a0 ++ z ∧ z.map f = p ∧ Regex.matchAt r a0.length (z ++ rest) = none) ∨
    continues f r w p a.length rest = false

/-- The html after the first two cleaning steps of `createMessageElement`. -/
def cleanAfterRaf (html : JSString) : JSString :=
  Regex.replaceAll rafRegex removeMatch (Regex.replaceAll oaiRegex removeMatch html)

/-- The html after the first three cleaning steps of `createMessageElement`. -/
def cleanAfterScript (html : JSString) : JSString :=
  Regex.replaceAll scriptRegex removeMatch (cleanAfterRaf html)

/-- A stored message whose html has a script block right after the letter `w`. -/
def trackedMessage : Message :=
  { sampleMessage "msg_1" "assistant" "Not now then" with
    html := "<p>Not now<script>track(1)</script> then</p>".toList }

/-- The string has a block: a piece spelled `opening` in some letter case and, somewhere
after it, a piece spelled `closing` in some letter case (`opening` and `closing` are
given in lower case). -/
def HasBlock (opening closing s : JSString) : Prop :=
  ∃ a o x c b, s = a ++ (o ++ (x ++ (c ++ b))) ∧
    o.map Char.toLower = opening ∧ c.map Char.toLower = closing

/-- The lower-case string `t` has `opening` and, somewhere after it, `closing`. -/
def LowBlock (opening closing t : JSString) : Prop :=
  ∃ u v, t = u ++ opening ++ v ∧ closing <:+: v

/-- The tags whose unfinished beginnings a deleted block can complete. -/
def blockTags : List JSString :=
  ["<script".toList, "</script>".toList, "<style".toList, "</style>".toList]

/-- A stored message whose html is an element with a script block inside. -/
def divScriptMessage : Message :=
  { sampleMessage "msg_1" "assistant" "General Kenobi" with
    html := "<div>General <SCRIPT>track(1)</script>Kenobi</div>".toList }

/-! # Proofs -/

/-! ## Lemmas on the store and on `Set` -/

theorem JSSet.has_add (s : JSSet) (x y : JSString) :
    (JSSet.add s x).has y = (s.has y || decide (x = y)) := by
  unfold JSSet.add
  by_cases h : s.has x = true
  · simp only [h, if_true]
    by_cases hxy : x = y
    · subst hxy; simp [h]
    · simp [hxy]
  · simp only [h]
    simp [JSSet.has, List.contains_eq_any_beq, List.any_append, eq_comm]

theorem JSSet.has_foldl_add (xs : List JSString) (s : JSSet) (y : JSString) :
    (xs.foldl JSSet.add s).has y = (s.has y || xs.contains y) := by
  induction xs generalizing s with
  | nil => simp
  | cons x xs ih =>
    rw [List.foldl_cons, ih, JSSet.has_add]
    by_cases hxy : x = y
    · subst hxy; simp
    · have hyx : ¬ y = x := fun h => hxy h.symm
      simp [hxy, hyx, List.contains_cons]

theorem JSSet.has_ofList (xs : List JSString) (y : JSString) :
    (JSSet.ofList xs).has y = xs.contains y := by
  unfold JSSet.ofList
  rw [JSSet.has_foldl_add]
  simp [JSSet.has]

theorem JSSet.has_ofList_iff (xs : List JSString) (y : JSString) :
    (JSSet.ofList xs).has y = true ↔ y ∈ xs := by
  rw [JSSet.has_ofList]; simp

theorem Store.get_set_self (s : Store) (id : JSString) (r : Conversation) :
    (s.set id r).get id = some r := by
  induction s with
  | nil => simp [Store.set, Store.get]
  | cons e rest ih =>
    obtain ⟨k, v⟩ := e
    by_cases h : k = id
    · simp [Store.set, Store.get, h]
    · simp [Store.set, Store.get, h, ih]

theorem Store.get_set_ne (s : Store) (id id2 : JSString) (r : Conversation)
    (h : id ≠ id2) : (s.set id r).get id2 = s.get id2 := by
  induction s with
  | nil => simp [Store.set, Store.get, h]
  | cons e rest ih =>
    obtain ⟨k, v⟩ := e
    by_cases hk : k = id
    · subst hk; simp [Store.set, Store.get, h]
    · by_cases hk2 : k = id2
      · subst hk2; simp [Store.set, Store.get, hk]
      · simp [Store.set, Store.get, hk, hk2, ih]

/-- The messages the merge keeps: those whose content is not yet stored. -/
theorem filter_has_eq (existing : List Message) (incoming : List Message) :
    incoming.filter (fun msg =>
        !(JSSet.ofList (existing.map (fun m => m.content))).has msg.content)
      = incoming.filter (fun m => decide (FreshContent existing m)) := by
  apply List.filter_congr
  intro m _
  rw [JSSet.has_ofList]
  by_cases h : m.content ∈ existing.map (fun m => m.content)
  · have h2 : ¬ FreshContent existing m := by
      intro hall
      obtain ⟨x, hx, hxc⟩ := List.mem_map.mp h
      exact hall x hx hxc
    have h3 : (List.map (fun m => m.content) existing).contains m.content = true := by
      simpa using h
    rw [h3, decide_eq_false h2]
    rfl
  · have h2 : FreshContent existing m := by
      intro x hx hxc
      exact h (List.mem_map.mpr ⟨x, hx, hxc⟩)
    have h3 : (List.map (fun m => m.content) existing).contains m.content = false := by
      simpa using h
    rw [h3, decide_eq_true h2]
    rfl

/-! ## Merge engine: what one `saveConversation` call stores -/

/-- First save: the record stored under a fresh id that names no member of
`Object.prototype`. -/
theorem get_save_fresh (now : JSString) (c : Conversation) (store : Store)
    (h : store.get c.id = none) (hown : Store.inherits c.id = false) :
    (saveConversation now c store).get c.id = some { c with lastUpdated := some now } := by
  unfold saveConversation
  rw [h]
  simp only [hown, Bool.false_eq_true, if_false]
  exact Store.get_set_self _ _ _

/-- First save under an id that names a member of `Object.prototype`: nothing is
written. -/
theorem save_inherited (now : JSString) (c : Conversation) (store : Store)
    (h : store.get c.id = none) (hin : Store.inherits c.id = true) :
    saveConversation now c store = store := by
  unfold saveConversation
  rw [h]
  simp only [hin, if_true]

/-- Merge: the record stored under an id that already has a record. -/
theorem get_save_existing (now : JSString) (c e : Conversation) (store : Store)
    (h : store.get c.id = some e) :
    (saveConversation now c store).get c.id = some (mergeSpec now (some e) c) := by
  unfold saveConversation mergeSpec
  rw [h]
  simp only [filter_has_eq]
  by_cases hf : c.messages.filter
      (fun m => decide (FreshContent e.messages m)) = []
  · simp [hf, h]
  · have hpos : (c.messages.filter
        (fun m => decide (FreshContent e.messages m))).length > 0 :=
      List.length_pos.mpr hf
    simp only [hpos, if_true, hf, if_false]
    exact Store.get_set_self _ _ _

/-- A save leaves the records under other ids alone. -/
theorem get_save_other (now : JSString) (c : Conversation) (store : Store)
    (id : JSString) (hne : c.id ≠ id) :
    (saveConversation now c store).get id = store.get id := by
  unfold saveConversation
  cases h : store.get c.id with
  | none =>
    simp only
    split
    · rfl
    · exact Store.get_set_ne _ _ _ _ hne
  | some e =>
    simp only
    split
    · exact Store.get_set_ne _ _ _ _ hne
    · rfl

/-- When nothing of the incoming snapshot is new the map is written back as it was. -/
theorem save_eq_self_of_no_new (now : JSString) (c e : Conversation) (store : Store)
    (h : store.get c.id = some e)
    (hall : ∀ m ∈ c.messages, ∃ x ∈ e.messages, x.content = m.content) :
    saveConversation now c store = store := by
  unfold saveConversation
  rw [h]
  simp only [filter_has_eq]
  have hf : c.messages.filter
      (fun m => decide (FreshContent e.messages m)) = [] := by
    rw [List.filter_eq_nil_iff]
    intro m hm
    obtain ⟨x, hx, hxc⟩ := hall m hm
    simp only [decide_eq_true_eq]
    intro hcon
    exact hcon x hx hxc
  simp [hf]


/-- Appending the incoming messages not yet stored keeps contents pairwise different,
provided the incoming snapshot itself has no repeated content. -/
theorem noDuplicate_append_filter (existing incoming : List Message)
    (he : NoDuplicateContent existing) (hi : NoDuplicateContent incoming) :
    NoDuplicateContent (existing ++ incoming.filter
      (fun m => decide (FreshContent existing m))) := by
  unfold NoDuplicateContent at *
  rw [List.map_append, List.nodup_append]
  refine ⟨he, ?_, ?_⟩
  · exact List.Nodup.sublist (List.Sublist.map _ (List.filter_sublist _)) hi
  · intro s hs1 hs2
    obtain ⟨x, hx, hxs⟩ := List.mem_map.mp hs1
    obtain ⟨m, hm, hms⟩ := List.mem_map.mp hs2
    have hm2 := (List.mem_filter.mp hm).2
    simp only [decide_eq_true_eq] at hm2
    exact hm2 x hx (hxs.trans hms.symm)

/-- One save keeps the invariant "no stored record has two messages of equal content",
when the incoming snapshot has none either. -/
theorem save_preserves_noDuplicate (now : JSString) (c : Conversation) (store : Store)
    (hc : NoDuplicateContent c.messages)
    (hs : ∀ id r, store.get id = some r → NoDuplicateContent r.messages) :
    ∀ id r, (saveConversation now c store).get id = some r →
      NoDuplicateContent r.messages := by
  intro id r hr
  by_cases hid : c.id = id
  · subst hid
    cases hg : store.get c.id with
    | none =>
      cases hin : Store.inherits c.id with
      | true =>
        rw [save_inherited now c store hg hin, hg] at hr
        cases hr
      | false =>
        rw [get_save_fresh now c store hg hin] at hr
        cases hr
        exact hc
    | some e =>
      rw [get_save_existing now c e store hg] at hr
      cases hr
      unfold mergeSpec
      simp only
      split
      · exact hs _ _ hg
      · exact noDuplicate_append_filter _ _ (hs _ _ hg) hc
  · rw [get_save_other now c store id hid] at hr
    exact hs id r hr

/-- C1. Merge idempotence: saving a snapshot `c` into a map with no record under `c.id`
and then saving the same `c` again at any later time leaves the map, and so the record
under `c.id`, exactly as after the first save: same message list and same `lastUpdated`.
When `c.id` names no member of `Object.prototype`, that record is `c` with `lastUpdated`
set to the time of the first save. -/
theorem saveConversation_idempotent (now1 now2 : JSString) (c : Conversation)
    (store : Store) (h : store.get c.id = none) :
    saveConversation now2 c (saveConversation now1 c store)
        = saveConversation now1 c store
      ∧ (saveConversation now2 c (saveConversation now1 c store)).get c.id
        = (saveConversation now1 c store).get c.id
      ∧ (Store.inherits c.id = false →
          (saveConversation now2 c (saveConversation now1 c store)).get c.id
            = some { c with lastUpdated := some now1 }) := by
  have h2 : saveConversation now2 c (saveConversation now1 c store)
      = saveConversation now1 c store := by
    cases hin : Store.inherits c.id with
    | true =>
      rw [save_inherited now1 c store h hin]
      exact save_inherited now2 c store h hin
    | false =>
      have h1 := get_save_fresh now1 c store h hin
      apply save_eq_self_of_no_new now2 c { c with lastUpdated := some now1 } _ h1
      intro m hm
      exact ⟨m, hm, rfl⟩
  exact ⟨h2, by rw [h2], fun hin => by rw [h2]; exact get_save_fresh now1 c store h hin⟩

theorem saveConversation_idempotent_witness :
    Store.get [] helloSnapshot.id = none ∧
    (saveConversation t2 helloSnapshot (saveConversation t1 helloSnapshot [])
        = saveConversation t1 helloSnapshot []
      ∧ (saveConversation t2 helloSnapshot (saveConversation t1 helloSnapshot [])).get
          helloSnapshot.id = some { helloSnapshot with lastUpdated := some t1 }) :=
  ⟨rfl, (saveConversation_idempotent t1 t2 helloSnapshot [] rfl).1,
    (saveConversation_idempotent t1 t2 helloSnapshot [] rfl).2.2 (by decide)⟩

/-- C2, as stated, fails: the stored record holds "Hello there" and "General Kenobi";
the incoming snapshot carries exactly one content string that is not stored,
"Thanks a lot", but in two messages.  Both are appended, so the merged list has two more
messages than before, not one. -/
theorem append_one_new_content_counterexample :
    helloStore.get doubleThanksSnapshot.id = some helloRecord ∧
    (∃ m ∈ doubleThanksSnapshot.messages, m.content = "Thanks a lot".toList) ∧
    (∀ x ∈ helloRecord.messages, x.content ≠ "Thanks a lot".toList) ∧
    (∀ m ∈ doubleThanksSnapshot.messages,
      (∀ x ∈ helloRecord.messages, x.content ≠ m.content) →
        m.content = "Thanks a lot".toList) ∧
    ((saveConversation t2 doubleThanksSnapshot helloStore).get
        doubleThanksSnapshot.id).map (fun r => r.messages.length)
      = some (helloRecord.messages.length + 2) := by
  decide

/-- C2, amended. Append correctness: when exactly one message `m` of the incoming
snapshot has a content that no stored message has (every other incoming message repeats
a stored content), the merged record is the existing record with `m` appended after the
existing messages, in their original order, and with `lastUpdated` set to the merge
time. -/
theorem merge_appends_single_new_message (now : JSString) (c e : Conversation)
    (store : Store) (pre post : List Message) (m : Message)
    (h : store.get c.id = some e)
    (hsplit : c.messages = pre ++ m :: post)
    (hnew : FreshContent e.messages m)
    (hold : ∀ y ∈ pre ++ post, ∃ x ∈ e.messages, x.content = y.content) :
    (saveConversation now c store).get c.id
      = some { e with messages := e.messages ++ [m], lastUpdated := some now } := by
  rw [get_save_existing now c e store h]
  have hnone : ∀ l : List Message, (∀ y ∈ l, ∃ x ∈ e.messages, x.content = y.content) →
      l.filter (fun m => decide (FreshContent e.messages m)) = [] := by
    intro l hl
    rw [List.filter_eq_nil_iff]
    intro y hy
    obtain ⟨x, hx, hxc⟩ := hl y hy
    simp only [decide_eq_true_eq]
    intro hcon
    exact hcon x hx hxc
  have hf : c.messages.filter
      (fun m => decide (FreshContent e.messages m)) = [m] := by
    rw [hsplit, List.filter_append, List.filter_cons]
    rw [hnone pre (fun y hy => hold y (List.mem_append_left _ hy)),
      hnone post (fun y hy => hold y (List.mem_append_right _ hy))]
    simp only [List.nil_append]
    split
    · rfl
    · rename_i hneg
      simp only [decide_eq_true_eq] at hneg
      exact absurd hnew hneg
  unfold mergeSpec
  simp [hf]

theorem merge_appends_single_new_message_witness :
    (saveConversation t2 thanksSnapshot helloStore).get thanksSnapshot.id
      = some { helloRecord with
          messages := helloRecord.messages ++ [sampleMessage "msg_2" "user" "Thanks a lot"]
          lastUpdated := some t2 } :=
  merge_appends_single_new_message t2 thanksSnapshot helloRecord helloStore
    [sampleMessage "msg_0" "user" "Hello there",
     sampleMessage "msg_1" "assistant" "General Kenobi"] []
    (sampleMessage "msg_2" "user" "Thanks a lot")
    (by decide) (by decide) (by decide) (by decide)

/-- C3, as stated, fails: on a page where the user said "Thanks a lot" twice the
extractor yields a snapshot with that content twice, and one save of this snapshot into
the empty map stores it as it is, with the repeated content. -/
theorem no_duplicate_counterexample :
    extractCurrentConversation "abc123".toList "Greetings".toList
        "https://chatgpt.com/c/abc123".toList "2024-05-01T10:00:00.000Z".toList
        fixedClock repeatPage = some repeatSnapshot ∧
    (saveAll [(t1, repeatSnapshot)] []).get repeatSnapshot.id
      = some { repeatSnapshot with lastUpdated := some t1 } ∧
    ¬ NoDuplicateContent repeatSnapshot.messages := by
  decide

/-- C3, amended. No-duplicate invariant: in every map reached from the empty map by a
sequence of `saveConversation` calls whose snapshots each have no two messages of
identical content, no stored conversation has two messages of identical content. -/
theorem no_duplicate_content_invariant (calls : List (JSString × Conversation))
    (hcalls : ∀ call ∈ calls, NoDuplicateContent call.2.messages)
    (id : JSString) (r : Conversation)
    (hr : (saveAll calls []).get id = some r) :
    NoDuplicateContent r.messages := by
  have key : ∀ (calls : List (JSString × Conversation)) (store : Store),
      (∀ call ∈ calls, NoDuplicateContent call.2.messages) →
      (∀ id r, store.get id = some r → NoDuplicateContent r.messages) →
      ∀ id r, (saveAll calls store).get id = some r → NoDuplicateContent r.messages := by
    intro calls
    induction calls with
    | nil => intro store _ hs; exact hs
    | cons call rest ih =>
      intro store hc hs
      unfold saveAll
      rw [List.foldl_cons]
      apply ih
      · intro call2 h2
        exact hc call2 (List.mem_cons_of_mem _ h2)
      · exact save_preserves_noDuplicate call.1 call.2 store
          (hc call (List.mem_cons_self _ _)) hs
  exact key calls [] hcalls (fun _ _ h => by simp [Store.get] at h) id r hr

theorem no_duplicate_content_invariant_witness :
    NoDuplicateContent
      ({ helloRecord with
          messages := helloRecord.messages ++ [sampleMessage "msg_2" "user" "Thanks a lot"]
          lastUpdated := some t2 } : Conversation).messages :=
  no_duplicate_content_invariant [(t1, helloSnapshot), (t2, thanksSnapshot)]
    (by decide) thanksSnapshot.id _ (by decide)

/-- C4. Dedup no-op: when a record `e` is stored under the incoming id and every
incoming message has the content of some message of `e`, `saveConversation` writes the
map back unchanged, so the record under that id is still `e`: same message list, same
message count, same `lastUpdated`. -/
theorem saveConversation_dedup_noop (now : JSString) (c e : Conversation) (store : Store)
    (h : store.get c.id = some e)
    (hall : ∀ m ∈ c.messages, ∃ x ∈ e.messages, x.content = m.content) :
    saveConversation now c store = store ∧
    (saveConversation now c store).get c.id = some e := by
  have hs := save_eq_self_of_no_new now c e store h hall
  exact ⟨hs, by rw [hs]; exact h⟩

theorem saveConversation_dedup_noop_witness :
    saveConversation t2 helloSnapshot helloStore = helloStore ∧
    (saveConversation t2 helloSnapshot helloStore).get helloSnapshot.id
      = some helloRecord :=
  saveConversation_dedup_noop t2 helloSnapshot helloRecord helloStore
    (by decide) (by decide)

/-- C5. Merge reference definition: when a record `e` is stored under the incoming id,
the record stored after `saveConversation` is the one the merge contract describes
(`mergeSpec`), and its message list is `e.messages` followed by the incoming messages, in
incoming order, whose content equals the content of no message of `e`.  Whether a
message is kept depends on its content only: rewriting the incoming messages by any
function `g` that keeps `content` (changing id, role, html or timestamp at will) keeps
exactly the same positions, the merged list being `e.messages` followed by the rewritten
kept messages. -/
theorem merge_reference_definition (now : JSString) (c e : Conversation) (store : Store)
    (h : store.get c.id = some e) :
    (saveConversation now c store).get c.id = some (mergeSpec now (some e) c) ∧
    (mergeSpec now (some e) c).messages
      = e.messages ++ c.messages.filter
          (fun m => decide (FreshContent e.messages m)) ∧
    ∀ g : Message → Message, (∀ m, (g m).content = m.content) →
      ∃ r, (saveConversation now { c with messages := c.messages.map g } store).get c.id
          = some r ∧
        r.messages = e.messages ++ (c.messages.filter
          (fun m => decide (FreshContent e.messages m))).map g := by
  have hmsgs : ∀ c2 : Conversation, (mergeSpec now (some e) c2).messages
      = e.messages ++ c2.messages.filter
          (fun m => decide (FreshContent e.messages m)) := by
    intro c2
    unfold mergeSpec
    simp only
    split
    · rename_i hnil
      rw [hnil, List.append_nil]
    · rfl
  refine ⟨get_save_existing now c e store h, hmsgs c, ?_⟩
  intro g hg
  refine ⟨mergeSpec now (some e) { c with messages := c.messages.map g }, ?_, ?_⟩
  · exact get_save_existing now { c with messages := c.messages.map g } e store h
  · rw [hmsgs]
    simp only [List.filter_map]
    congr 2
    apply List.filter_congr
    intro m _
    have hiff : FreshContent e.messages (g m) ↔ FreshContent e.messages m := by
      unfold FreshContent
      rw [hg]
    exact decide_eq_decide.mpr hiff

theorem merge_reference_definition_witness :
    (saveConversation t2 doubleThanksSnapshot helloStore).get doubleThanksSnapshot.id
      = some (mergeSpec t2 (some helloRecord) doubleThanksSnapshot) ∧
    (mergeSpec t2 (some helloRecord) doubleThanksSnapshot).messages
      = helloRecord.messages ++
          [sampleMessage "msg_2" "user" "Thanks a lot",
           sampleMessage "msg_3" "user" "Thanks a lot"] :=
  ⟨(merge_reference_definition t2 doubleThanksSnapshot helloRecord helloStore
      (by decide)).1,
   by decide⟩

/-- Where the first save does store the snapshot: when the map holds no record under the
incoming id and the id names no member of `Object.prototype`, the record under that id
afterwards is the incoming snapshot with `lastUpdated` set to the merge time. -/
theorem first_save_own_id (now : JSString) (c : Conversation) (store : Store)
    (h : store.get c.id = none) (hown : Store.inherits c.id = false) :
    ∃ r, (saveConversation now c store).get c.id = some r ∧
      r.id = c.id ∧ r.title = c.title ∧ r.createdAt = c.createdAt ∧
      r.messages = c.messages ∧ r.url = c.url ∧ r.lastUpdated = some now :=
  ⟨{ c with lastUpdated := some now }, get_save_fresh now c store h hown,
   rfl, rfl, rfl, rfl, rfl, rfl⟩

/-- C6. First save on the code: when the map holds no record under the incoming id and
the id names a member of `Object.prototype` (`constructor`, `toString`, `__proto__`, ...),
`conversations[conversation.id]` is that inherited member, the merge branch is taken and
fails on `existing.messages.map`, and nothing is stored: the map is left as it was and
still has no record under the id.  The record is not the incoming snapshot. -/
theorem first_save_inherited_id (now : JSString) (c : Conversation) (store : Store)
    (h : store.get c.id = none) (hin : c.id ∈ objectPrototypeKeys) :
    saveConversation now c store = store ∧
    (saveConversation now c store).get c.id = none ∧
    (saveConversation now c store).get c.id ≠ some { c with lastUpdated := some now } := by
  have hs : saveConversation now c store = store :=
    save_inherited now c store h (by simpa [Store.inherits] using hin)
  rw [hs, h]
  exact ⟨rfl, rfl, by simp⟩

/-- C6 on the page `/c/constructor`: the id derived from the location is `constructor`,
and saving the snapshot of that page into the empty map stores nothing. -/
theorem first_save_inherited_id_witness :
    getConversationId "/c/constructor".toList 0 = constructorSnapshot.id ∧
    Store.get [] constructorSnapshot.id = none ∧
    constructorSnapshot.id ∈ objectPrototypeKeys ∧
    saveConversation t1 constructorSnapshot [] = [] ∧
    (saveConversation t1 constructorSnapshot []).get constructorSnapshot.id = none :=
  ⟨by decide, rfl, by decide,
    (first_save_inherited_id t1 constructorSnapshot [] rfl (by decide)).1,
    (first_save_inherited_id t1 constructorSnapshot [] rfl (by decide)).2.1⟩

/-! ## Strings and regular expressions -/

theorem JSString.includes_iff (s pat : JSString) :
    JSString.includes s pat = true ↔ pat <:+: s := by
  induction s with
  | nil =>
    simp only [JSString.includes, List.isPrefixOf_iff_prefix, List.prefix_nil,
      List.infix_nil]
  | cons c t ih =>
    simp only [JSString.includes, Bool.or_eq_true, List.isPrefixOf_iff_prefix, ih,
      List.infix_cons_iff]

theorem JSString.includes_eq_false_iff (s pat : JSString) :
    JSString.includes s pat = false ↔ ¬ pat <:+: s := by
  rw [← JSString.includes_iff]; simp

theorem JSString.length16_pos_iff (s : JSString) : 0 < JSString.length16 s ↔ s ≠ [] := by
  cases s with
  | nil => simp [JSString.length16]
  | cons c t =>
    simp only [JSString.length16, JSString.units, ne_eq, reduceCtorEq, not_false_eq_true,
      iff_true]
    split <;> omega

theorem Regex.resetCaps_nil (s : MatchState) : Regex.resetCaps [] s = s := by
  cases s
  simp [Regex.resetCaps]

theorem Regex.mem_run_seq (r1 r2 : Regex) (s s2 : MatchState) :
    s2 ∈ Regex.run (.seq r1 r2) s ↔ ∃ m ∈ Regex.run r1 s, s2 ∈ Regex.run r2 m := by
  simp only [Regex.run, List.mem_flatMap]

theorem Regex.run_chr_cons (p : Char → Bool) (pos : Nat) (c : Char) (t : JSString)
    (caps : List (Nat × JSString)) (h : p c = true) :
    Regex.run (.chr p) ⟨pos, c :: t, caps⟩ = [⟨pos + 1, t, caps⟩] := by
  simp [Regex.run, h]

/-- A repetition of a character class can stop after any run of characters of the
class. -/
theorem Regex.mem_starLoop_chr (p : Char → Bool) (greedy : Bool) (w t : JSString)
    (hw : ∀ c ∈ w, p c = true) (caps : List (Nat × JSString)) :
    ∀ (pos fuel : Nat), w.length ≤ fuel →
      (⟨pos + w.length, t, caps⟩ : MatchState) ∈
        Regex.starLoop (fun x => Regex.run (.chr p) (Regex.resetCaps [] x)) greedy fuel
          ⟨pos, w ++ t, caps⟩ := by
  induction w with
  | nil =>
    intro pos fuel _
    cases fuel with
    | zero => simp [Regex.starLoop]
    | succ f => cases greedy <;> simp [Regex.starLoop]
  | cons c w ih =>
    intro pos fuel hfuel
    cases fuel with
    | zero => simp at hfuel
    | succ f =>
      have hc : p c = true := hw c (List.mem_cons_self _ _)
      have hrec := ih (fun x hx => hw x (List.mem_cons_of_mem _ hx)) (pos + 1) f
        (by simpa using hfuel)
      have hpos : pos + 1 + w.length = pos + (c :: w).length := by
        simp only [List.length_cons]; omega
      rw [hpos] at hrec
      have hmore : (⟨pos + (c :: w).length, t, caps⟩ : MatchState) ∈
          ((Regex.run (.chr p) (Regex.resetCaps [] ⟨pos, (c :: w) ++ t, caps⟩)).filter
            (fun s2 => decide (s2.rest.length <
              (⟨pos, (c :: w) ++ t, caps⟩ : MatchState).rest.length))).flatMap
            (Regex.starLoop (fun x => Regex.run (.chr p) (Regex.resetCaps [] x)) greedy f) := by
        rw [Regex.resetCaps_nil, List.cons_append, Regex.run_chr_cons p pos c (w ++ t) caps hc]
        simp only [List.length_cons, List.length_append, Nat.lt_succ_self, decide_True,
          List.filter_cons_of_pos, List.filter_nil, List.flatMap_cons, List.flatMap_nil,
          List.append_nil]
        exact hrec
      cases greedy with
      | true =>
        simp only [Regex.starLoop, if_true]
        exact List.mem_append_left _ hmore
      | false =>
        simp only [Regex.starLoop]
        exact List.mem_cons_of_mem _ hmore

theorem Regex.mem_run_star_chr (p : Char → Bool) (greedy : Bool) (w t : JSString)
    (hw : ∀ c ∈ w, p c = true) (pos : Nat) (caps : List (Nat × JSString)) :
    (⟨pos + w.length, t, caps⟩ : MatchState) ∈
      Regex.run (.star (.chr p) greedy) ⟨pos, w ++ t, caps⟩ := by
  simp only [Regex.run, Regex.groups]
  exact Regex.mem_starLoop_chr p greedy w t hw caps pos _ (by simp)

theorem Regex.mem_run_plus_chr (p : Char → Bool) (greedy : Bool) (w t : JSString)
    (hne : w ≠ []) (hw : ∀ c ∈ w, p c = true) (pos : Nat) (caps : List (Nat × JSString)) :
    (⟨pos + w.length, t, caps⟩ : MatchState) ∈
      Regex.run (Regex.plus (.chr p) greedy) ⟨pos, w ++ t, caps⟩ := by
  cases w with
  | nil => exact absurd rfl hne
  | cons c w =>
    unfold Regex.plus
    rw [Regex.mem_run_seq]
    refine ⟨⟨pos + 1, w ++ t, caps⟩, ?_, ?_⟩
    · rw [List.cons_append, Regex.run_chr_cons p pos c (w ++ t) caps
        (hw c (List.mem_cons_self _ _))]
      exact List.mem_singleton_self _
    · have h := Regex.mem_run_star_chr p greedy w t
        (fun x hx => hw x (List.mem_cons_of_mem _ hx)) (pos + 1) caps
      have hpos : pos + 1 + w.length = pos + (c :: w).length := by
        simp only [List.length_cons]; omega
      rw [hpos] at h
      exact h

theorem Regex.search_isSome_of_run_ne_nil (r : Regex) (pos : Nat) (s : JSString)
    (m : MatchState) (hm : m ∈ Regex.run r ⟨pos, s, []⟩) :
    (Regex.search r pos s).isSome = true := by
  have hhead : (Regex.matchAt r pos s).isSome = true := by
    unfold Regex.matchAt
    cases hrun : Regex.run r ⟨pos, s, []⟩ with
    | nil => rw [hrun] at hm; simp at hm
    | cons a l => simp
  cases s with
  | nil =>
    simp only [Regex.search, Option.isSome_map']
    exact hhead
  | cons c t =>
    simp only [Regex.search]
    cases hma : Regex.matchAt r pos (c :: t) with
    | none => rw [hma] at hhead; simp at hhead
    | some m2 => simp

/-! ## The iteration bounds are large enough -/

theorem Regex.starLoop_succ (body : MatchState → List MatchState) (greedy : Bool)
    (fuel : Nat) (s : MatchState) :
    Regex.starLoop body greedy (fuel + 1) s
      = if greedy then
          ((body s).filter (fun s2 => decide (s2.rest.length < s.rest.length))).flatMap
            (Regex.starLoop body greedy fuel) ++ [s]
        else
          s :: ((body s).filter (fun s2 => decide (s2.rest.length < s.rest.length))).flatMap
            (Regex.starLoop body greedy fuel) := rfl

theorem Regex.replaceLoop_succ (r : Regex) (repl : MatchState → JSString)
    (fuel pos : Nat) (rest : JSString) :
    Regex.replaceLoop r repl (fuel + 1) pos rest
      = match Regex.matchAt r pos rest with
        | some m =>
          if m.rest.length < rest.length then
            repl m ++ Regex.replaceLoop r repl fuel m.pos m.rest
          else
            match rest with
            | [] => repl m
            | c :: t => repl m ++ c :: Regex.replaceLoop r repl fuel (pos + 1) t
        | none =>
          match rest with
          | [] => []
          | c :: t => c :: Regex.replaceLoop r repl fuel (pos + 1) t := by
  cases rest <;> rfl

/-- One more unit of fuel does not change a repetition: the fuel the matcher gives,
the length of the input left, is never used up. -/
theorem Regex.starLoop_fuel_succ (body : MatchState → List MatchState) (greedy : Bool) :
    ∀ (fuel : Nat) (s : MatchState), s.rest.length ≤ fuel →
      Regex.starLoop body greedy (fuel + 1) s = Regex.starLoop body greedy fuel s := by
  intro fuel
  induction fuel with
  | zero =>
    intro s hs
    have hnone : (body s).filter (fun s2 => decide (s2.rest.length < s.rest.length)) = [] := by
      rw [List.filter_eq_nil_iff]
      intro y _
      simp only [decide_eq_true_eq]
      omega
    cases greedy <;> simp [Regex.starLoop, hnone]
  | succ f ih =>
    intro s hs
    have hcongr : ((body s).filter
          (fun s2 => decide (s2.rest.length < s.rest.length))).flatMap
          (Regex.starLoop body greedy (f + 1))
        = ((body s).filter
          (fun s2 => decide (s2.rest.length < s.rest.length))).flatMap
          (Regex.starLoop body greedy f) := by
      apply List.flatMap_congr
      intro y hy
      have hlt := (List.mem_filter.mp hy).2
      simp only [decide_eq_true_eq] at hlt
      exact ih y (by omega)
    rw [Regex.starLoop_succ body greedy (f + 1) s, Regex.starLoop_succ body greedy f s]
    simp only [hcongr]

/-- One more unit of fuel does not change the result of the `replace` loop: the fuel
`replaceAll` gives, one more than the length of the input, is never used up. -/
theorem Regex.replaceLoop_fuel_succ (r : Regex) (repl : MatchState → JSString) :
    ∀ (fuel pos : Nat) (rest : JSString), rest.length < fuel →
      Regex.replaceLoop r repl (fuel + 1) pos rest
        = Regex.replaceLoop r repl fuel pos rest := by
  intro fuel
  induction fuel with
  | zero => intro pos rest h; omega
  | succ f ih =>
    intro pos rest hlen
    rw [Regex.replaceLoop_succ r repl (f + 1) pos rest, Regex.replaceLoop_succ r repl f pos rest]
    cases hm : Regex.matchAt r pos rest with
    | none =>
      cases rest with
      | nil => rfl
      | cons c t =>
        simp only
        rw [ih (pos + 1) t (by simpa using hlen)]
    | some m =>
      simp only
      split
      · rename_i hprog
        rw [ih m.pos m.rest (by omega)]
      · cases rest with
        | nil => rfl
        | cons c t =>
          simp only
          rw [ih (pos + 1) t (by simpa using hlen)]

/-! ## Extractor -/

/-- The page-counter expression matches every string of the page-counter shape. -/
theorem test_pageCounterRegex_of_isPageCounter (s : JSString) (h : IsPageCounter s) :
    Regex.test pageCounterRegex s = true := by
  obtain ⟨d1, w1, w2, d2, hd1, hd2, hD1, hW1, hW2, hD2, rfl⟩ := h
  unfold Regex.test
  apply Regex.search_isSome_of_run_ne_nil pageCounterRegex 0 _
    ⟨0 + d1.length + w1.length + 1 + w2.length + d2.length, [], []⟩
  unfold pageCounterRegex
  rw [Regex.mem_run_seq]
  refine ⟨⟨0, d1 ++ w1 ++ '/' :: (w2 ++ d2), []⟩, by simp [Regex.run], ?_⟩
  rw [Regex.mem_run_seq]
  refine ⟨⟨0 + d1.length, w1 ++ '/' :: (w2 ++ d2), []⟩, ?_, ?_⟩
  · rw [List.append_assoc]
    exact Regex.mem_run_plus_chr _ true d1 _ hd1 hD1 0 []
  rw [Regex.mem_run_seq]
  refine ⟨⟨0 + d1.length + w1.length, '/' :: (w2 ++ d2), []⟩, ?_, ?_⟩
  · exact Regex.mem_run_star_chr _ true w1 _ hW1 _ []
  rw [Regex.mem_run_seq]
  refine ⟨⟨0 + d1.length + w1.length + 1, w2 ++ d2, []⟩, ?_, ?_⟩
  · simp [Regex.lit, Regex.run]
  rw [Regex.mem_run_seq]
  refine ⟨⟨0 + d1.length + w1.length + 1 + w2.length, d2, []⟩, ?_, ?_⟩
  · exact Regex.mem_run_star_chr _ true w2 _ hW2 _ []
  rw [Regex.mem_run_seq]
  refine ⟨⟨0 + d1.length + w1.length + 1 + w2.length + d2.length, [], []⟩, ?_, ?_⟩
  · have h := Regex.mem_run_plus_chr _ true d2 [] hd2 hD2
      (0 + d1.length + w1.length + 1 + w2.length) []
    rw [List.append_nil] at h
    exact h
  · simp [Regex.run]

/-- What `getMessageContent` guarantees of a non-empty result. -/
theorem getMessageContent_clean (element : Element)
    (h : getMessageContent element ≠ []) :
    5 ≤ JSString.length16 (getMessageContent element) ∧
    (∀ frag ∈ noiseFragments, ¬ frag <:+: getMessageContent element) ∧
    ¬ IsPageCounter (getMessageContent element) := by
  unfold getMessageContent at h ⊢
  simp only at h ⊢
  split at h
  · exact absurd rfl h
  · rename_i hcond
    rw [if_neg hcond]
    simp only [Bool.or_eq_true, not_or, decide_eq_true_eq, Bool.not_eq_true,
      JSString.includes_eq_false_iff] at hcond
    obtain ⟨⟨⟨⟨⟨⟨⟨hlen, h1⟩, h2⟩, h3⟩, h4⟩, h5⟩, h6⟩, h7⟩ := hcond
    refine ⟨by omega, ?_, ?_⟩
    · intro frag hfrag
      simp only [noiseFragments, List.mem_cons, List.mem_singleton, List.not_mem_nil,
        or_false] at hfrag
      rcases hfrag with rfl | rfl | rfl | rfl | rfl | rfl <;> assumption
    · intro hpc
      rw [test_pageCounterRegex_of_isPageCounter _ hpc] at h7
      exact absurd h7 (by simp)

theorem mem_extractFrom (clock : Nat → JSString) (elements : List Element) :
    ∀ (index : Nat) (m : Message), m ∈ extractFrom clock elements index →
      ∃ element ∈ elements, ∃ i, extractMessage clock element i = some m := by
  induction elements with
  | nil => intro index m hm; simp [extractFrom] at hm
  | cons e rest ih =>
    intro index m hm
    unfold extractFrom at hm
    cases he : extractMessage clock e index with
    | none =>
      rw [he] at hm
      obtain ⟨el, hel, i, hi⟩ := ih (index + 1) m hm
      exact ⟨el, List.mem_cons_of_mem _ hel, i, hi⟩
    | some m2 =>
      rw [he] at hm
      rcases List.mem_cons.mp hm with rfl | hm2
      · exact ⟨e, List.mem_cons_self _ _, index, he⟩
      · obtain ⟨el, hel, i, hi⟩ := ih (index + 1) m hm2
        exact ⟨el, List.mem_cons_of_mem _ hel, i, hi⟩

theorem extractMessage_some (clock : Nat → JSString) (element : Element) (index : Nat)
    (m : Message) (h : extractMessage clock element index = some m) :
    m.content = getMessageContent element ∧ getMessageContent element ≠ [] ∧
    5 < JSString.length16 (getMessageContent element) := by
  unfold extractMessage at h
  simp only at h
  split at h
  · rename_i hcond
    simp only [Bool.and_eq_true, Bool.not_eq_true', decide_eq_true_eq] at hcond
    cases h
    refine ⟨rfl, ?_, hcond.2⟩
    intro hnil
    rw [hnil] at hcond
    simp at hcond
  · exact absurd h (by simp)

theorem extractFrom_append (clock : Nat → JSString) (pre post : List Element) :
    ∀ index, extractFrom clock (pre ++ post) index
      = extractFrom clock pre index ++ extractFrom clock post (index + pre.length) := by
  induction pre with
  | nil => intro index; simp [extractFrom]
  | cons e rest ih =>
    intro index
    have hidx : index + 1 + rest.length = index + (e :: rest).length := by
      simp only [List.length_cons]; omega
    have h1 : extractFrom clock (e :: (rest ++ post)) index
        = match extractMessage clock e index with
          | some m => m :: extractFrom clock (rest ++ post) (index + 1)
          | none => extractFrom clock (rest ++ post) (index + 1) := rfl
    have h2 : extractFrom clock (e :: rest) index
        = match extractMessage clock e index with
          | some m => m :: extractFrom clock rest (index + 1)
          | none => extractFrom clock rest (index + 1) := rfl
    rw [List.cons_append, h1, h2]
    cases extractMessage clock e index with
    | none => simp only [ih (index + 1), hidx]
    | some m => simp only [ih (index + 1), hidx, List.cons_append]

/-- C7. The end-to-end scenario on the code: of the two candidates "Hello" (user) and
"Hi there" (assistant), `getMessageContent` accepts both texts, but `extractMessages`
keeps only contents longer than 5 code units and "Hello" has exactly 5: the first
extraction yields one message, not two, and after the second extraction (with the third
element "Thanks") the stored record holds two messages, "Hi there" and "Thanks", not
three. -/
theorem scenario_drops_hello :
    getMessageContent (roleElement "user" "Hello") = "Hello".toList ∧
    (extractMessages fixedClock scenarioPage1).map (fun m => (m.id, m.role, m.content))
      = [("msg_1".toList, "assistant".toList, "Hi there".toList)] ∧
    (scenarioStore.get "abc123".toList).map
        (fun r => r.messages.map (fun m => (m.role, m.content)))
      = some [("assistant".toList, "Hi there".toList), ("user".toList, "Thanks".toList)] := by
  decide

/-- C8. Noise filter: every message returned by `extractMessages` has a non-empty
content of at least 5 code units that contains none of the rejected fragments
("Copy code", "Regenerate", "window.__oai", "requestAnimationFrame", ".starburst",
"ChatGPT can make mistakes") and is not a page counter (digits, optional whitespace,
slash, optional whitespace, digits).  In particular a candidate whose cleaned text is
exactly "Copy code", "Regenerate" or "3 / 7" contributes no message: the messages
extracted are those of the candidates before it and after it. -/
theorem extractMessages_noise_filter (clock : Nat → JSString)
    (messageElements : List Element) :
    (∀ m ∈ extractMessages clock messageElements,
      m.content ≠ [] ∧ 5 ≤ JSString.length16 m.content ∧
      (∀ frag ∈ noiseFragments, ¬ frag <:+: m.content) ∧ ¬ IsPageCounter m.content) ∧
    (∀ (pre post : List Element) (element : Element),
      messageElements = pre ++ element :: post →
      JSString.trim element.cleanText ∈
        ["Copy code".toList, "Regenerate".toList, "3 / 7".toList] →
      extractMessages clock messageElements
        = extractFrom clock pre 0 ++ extractFrom clock post (pre.length + 1)) := by
  constructor
  · intro m hm
    obtain ⟨element, _, i, hi⟩ := mem_extractFrom clock messageElements 0 m hm
    obtain ⟨hc, hne, _⟩ := extractMessage_some clock element i m hi
    obtain ⟨hlen, hfrag, hpc⟩ := getMessageContent_clean element hne
    rw [hc]
    exact ⟨hne, hlen, hfrag, hpc⟩
  · intro pre post element hsplit htext
    have hcontent : getMessageContent element = [] := by
      unfold getMessageContent
      simp only [List.mem_cons, List.mem_singleton, List.not_mem_nil, or_false] at htext
      rcases htext with h | h | h <;> rw [h] <;> decide
    have hnone : ∀ i, extractMessage clock element i = none := by
      intro i
      unfold extractMessage
      simp [hcontent]
    rw [hsplit]
    unfold extractMessages
    rw [extractFrom_append]
    simp only [extractFrom, hnone, Nat.zero_add]

theorem extractMessages_noise_filter_witness :
    extractMessages fixedClock noisyPage
      = extractFrom fixedClock [roleElement "assistant" "Copy code",
          roleElement "assistant" "General Kenobi"] 0 ++ extractFrom fixedClock [] 3 :=
  (extractMessages_noise_filter fixedClock noisyPage).2
    [roleElement "assistant" "Copy code", roleElement "assistant" "General Kenobi"] []
    (roleElement "assistant" "3 / 7") (by decide) (by decide)

/-! ## Import -/

/-- Invalid JSON: the parser's message is reported and nothing is stored. -/
theorem importData_of_parse_error (parse : JSString → ParseResult)
    (typeErrorMessage jsonData : JSString) (persisted : JSValue) (message : JSString)
    (hp : parse jsonData = .error message) :
    importData parse typeErrorMessage jsonData persisted
      = (persisted, .failure message) := by
  unfold importData
  rw [hp]

/-- A truthy `conversations` entry replaces the persisted value. -/
theorem importData_of_truthy (parse : JSString → ParseResult)
    (typeErrorMessage jsonData : JSString) (persisted data v : JSValue)
    (hp : parse jsonData = .ok data) (hc : data.conversations = some (some v))
    (ht : v.truthy = true) :
    importData parse typeErrorMessage jsonData persisted = (v, .success v.keyCount) := by
  unfold importData
  rw [hp]
  simp only [hc, ht, if_true]

/-- Without a truthy `conversations` entry a failure is reported and nothing is
stored. -/
theorem importData_of_not_truthy (parse : JSString → ParseResult)
    (typeErrorMessage jsonData : JSString) (persisted data : JSValue)
    (hp : parse jsonData = .ok data)
    (hno : ¬ ∃ v, data.conversations = some (some v) ∧ v.truthy = true) :
    ∃ error, importData parse typeErrorMessage jsonData persisted
      = (persisted, .failure error) := by
  unfold importData
  rw [hp]
  dsimp only
  cases hc : data.conversations with
  | none => exact ⟨typeErrorMessage, rfl⟩
  | some ov =>
    cases ov with
    | none => exact ⟨_, rfl⟩
    | some v =>
      have ht : ¬ v.truthy = true := fun ht => hno ⟨v, hc, ht⟩
      simp only [ht]
      exact ⟨_, rfl⟩

/-- C10, as stated, fails: the text `{"conversations": null}` parses to an object that
has a `conversations` key, yet `importData` reports `{success: false}` and leaves the
persisted value alone, because the guard tests the truthiness of the entry. -/
theorem import_null_conversations_counterexample :
    Json.parse nullConversationsText
      = .ok (.object [("conversations".toList, .null)]) ∧
    JSValue.lookupProp [("conversations".toList, JSValue.null)] "conversations".toList
      = some .null ∧
    importData Json.parse nullTypeError nullConversationsText (.object [])
      = (.object [], .failure "Invalid data format".toList) :=
  ⟨rfl, rfl, rfl⟩

/-- C10, amended. Import acceptance: `importData` reports `{success: true, count}`
exactly when its text parses as JSON to a value whose `conversations` property is truthy
(present, and not `null`, `false`, zero or the empty string); in that case the persisted
conversations value is replaced by that property's value and `count` is its number of
keys.  For every text that is not valid JSON, or whose parsed value has no truthy
`conversations` property, it reports `{success: false, error}`. -/
theorem importData_success_iff (parse : JSString → ParseResult)
    (typeErrorMessage jsonData : JSString) (persisted : JSValue) :
    (∀ count, (importData parse typeErrorMessage jsonData persisted).2 = .success count ↔
      ∃ data v, parse jsonData = .ok data ∧ data.conversations = some (some v) ∧
        v.truthy = true ∧ count = v.keyCount) ∧
    (∀ data v, parse jsonData = .ok data → data.conversations = some (some v) →
      v.truthy = true →
      importData parse typeErrorMessage jsonData persisted = (v, .success v.keyCount)) ∧
    ((¬ ∃ data v, parse jsonData = .ok data ∧ data.conversations = some (some v) ∧
        v.truthy = true) →
      ∃ error, (importData parse typeErrorMessage jsonData persisted).2 = .failure error) := by
  cases hp : parse jsonData with
  | error message =>
    have hres := importData_of_parse_error parse typeErrorMessage jsonData persisted
      message hp
    refine ⟨?_, ?_, ?_⟩
    · intro count
      rw [hres]
      constructor
      · intro h; cases h
      · rintro ⟨data, v, h, _⟩; cases h
    · intro data v h
      cases h
    · intro _
      exact ⟨message, by rw [hres]⟩
  | ok data =>
    by_cases hgood : ∃ v, data.conversations = some (some v) ∧ v.truthy = true
    · obtain ⟨v, hc, ht⟩ := hgood
      have hres := importData_of_truthy parse typeErrorMessage jsonData persisted
        data v hp hc ht
      refine ⟨?_, ?_, ?_⟩
      · intro count
        rw [hres]
        constructor
        · intro h
          cases h
          exact ⟨data, v, rfl, hc, ht, rfl⟩
        · rintro ⟨data2, v2, h1, h2, _, h4⟩
          cases h1
          rw [hc] at h2
          cases h2
          rw [h4]
      · intro data2 v2 h1 h2 _
        cases h1
        rw [hc] at h2
        cases h2
        exact hres
      · intro hno
        exact absurd ⟨data, v, rfl, hc, ht⟩ hno
    · obtain ⟨error, hres⟩ := importData_of_not_truthy parse typeErrorMessage jsonData
        persisted data hp hgood
      refine ⟨?_, ?_, ?_⟩
      · intro count
        rw [hres]
        constructor
        · intro h; cases h
        · rintro ⟨data2, v2, h1, h2, h3, _⟩
          cases h1
          exact absurd ⟨v2, h2, h3⟩ hgood
      · intro data2 v2 h1 h2 h3
        cases h1
        exact absurd ⟨v2, h2, h3⟩ hgood
      · intro _
        exact ⟨error, by rw [hres]⟩

theorem importData_success_iff_witness :
    importData Json.parse nullTypeError twoConversationsText (.object [])
      = (.object [("abc123".toList, .object [("messages".toList, .array [])]),
                  ("def456".toList, .object [("messages".toList, .array [])])],
         .success 2) :=
  (importData_success_iff Json.parse nullTypeError twoConversationsText (.object [])).2.1
    (.object [("version".toList, .string "1.0.0".toList),
      ("conversations".toList,
        .object [("abc123".toList, .object [("messages".toList, .array [])]),
                 ("def456".toList, .object [("messages".toList, .array [])])])])
    (.object [("abc123".toList, .object [("messages".toList, .array [])]),
              ("def456".toList, .object [("messages".toList, .array [])])])
    rfl rfl rfl

/-! ## Matches stay inside the input -/

/-- The relation "state `m` is reached from state `s` by matching" (what is left is a
suffix of what was left, every capture is old or a piece of what was left) composes. -/
theorem Regex.extends_trans {s m n : MatchState}
    (h1 : m.rest <:+ s.rest ∧ ∀ kv ∈ m.caps, kv ∈ s.caps ∨ kv.2 <:+: s.rest)
    (h2 : n.rest <:+ m.rest ∧ ∀ kv ∈ n.caps, kv ∈ m.caps ∨ kv.2 <:+: m.rest) :
    n.rest <:+ s.rest ∧ ∀ kv ∈ n.caps, kv ∈ s.caps ∨ kv.2 <:+: s.rest := by
  refine ⟨h2.1.trans h1.1, ?_⟩
  intro kv hkv
  rcases h2.2 kv hkv with h | h
  · exact h1.2 kv h
  · exact Or.inr (h.trans h1.1.isInfix)

theorem Regex.extends_resetCaps (gs : List Nat) (s : MatchState) :
    (Regex.resetCaps gs s).rest <:+ s.rest ∧
      ∀ kv ∈ (Regex.resetCaps gs s).caps, kv ∈ s.caps ∨ kv.2 <:+: s.rest := by
  refine ⟨List.suffix_refl _, ?_⟩
  intro kv hkv
  exact Or.inl (List.mem_filter.mp hkv).1

theorem Regex.starLoop_extends (body : MatchState → List MatchState) (greedy : Bool)
    (hbody : ∀ x y, y ∈ body x →
      y.rest <:+ x.rest ∧ ∀ kv ∈ y.caps, kv ∈ x.caps ∨ kv.2 <:+: x.rest) :
    ∀ (fuel : Nat) (s m : MatchState), m ∈ Regex.starLoop body greedy fuel s →
      m.rest <:+ s.rest ∧ ∀ kv ∈ m.caps, kv ∈ s.caps ∨ kv.2 <:+: s.rest := by
  intro fuel
  induction fuel with
  | zero =>
    intro s m hm
    simp only [Regex.starLoop, List.mem_singleton] at hm
    subst hm
    exact ⟨List.suffix_refl _, fun kv h => Or.inl h⟩
  | succ f ih =>
    intro s m hm
    have hcases : m = s ∨ m ∈ ((body s).filter
        (fun s2 => decide (s2.rest.length < s.rest.length))).flatMap
        (Regex.starLoop body greedy f) := by
      cases greedy with
      | true =>
        simp only [Regex.starLoop, if_true, List.mem_append, List.mem_singleton] at hm
        exact hm.symm
      | false =>
        simp only [Regex.starLoop, Bool.false_eq_true, if_false, List.mem_cons] at hm
        exact hm
    rcases hcases with rfl | hmore
    · exact ⟨List.suffix_refl _, fun kv h => Or.inl h⟩
    · obtain ⟨y, hy, hmy⟩ := List.mem_flatMap.mp hmore
      exact Regex.extends_trans (hbody s y (List.mem_filter.mp hy).1) (ih y m hmy)

theorem Regex.run_extends (r : Regex) :
    ∀ (s m : MatchState), m ∈ Regex.run r s →
      m.rest <:+ s.rest ∧ ∀ kv ∈ m.caps, kv ∈ s.caps ∨ kv.2 <:+: s.rest := by
  induction r with
  | chr p =>
    intro s m hm
    obtain ⟨pos, rest, caps⟩ := s
    cases rest with
    | nil => simp [Regex.run] at hm
    | cons c t =>
      by_cases hp : p c = true
      · simp only [Regex.run, hp, if_true, List.mem_singleton] at hm
        subst hm
        exact ⟨List.suffix_cons c t, fun kv h => Or.inl h⟩
      · simp [Regex.run, hp] at hm
  | empty =>
    intro s m hm
    simp only [Regex.run, List.mem_singleton] at hm
    subst hm
    exact ⟨List.suffix_refl _, fun kv h => Or.inl h⟩
  | seq r1 r2 ih1 ih2 =>
    intro s m hm
    obtain ⟨x, hx, hmx⟩ := (Regex.mem_run_seq r1 r2 s m).mp hm
    exact Regex.extends_trans (ih1 s x hx) (ih2 x m hmx)
  | star r greedy ih =>
    intro s m hm
    simp only [Regex.run] at hm
    refine Regex.starLoop_extends _ greedy ?_ _ s m hm
    intro x y hy
    exact Regex.extends_trans (Regex.extends_resetCaps _ x) (ih _ y hy)
  | opt r ih =>
    intro s m hm
    simp only [Regex.run, List.mem_append, List.mem_singleton] at hm
    rcases hm with hm | rfl
    · exact Regex.extends_trans (Regex.extends_resetCaps _ s)
        (ih _ m (List.mem_filter.mp hm).1)
    · exact ⟨List.suffix_refl _, fun kv h => Or.inl h⟩
  | group i r ih =>
    intro s m hm
    simp only [Regex.run, List.mem_map] at hm
    obtain ⟨s2, hs2, rfl⟩ := hm
    obtain ⟨hrest, hcaps⟩ := ih s s2 hs2
    refine ⟨hrest, ?_⟩
    intro kv hkv
    rcases List.mem_cons.mp hkv with rfl | hold
    · exact Or.inr (List.take_prefix _ _).isInfix
    · exact hcaps kv hold
  | bol =>
    intro s m hm
    by_cases hp : s.pos = 0
    · simp only [Regex.run, hp, if_true, List.mem_singleton] at hm
      subst hm
      exact ⟨List.suffix_refl _, fun kv h => Or.inl h⟩
    · simp [Regex.run, hp] at hm
  | eol =>
    intro s m hm
    by_cases hp : s.rest.isEmpty = true
    · simp only [Regex.run, hp, if_true, List.mem_singleton] at hm
      subst hm
      exact ⟨List.suffix_refl _, fun kv h => Or.inl h⟩
    · simp [Regex.run, hp] at hm

theorem Regex.matchAt_mem (r : Regex) (pos : Nat) (rest : JSString) (m : MatchState)
    (h : Regex.matchAt r pos rest = some m) : m ∈ Regex.run r ⟨pos, rest, []⟩ := by
  unfold Regex.matchAt at h
  exact List.mem_of_mem_head? h

/-- A match leaves a suffix of the input. -/
theorem Regex.matchAt_rest_suffix (r : Regex) (pos : Nat) (rest : JSString)
    (m : MatchState) (h : Regex.matchAt r pos rest = some m) : m.rest <:+ rest :=
  (Regex.run_extends r _ m (Regex.matchAt_mem r pos rest m h)).1

theorem Regex.lookup_mem (caps : List (Nat × JSString)) (i : Nat) (v : JSString)
    (h : caps.lookup i = some v) : (i, v) ∈ caps := by
  induction caps with
  | nil => simp at h
  | cons kv rest ih =>
    obtain ⟨k, w⟩ := kv
    by_cases hk : i = k
    · subst hk
      simp only [List.lookup, beq_self_eq_true, Option.some.injEq] at h
      subst h
      exact List.mem_cons_self _ _
    · have hbeq : (i == k) = false := by simpa using hk
      simp only [List.lookup, hbeq] at h
      exact List.mem_cons_of_mem _ (ih h)

/-- The text of a capture group is a piece of the input, or empty. -/
theorem Regex.capture_infix (r : Regex) (pos : Nat) (rest : JSString) (m : MatchState)
    (i : Nat) (h : Regex.matchAt r pos rest = some m) :
    Regex.capture m i = [] ∨ Regex.capture m i <:+: rest := by
  unfold Regex.capture
  cases hl : m.caps.lookup i with
  | none => exact Or.inl rfl
  | some v =>
    have hmem := Regex.lookup_mem m.caps i v hl
    rcases (Regex.run_extends r _ m (Regex.matchAt_mem r pos rest m h)).2 (i, v) hmem
      with hold | hin
    · simp at hold
    · exact Or.inr hin

/-! ## Replacements that cannot create a given substring -/

theorem prefix_of_prefix_append_cons (w x b : JSString) (c : Char) (hc : c ∉ w)
    (h : w <+: x ++ c :: b) : w <+: x := by
  rcases List.prefix_or_prefix_of_prefix h (List.prefix_append x (c :: b)) with h1 | h1
  · exact h1
  · obtain ⟨k, rfl⟩ := h1
    cases k with
    | nil => simp
    | cons d k =>
      exfalso
      have h2 : d :: k <+: c :: b := (List.prefix_append_right_inj x).mp h
      have hd : d = c := by
        obtain ⟨t, ht⟩ := h2
        simp only [List.cons_append, List.cons.injEq] at ht
        exact ht.1
      subst hd
      exact hc (List.mem_append_right _ (List.mem_cons_self _ _))

/-- A substring that lacks the character `c` lies on one side of any `c`. -/
theorem infix_of_infix_append_cons (w a b : JSString) (c : Char) (hc : c ∉ w)
    (h : w <:+: a ++ c :: b) : w <:+: a ∨ w <:+: b := by
  induction a with
  | nil =>
    rw [List.nil_append, List.infix_cons_iff] at h
    rcases h with h | h
    · have := prefix_of_prefix_append_cons w [] b c hc (by simpa using h)
      exact Or.inl this.isInfix
    · exact Or.inr h
  | cons x a ih =>
    rw [List.cons_append, List.infix_cons_iff] at h
    rcases h with h | h
    · have := prefix_of_prefix_append_cons w (x :: a) b c hc (by simpa using h)
      exact Or.inl this.isInfix
    · rcases ih h with h2 | h2
      · exact Or.inl (h2.trans (List.suffix_cons x a).isInfix)
      · exact Or.inr h2

/-- Text put between `<` and `>` separates what is before from what is after. -/
theorem not_infix_tag (w a b tag : JSString) (hlt : '<' ∉ w) (hgt : '>' ∉ w)
    (ha : ¬ w <:+: a) (htag : ¬ w <:+: tag) (hb : ¬ w <:+: b) :
    ¬ w <:+: a ++ ('<' :: tag ++ '>' :: b) := by
  intro h
  rcases infix_of_infix_append_cons w a _ '<' hlt h with h1 | h1
  · exact ha h1
  · rcases infix_of_infix_append_cons w tag b '>' hgt h1 with h2 | h2
    · exact htag h2
    · exact hb h2

theorem not_infix_of_length_lt (w x : JSString) (h : x.length < w.length) : ¬ w <:+: x := by
  intro hin
  have := hin.length_le
  omega

/-- The loop of `replace` cannot create the substring `w` when each replacement text
separates, with respect to `w`, what is before it from what is after it. -/
theorem Regex.replaceLoop_not_infix (w : JSString) (r : Regex)
    (repl : MatchState → JSString)
    (hrepl : ∀ (pos : Nat) (rest : JSString) (m : MatchState),
      Regex.matchAt r pos rest = some m → ¬ w <:+: rest →
      ∀ a b : JSString, ¬ w <:+: a → ¬ w <:+: b → ¬ w <:+: a ++ (repl m ++ b)) :
    ∀ (fuel pos : Nat) (rest a : JSString), ¬ w <:+: a ++ rest →
      ¬ w <:+: a ++ Regex.replaceLoop r repl fuel pos rest := by
  intro fuel
  induction fuel with
  | zero => intro pos rest a h; simpa [Regex.replaceLoop] using h
  | succ f ih =>
    intro pos rest a h
    have ha : ¬ w <:+: a := fun hin => h (hin.trans (List.prefix_append a rest).isInfix)
    have hr : ¬ w <:+: rest := fun hin => h (hin.trans (List.suffix_append a rest).isInfix)
    unfold Regex.replaceLoop
    cases hm : Regex.matchAt r pos rest with
    | none =>
      cases rest with
      | nil => simpa using h
      | cons c t =>
        simp only
        have := ih (pos + 1) t (a ++ [c]) (by simpa using h)
        simpa using this
    | some m =>
      simp only
      split
      · apply hrepl pos rest m hm hr a _ ha
        have hsuf := Regex.matchAt_rest_suffix r pos rest m hm
        have hmr : ¬ w <:+: m.rest := fun hin => hr (hin.trans hsuf.isInfix)
        have := ih m.pos m.rest [] (by simpa using hmr)
        simpa using this
      · cases rest with
        | nil =>
          simp only
          have hnil : ¬ w <:+: ([] : JSString) := by simpa using hr
          have := hrepl pos [] m hm hr a [] ha hnil
          simpa using this
        | cons c t =>
          simp only
          apply hrepl pos (c :: t) m hm hr a _ ha
          have := ih (pos + 1) t [c] (by simpa using hr)
          simpa using this

theorem Regex.replaceAll_not_infix (w : JSString) (r : Regex)
    (repl : MatchState → JSString)
    (hrepl : ∀ (pos : Nat) (rest : JSString) (m : MatchState),
      Regex.matchAt r pos rest = some m → ¬ w <:+: rest →
      ∀ a b : JSString, ¬ w <:+: a → ¬ w <:+: b → ¬ w <:+: a ++ (repl m ++ b))
    (s : JSString) (hs : ¬ w <:+: s) : ¬ w <:+: Regex.replaceAll r repl s := by
  have := Regex.replaceLoop_not_infix w r repl hrepl (s.length + 1) 0 s [] (by simpa using hs)
  simpa [Regex.replaceAll] using this

/-- The loop of `replace` changes nothing when the pattern matches nowhere. -/
theorem Regex.replaceLoop_of_no_match (r : Regex) (repl : MatchState → JSString)
    (s : JSString)
    (hno : ∀ (pos : Nat) (rest : JSString), rest <:+ s → Regex.matchAt r pos rest = none) :
    ∀ (fuel pos : Nat) (rest : JSString), rest <:+ s →
      Regex.replaceLoop r repl fuel pos rest = rest := by
  intro fuel
  induction fuel with
  | zero => intro pos rest _; rfl
  | succ f ih =>
    intro pos rest hsuf
    unfold Regex.replaceLoop
    rw [hno pos rest hsuf]
    cases rest with
    | nil => rfl
    | cons c t =>
      simp only
      rw [ih (pos + 1) t ((List.suffix_cons c t).trans hsuf)]

theorem Regex.run_lit_prefix (l : JSString) :
    ∀ (s m : MatchState), m ∈ Regex.run (Regex.lit l) s → l <+: s.rest := by
  induction l with
  | nil => intro s m _; exact List.nil_prefix
  | cons c t ih =>
    intro s m hm
    unfold Regex.lit at hm
    obtain ⟨x, hx, hmx⟩ := (Regex.mem_run_seq _ _ s m).mp hm
    obtain ⟨pos, rest, caps⟩ := s
    cases rest with
    | nil => simp [Regex.run] at hx
    | cons d rest =>
      by_cases hd : d = c
      · subst hd
        simp only [Regex.run, beq_self_eq_true, if_true, List.mem_singleton] at hx
        subst hx
        have := ih _ m hmx
        simpa using this
      · have hbeq : (d == c) = false := by simpa using hd
        simp [Regex.run, hbeq] at hx

/-- A pattern that starts with a literal matches nowhere in a string that does not
contain the literal. -/
theorem Regex.replaceAll_lit_seq_of_not_infix (l : JSString) (r : Regex)
    (repl : MatchState → JSString) (s : JSString) (h : ¬ l <:+: s) :
    Regex.replaceAll (.seq (Regex.lit l) r) repl s = s := by
  unfold Regex.replaceAll
  apply Regex.replaceLoop_of_no_match _ _ s _ _ _ _ (List.suffix_refl s)
  intro pos rest hsuf
  cases hm : Regex.matchAt (.seq (Regex.lit l) r) pos rest with
  | none => rfl
  | some m =>
    exfalso
    have hmem := Regex.matchAt_mem _ pos rest m hm
    obtain ⟨x, hx, _⟩ := (Regex.mem_run_seq _ _ _ m).mp hmem
    have hpre := Regex.run_lit_prefix l _ x hx
    exact h (hpre.isInfix.trans hsuf.isInfix)

/-! ## Renderer -/

/-- Replacement text of the shape `<open>` capture `<close>` separates its context. -/
theorem not_infix_wrap (w a b cap opening closing : JSString)
    (hlt : '<' ∉ w) (hgt : '>' ∉ w)
    (hopen : opening.length < w.length) (hclose : closing.length < w.length)
    (ha : ¬ w <:+: a) (hb : ¬ w <:+: b) (hcap : ¬ w <:+: cap) :
    ¬ w <:+: a ++ ((('<' :: opening ++ ['>']) ++ cap ++ ('<' :: closing ++ ['>'])) ++ b) := by
  have h1 : ¬ w <:+: cap ++ ('<' :: closing ++ '>' :: b) :=
    not_infix_tag w cap b closing hlt hgt hcap (not_infix_of_length_lt w closing hclose) hb
  have h2 := not_infix_tag w a _ opening hlt hgt ha
    (not_infix_of_length_lt w opening hopen) h1
  have heq : a ++ ((('<' :: opening ++ ['>']) ++ cap ++ ('<' :: closing ++ ['>'])) ++ b)
      = a ++ ('<' :: opening ++ '>' :: (cap ++ ('<' :: closing ++ '>' :: b))) := by
    simp
  rw [heq]
  exact h2

theorem capture_avoids (w : JSString) (hw : w ≠ []) (r : Regex) (pos : Nat)
    (rest : JSString) (m : MatchState) (i : Nat)
    (hm : Regex.matchAt r pos rest = some m) (hrest : ¬ w <:+: rest) :
    ¬ w <:+: Regex.capture m i := by
  rcases Regex.capture_infix r pos rest m i hm with h | h
  · rw [h]
    simpa using hw
  · exact fun hin => hrest (hin.trans h)

/-- The markdown steps of `processMessageContent` cannot create the fingerprint
`window.__oai`: it is in their output only if it is in the content, or the content has
one of the fragments the first three steps delete. -/
theorem processReplacements_avoids_oai (content : JSString)
    (h1 : ¬ "window.__oai".toList <:+: content)
    (h2 : ¬ "requestAnimationFrame".toList <:+: content)
    (h3 : ¬ ".starburst".toList <:+: content) :
    ¬ "window.__oai".toList <:+: processReplacements content := by
  have hlt : '<' ∉ "window.__oai".toList := by decide
  have hgt : '>' ∉ "window.__oai".toList := by decide
  have hne : "window.__oai".toList ≠ [] := by decide
  have hwrap : ∀ (r : Regex) (i : Nat) (opening closing : JSString),
      opening.length < "window.__oai".toList.length →
      closing.length < "window.__oai".toList.length →
      ∀ (pos : Nat) (rest : JSString) (m : MatchState),
      Regex.matchAt r pos rest = some m → ¬ "window.__oai".toList <:+: rest →
      ∀ a b : JSString, ¬ "window.__oai".toList <:+: a → ¬ "window.__oai".toList <:+: b →
        ¬ "window.__oai".toList <:+: a ++
          ((('<' :: opening ++ ['>']) ++ Regex.capture m i ++ ('<' :: closing ++ ['>'])) ++ b) := by
    intro r i opening closing ho hc pos rest m hm hrest a b ha hb
    exact not_infix_wrap _ a b _ opening closing hlt hgt ho hc ha hb
      (capture_avoids _ hne r pos rest m i hm hrest)
  have hconst : ∀ (r : Regex) (tag : JSString),
      tag.length < "window.__oai".toList.length →
      ∀ (pos : Nat) (rest : JSString) (m : MatchState),
      Regex.matchAt r pos rest = some m → ¬ "window.__oai".toList <:+: rest →
      ∀ a b : JSString, ¬ "window.__oai".toList <:+: a → ¬ "window.__oai".toList <:+: b →
        ¬ "window.__oai".toList <:+: a ++ (('<' :: tag ++ ['>']) ++ b) := by
    intro r tag ht pos rest m _ _ a b ha hb
    have := not_infix_tag _ a b tag hlt hgt ha (not_infix_of_length_lt _ tag ht) hb
    simpa using this
  unfold processReplacements
  simp only
  have e1 : Regex.replaceAll oaiRegex removeMatch content = content :=
    Regex.replaceAll_lit_seq_of_not_infix _ _ _ content h1
  have e2 : Regex.replaceAll rafRegex removeMatch content = content :=
    Regex.replaceAll_lit_seq_of_not_infix _ _ _ content h2
  have e3 : Regex.replaceAll starburstRegex removeMatch content = content :=
    Regex.replaceAll_lit_seq_of_not_infix _ _ _ content h3
  rw [e1, e2, e3]
  apply Regex.replaceAll_not_infix _ _ _ (hconst _ "br".toList (by decide))
  apply Regex.replaceAll_not_infix _ _ _ (hconst _ "/p><p".toList (by decide))
  apply Regex.replaceAll_not_infix _ _ _
    (hwrap _ 1 "em".toList "/em".toList (by decide) (by decide))
  apply Regex.replaceAll_not_infix _ _ _
    (hwrap _ 1 "strong".toList "/strong".toList (by decide) (by decide))
  apply Regex.replaceAll_not_infix _ _ _
    (hwrap _ 1 "code".toList "/code".toList (by decide) (by decide))
  apply Regex.replaceAll_not_infix _ _ _
    (hwrap _ 2 "pre><code".toList "/code></pre".toList (by decide) (by decide))
  exact h1

theorem processMessageContent_avoids_oai (content : JSString)
    (h1 : ¬ "window.__oai".toList <:+: content)
    (h2 : ¬ "requestAnimationFrame".toList <:+: content)
    (h3 : ¬ ".starburst".toList <:+: content) :
    ¬ "window.__oai".toList <:+: processMessageContent content := by
  have hp := processReplacements_avoids_oai content h1 h2 h3
  unfold processMessageContent
  simp only
  split
  · have hlt : '<' ∉ "window.__oai".toList := by decide
    have hgt : '>' ∉ "window.__oai".toList := by decide
    have hnil : ¬ "window.__oai".toList <:+: ([] : JSString) := by decide
    have := not_infix_wrap _ [] [] (processReplacements content) "p".toList "/p".toList
      hlt hgt (by decide) (by decide) hnil hnil hp
    rw [List.nil_append, List.append_nil] at this
    exact this
  · exact hp

/-- C9, as stated, fails in both branches of `createMessageElement`.  A message whose
html is `window.__<style></style>oai` passes the fingerprint test, and deleting the
style block joins the two halves: the markup assigned is `window.__oai`.  A message
without html whose content is `window.__oai` (no semicolon follows, so the first
`replace` finds nothing) is rendered as `<p>window.__oai</p>`. -/
theorem render_fingerprint_counterexample :
    JSString.includes splitMessage.html "window.__oai".toList = false ∧
    createMessageElement splitMessage = "window.__oai".toList ∧
    "window.__oai".toList <:+: createMessageElement splitMessage ∧
    createMessageElement bareMessage = "<p>window.__oai</p>".toList ∧
    "window.__oai".toList <:+: createMessageElement bareMessage := by
  decide

/-! ## Import atomicity, roles, conversation id, store frame -/

/-- C11. Import atomicity: whenever `importData` resolves to `{success: false, ...}`
(malformed JSON, a parsed value without a truthy `conversations` entry, or `null`, where
reading the property raises the `TypeError` the `catch` reports), the persisted
conversations value is exactly what it was before the call.  `importData` resolves to a
result for every text: no exception escapes. -/
theorem importData_atomic (parse : JSString → ParseResult)
    (typeErrorMessage jsonData : JSString) (persisted : JSValue) :
    (∀ error, (importData parse typeErrorMessage jsonData persisted).2 = .failure error →
      (importData parse typeErrorMessage jsonData persisted).1 = persisted) ∧
    ((∃ count, (importData parse typeErrorMessage jsonData persisted).2 = .success count) ∨
      (∃ error, importData parse typeErrorMessage jsonData persisted
        = (persisted, .failure error))) := by
  cases hp : parse jsonData with
  | error message =>
    have hres := importData_of_parse_error parse typeErrorMessage jsonData persisted
      message hp
    rw [hres]
    exact ⟨fun _ _ => rfl, Or.inr ⟨message, rfl⟩⟩
  | ok data =>
    by_cases hgood : ∃ v, data.conversations = some (some v) ∧ v.truthy = true
    · obtain ⟨v, hc, ht⟩ := hgood
      have hres := importData_of_truthy parse typeErrorMessage jsonData persisted
        data v hp hc ht
      rw [hres]
      refine ⟨?_, Or.inl ⟨_, rfl⟩⟩
      intro error h
      cases h
    · obtain ⟨error, hres⟩ := importData_of_not_truthy parse typeErrorMessage jsonData
        persisted data hp hgood
      rw [hres]
      exact ⟨fun _ _ => rfl, Or.inr ⟨error, rfl⟩⟩

theorem importData_atomic_witness :
    (importData Json.parse nullTypeError "null".toList (.object [("abc123".toList, .null)])).2
      = .failure nullTypeError ∧
    (importData Json.parse nullTypeError "null".toList (.object [("abc123".toList, .null)])).1
      = .object [("abc123".toList, .null)] :=
  ⟨rfl, (importData_atomic Json.parse nullTypeError "null".toList
    (.object [("abc123".toList, .null)])).1 nullTypeError rfl⟩

theorem extractMessage_role (clock : Nat → JSString) (element : Element) (index : Nat)
    (m : Message) (h : extractMessage clock element index = some m) :
    m.role = getMessageRole element index := by
  unfold extractMessage at h
  simp only at h
  split at h
  · cases h; rfl
  · exact absurd h (by simp)

/-- The role `getMessageRole` returns: the role attribute when it is a non-empty string,
else `user` or `assistant`. -/
theorem getMessageRole_cases (element : Element) (index : Nat) :
    (element.roleAttr = some (getMessageRole element index) ∧
        getMessageRole element index ≠ []) ∨
    ((element.roleAttr = none ∨ element.roleAttr = some []) ∧
      (getMessageRole element index = "user".toList ∨
        getMessageRole element index = "assistant".toList)) := by
  unfold getMessageRole
  cases hr : element.roleAttr with
  | none =>
    right
    refine ⟨Or.inl rfl, ?_⟩
    simp only
    split
    · exact Or.inl rfl
    · split
      · exact Or.inr rfl
      · split
        · exact Or.inl rfl
        · exact Or.inr rfl
  | some s =>
    cases s with
    | nil =>
      right
      refine ⟨Or.inr rfl, ?_⟩
      simp only
      split
      · exact Or.inl rfl
      · split
        · exact Or.inr rfl
        · split
          · exact Or.inl rfl
          · exact Or.inr rfl
    | cons c t =>
      left
      exact ⟨rfl, by simp⟩

/-- C13, as stated, fails: a candidate with `data-message-author-role="tool"` yields a
message whose role is `tool`, neither `user` nor `assistant`. -/
theorem role_domain_counterexample :
    (extractMessages fixedClock toolPage).map (fun m => m.role)
      = ["user".toList, "tool".toList] := by
  decide

/-- Every message of the loop is the one the callback pushes for some candidate, at that
candidate's own index. -/
theorem mem_extractFrom_index (clock : Nat → JSString) (elements : List Element) :
    ∀ (index : Nat) (m : Message), m ∈ extractFrom clock elements index →
      ∃ (i : Nat) (element : Element), elements[i]? = some element ∧
        extractMessage clock element (index + i) = some m := by
  induction elements with
  | nil => intro index m hm; simp [extractFrom] at hm
  | cons e rest ih =>
    intro index m hm
    have hrest : m ∈ extractFrom clock rest (index + 1) →
        ∃ (i : Nat) (element : Element), (e :: rest)[i]? = some element ∧
          extractMessage clock element (index + i) = some m := by
      intro h
      obtain ⟨i, el, hel, hi⟩ := ih (index + 1) m h
      refine ⟨i + 1, el, by simpa using hel, ?_⟩
      rw [← hi]
      congr 1
      omega
    unfold extractFrom at hm
    cases he : extractMessage clock e index with
    | none =>
      rw [he] at hm
      exact hrest hm
    | some m2 =>
      rw [he] at hm
      rcases List.mem_cons.mp hm with rfl | hm2
      · exact ⟨0, e, by simp, he⟩
      · exact hrest hm2

/-- The id and the html of a pushed message are those of its candidate. -/
theorem extractMessage_id_html (clock : Nat → JSString) (element : Element) (index : Nat)
    (m : Message) (h : extractMessage clock element index = some m) :
    m.id = "msg_".toList ++ (Nat.repr index).toList ∧ m.html = element.innerHTML := by
  unfold extractMessage at h
  simp only at h
  split at h
  · cases h; exact ⟨rfl, rfl⟩
  · exact absurd h (by simp)

/-- C13, amended. Role domain: every message produced by `extractMessages` is the message
pushed for one candidate element, the one at the index `i` its id `msg_i` names, and has
as role that same element's `data-message-author-role` attribute when the attribute is a
non-empty string, and otherwise `user` or `assistant`. -/
theorem extractMessages_role_domain (clock : Nat → JSString)
    (messageElements : List Element) (m : Message)
    (hm : m ∈ extractMessages clock messageElements) :
    ∃ (i : Nat) (element : Element), messageElements[i]? = some element ∧
      extractMessage clock element i = some m ∧
      m.id = "msg_".toList ++ (Nat.repr i).toList ∧ m.html = element.innerHTML ∧
      ((element.roleAttr = some m.role ∧ m.role ≠ []) ∨
       ((element.roleAttr = none ∨ element.roleAttr = some []) ∧
        (m.role = "user".toList ∨ m.role = "assistant".toList))) := by
  obtain ⟨i, element, hel, hi⟩ := mem_extractFrom_index clock messageElements 0 m hm
  rw [Nat.zero_add] at hi
  refine ⟨i, element, hel, hi, (extractMessage_id_html clock element i m hi).1,
    (extractMessage_id_html clock element i m hi).2, ?_⟩
  rw [extractMessage_role clock element i m hi]
  exact getMessageRole_cases element i

/-- C13 on the page whose second candidate has the role attribute `tool`: the message
`msg_1` comes from that candidate and has its role. -/
theorem extractMessages_role_domain_witness :
    toolMessage ∈ extractMessages fixedClock toolPage ∧
    ∃ (i : Nat) (element : Element), toolPage[i]? = some element ∧
      extractMessage fixedClock element i = some toolMessage ∧
      toolMessage.id = "msg_".toList ++ (Nat.repr i).toList ∧
      toolMessage.html = element.innerHTML ∧
      ((element.roleAttr = some toolMessage.role ∧ toolMessage.role ≠ []) ∨
       ((element.roleAttr = none ∨ element.roleAttr = some []) ∧
        (toolMessage.role = "user".toList ∨ toolMessage.role = "assistant".toList))) :=
  ⟨by decide, extractMessages_role_domain fixedClock toolPage toolMessage (by decide)⟩

/-- C14. Role fallback: for a candidate element without `data-message-author-role`
attribute and with none of the user markers (user image, `you:` in the lowercased text,
user test id) nor assistant markers (svg icon, markdown node, code block, `chatgpt:` in
the lowercased text, assistant test id), `getMessageRole` at index `i` returns `user`
when `i` is even and `assistant` when `i` is odd; so index 0 is `user` and consecutive
indices alternate. -/
theorem getMessageRole_fallback (element : Element) (index : Nat)
    (hattr : element.roleAttr = none)
    (himg : element.hasUserImage = false)
    (hyou : JSString.includes (toLowerCase element.textContent) "you:".toList = false)
    (huser : element.insideUserTestid = false)
    (hsvg : element.hasSvg = false) (hmd : element.hasMarkdown = false)
    (hpre : element.hasPreCode = false)
    (hgpt : JSString.includes (toLowerCase element.textContent) "chatgpt:".toList = false)
    (hassistant : element.insideAssistantTestid = false) :
    (index % 2 = 0 → getMessageRole element index = "user".toList) ∧
    (index % 2 = 1 → getMessageRole element index = "assistant".toList) ∧
    getMessageRole element 0 = "user".toList ∧
    getMessageRole element (index + 1) ≠ getMessageRole element index := by
  have hrole : ∀ i, getMessageRole element i
      = if i % 2 = 0 then "user".toList else "assistant".toList := by
    intro i
    unfold getMessageRole
    rw [hattr]
    simp only [himg, hyou, huser, hsvg, hmd, hpre, hgpt, hassistant, Bool.or_self,
      Bool.false_eq_true, if_false]
  refine ⟨?_, ?_, ?_, ?_⟩
  · intro h; rw [hrole, if_pos h]
  · intro h; rw [hrole, if_neg (by omega)]
  · rw [hrole]; rfl
  · rw [hrole, hrole]
    by_cases h : index % 2 = 0
    · rw [if_pos h, if_neg (by omega)]; decide
    · rw [if_neg h, if_pos (by omega)]; decide

theorem getMessageRole_fallback_witness :
    getMessageRole (plainElement "Tell me a story") 0 = "user".toList ∧
    getMessageRole (plainElement "Once upon a time") 1 = "assistant".toList :=
  ⟨(getMessageRole_fallback (plainElement "Tell me a story") 0 rfl rfl (by decide) rfl rfl
      rfl rfl (by decide) rfl).1 rfl,
   (getMessageRole_fallback (plainElement "Once upon a time") 1 rfl rfl (by decide) rfl rfl
      rfl rfl (by decide) rfl).2.1 rfl⟩

/-- C20. Store frame: `saveConversation` changes at most the entry under the id of the
snapshot; the record stored under every other conversation id is the same before and
after the call (present with the same value, or absent). -/
theorem saveConversation_frame (now : JSString) (c : Conversation) (store : Store)
    (id : JSString) (hne : id ≠ c.id) :
    (saveConversation now c store).get id = store.get id :=
  get_save_other now c store id (fun h => hne h.symm)

theorem saveConversation_frame_witness :
    (saveConversation t2 { thanksSnapshot with id := "def456".toList } helloStore).get
        "abc123".toList = helloStore.get "abc123".toList :=
  saveConversation_frame t2 { thanksSnapshot with id := "def456".toList } helloStore
    "abc123".toList (by decide)

/-- A match that starts after a prefix of the input is found by the search, unless an
earlier one is. -/
theorem Regex.search_isSome_of_run_after (r : Regex) (pre s : JSString) (m : MatchState) :
    ∀ pos, m ∈ Regex.run r ⟨pos + pre.length, s, []⟩ →
      (Regex.search r pos (pre ++ s)).isSome = true := by
  induction pre with
  | nil =>
    intro pos hm
    exact Regex.search_isSome_of_run_ne_nil r pos s m (by simpa using hm)
  | cons c t ih =>
    intro pos hm
    have hrec := ih (pos + 1) (by
      have hpos : pos + 1 + t.length = pos + (c :: t).length := by
        simp only [List.length_cons]; omega
      rw [hpos]; exact hm)
    simp only [List.cons_append, Regex.search]
    cases Regex.matchAt r pos (c :: (t ++ s)) with
    | some m2 => rfl
    | none => simpa using hrec

/-! ## Where a pattern cannot match -/

/-- The search finds nothing when the pattern matches at no position. -/
theorem Regex.search_eq_none (r : Regex) (s : JSString)
    (hno : ∀ (pos : Nat) (rest : JSString), rest <:+ s →
      Regex.run r ⟨pos, rest, []⟩ = []) :
    ∀ (pos : Nat) (rest : JSString), rest <:+ s → Regex.search r pos rest = none := by
  intro pos rest
  induction rest generalizing pos with
  | nil =>
    intro hsuf
    simp [Regex.search, Regex.matchAt, hno pos [] hsuf]
  | cons c t ih =>
    intro hsuf
    have hrec := ih (pos + 1) ((List.suffix_cons c t).trans hsuf)
    simp [Regex.search, Regex.matchAt, hno pos (c :: t) hsuf, hrec]

theorem Regex.test_eq_false (r : Regex) (s : JSString)
    (hno : ∀ (pos : Nat) (rest : JSString), rest <:+ s →
      Regex.run r ⟨pos, rest, []⟩ = []) :
    Regex.test r s = false := by
  unfold Regex.test
  rw [Regex.search_eq_none r s hno 0 s (List.suffix_refl s)]
  rfl

/-- The `replace` loop changes nothing from a position after which the search finds
nothing. -/
theorem Regex.replaceLoop_of_search_none (r : Regex) (repl : MatchState → JSString) :
    ∀ (fuel pos : Nat) (rest : JSString), Regex.search r pos rest = none →
      Regex.replaceLoop r repl fuel pos rest = rest := by
  intro fuel
  induction fuel with
  | zero => intro pos rest _; rfl
  | succ f ih =>
    intro pos rest hs
    rw [Regex.replaceLoop_succ]
    cases rest with
    | nil =>
      simp only [Regex.search, Option.map_eq_none'] at hs
      rw [hs]
    | cons c t =>
      simp only [Regex.search] at hs
      cases hm : Regex.matchAt r pos (c :: t) with
      | some m => rw [hm] at hs; simp at hs
      | none =>
        rw [hm] at hs
        simp only [Option.map_eq_none'] at hs
        simp only
        rw [ih (pos + 1) t hs]

/-- A `replace` whose pattern does not occur returns its input. -/
theorem Regex.replaceAll_of_test_false (r : Regex) (repl : MatchState → JSString)
    (s : JSString) (h : Regex.test r s = false) : Regex.replaceAll r repl s = s := by
  unfold Regex.test at h
  unfold Regex.replaceAll
  apply Regex.replaceLoop_of_search_none
  cases hs : Regex.search r 0 s with
  | none => rfl
  | some km => rw [hs] at h; simp at h

/-- When none of its patterns occurs in the content, the chain of `replace` calls of
`processMessageContent` returns the content. -/
theorem processReplacements_of_no_match (content : JSString)
    (hrules : ∀ r ∈ transformRules, Regex.test r content = false) :
    processReplacements content = content := by
  have h : ∀ r ∈ transformRules, ∀ repl, Regex.replaceAll r repl content = content :=
    fun r hr repl => Regex.replaceAll_of_test_false r repl content (hrules r hr)
  unfold processReplacements
  simp only
  rw [h oaiRegex (by simp [transformRules]), h rafRegex (by simp [transformRules]),
    h starburstRegex (by simp [transformRules]), h fenceRegex (by simp [transformRules]),
    h inlineCodeRegex (by simp [transformRules]), h boldRegex (by simp [transformRules]),
    h italicRegex (by simp [transformRules]),
    h (Regex.lit "\n\n".toList) (by simp [transformRules]),
    h (Regex.lit "\n".toList) (by simp [transformRules])]

theorem singleton_infix_iff (c : Char) (s : JSString) : [c] <:+: s ↔ c ∈ s := by
  induction s with
  | nil => simp
  | cons d t ih =>
    rw [List.infix_cons_iff, ih, List.mem_cons, List.prefix_cons_iff]
    constructor
    · rintro (h | h)
      · rcases h with h | ⟨t2, h, _⟩
        · cases h
        · simp only [List.cons.injEq] at h
          exact Or.inl h.1
      · exact Or.inr h
    · rintro (h | h)
      · exact Or.inl (Or.inr ⟨[], by rw [h], List.nil_prefix⟩)
      · exact Or.inr h

/-- What `processMessageContent` returns for a non-empty content in which none of the
transform patterns occurs (no stripped noise fragment, no fenced block, no backtick span,
no asterisk span, no newline): `<p>`, the content, `</p>` when the content has no `<`
character, and the content as it is when it has one. -/
theorem paragraph_wrap_cases (content : JSString)
    (hne : content ≠ [])
    (hrules : ∀ r ∈ transformRules, Regex.test r content = false) :
    ('<' ∉ content →
      processMessageContent content = "<p>".toList ++ content ++ "</p>".toList) ∧
    ('<' ∈ content → processMessageContent content = content) := by
  have hp := processReplacements_of_no_match content hrules
  have hlen : JSString.length16 content > 0 := (JSString.length16_pos_iff content).mpr hne
  constructor
  · intro hlt
    have hinc : JSString.includes content "<".toList = false := by
      rw [JSString.includes_eq_false_iff]
      exact fun h => hlt ((singleton_infix_iff '<' content).mp h)
    unfold processMessageContent
    simp only [hp, hinc, hlen, Bool.not_false, decide_True, Bool.and_self, if_true]
  · intro hlt
    have hinc : JSString.includes content "<".toList = true := by
      rw [JSString.includes_iff]
      exact (singleton_infix_iff '<' content).mpr hlt
    unfold processMessageContent
    simp only [hp, hinc, Bool.not_true, Bool.false_and, Bool.false_eq_true, if_false]

/-- A content without `<` on which no rule produces markup is wrapped. -/
theorem paragraph_wrap_hello :
    processMessageContent "Hello there".toList = "<p>Hello there</p>".toList :=
  (paragraph_wrap_cases "Hello there".toList (by decide) (by decide)).1 (by decide)

/-- C17. Paragraph wrap on the code: a content on which none of the transform rules
produces markup (no pattern of the transform occurs in it) but which has a `<` character
is returned as it is, not wrapped in a paragraph: the guard of the wrap tests the text
for `<`, not whether anything was formatted. -/
theorem paragraph_wrap_skipped (content : JSString)
    (hrules : ∀ r ∈ transformRules, Regex.test r content = false)
    (hlt : '<' ∈ content) :
    processMessageContent content = content ∧
    processMessageContent content ≠ "<p>".toList ++ content ++ "</p>".toList := by
  have hne : content ≠ [] := List.ne_nil_of_mem hlt
  have h := (paragraph_wrap_cases content hne hrules).2 hlt
  refine ⟨h, ?_⟩
  rw [h]
  intro heq
  have hlen := congrArg List.length heq
  simp only [List.length_append] at hlen
  have h3 : "<p>".toList.length = 3 := by decide
  omega

/-- C17 on the content `1 < 2`: no pattern of the transform occurs in it, and it is
returned bare. -/
theorem paragraph_wrap_skipped_witness :
    (∀ r ∈ transformRules, Regex.test r "1 < 2".toList = false) ∧
    processMessageContent "1 < 2".toList = "1 < 2".toList ∧
    processMessageContent "1 < 2".toList ≠ "<p>1 < 2</p>".toList :=
  ⟨by decide, paragraph_wrap_skipped "1 < 2".toList (by decide) (by decide)⟩

theorem Regex.mem_run_chr (p : Char → Bool) (s m : MatchState)
    (h : m ∈ Regex.run (.chr p) s) : ∃ c, s.rest = c :: m.rest ∧ p c = true := by
  obtain ⟨pos, rest, caps⟩ := s
  cases rest with
  | nil => simp [Regex.run] at h
  | cons c t =>
    by_cases hp : p c = true
    · simp only [Regex.run, hp, if_true, List.mem_singleton] at h
      subst h
      exact ⟨c, rfl, hp⟩
    · simp [Regex.run, hp] at h

/-- A literal consumes exactly itself. -/
theorem Regex.run_lit_rest (l : JSString) :
    ∀ (s m : MatchState), m ∈ Regex.run (Regex.lit l) s → s.rest = l ++ m.rest := by
  induction l with
  | nil =>
    intro s m hm
    simp only [Regex.lit, Regex.run, List.mem_singleton] at hm
    subst hm
    rfl
  | cons c t ih =>
    intro s m hm
    unfold Regex.lit at hm
    obtain ⟨x, hx, hmx⟩ := (Regex.mem_run_seq _ _ s m).mp hm
    obtain ⟨d, hd, hpd⟩ := Regex.mem_run_chr _ s x hx
    have hdc : d = c := by simpa using hpd
    rw [hd, hdc, ih x m hmx]
    rfl

/-- A pattern that ends with a literal leaves the literal right before what is left. -/
theorem Regex.run_seq_lit_rest (r : Regex) (l : JSString) (s m : MatchState)
    (h : m ∈ Regex.run (.seq r (Regex.lit l)) s) :
    ∃ mid, s.rest = mid ++ (l ++ m.rest) := by
  obtain ⟨x, hx, hmx⟩ := (Regex.mem_run_seq _ _ s m).mp h
  obtain ⟨mid, hmid⟩ := (Regex.run_extends r s x hx).1
  exact ⟨mid, by rw [← hmid, Regex.run_lit_rest l x m hmx]⟩

theorem Regex.run_lit_eq_nil (l : JSString) (s : MatchState) (h : ¬ l <+: s.rest) :
    Regex.run (Regex.lit l) s = [] := by
  rw [List.eq_nil_iff_forall_not_mem]
  intro m hm
  exact h ⟨m.rest, (Regex.run_lit_rest l s m hm).symm⟩

theorem Regex.run_lit_seq_eq_nil (l : JSString) (r : Regex) (s : MatchState)
    (h : ¬ l <+: s.rest) : Regex.run (.seq (Regex.lit l) r) s = [] := by
  simp only [Regex.run, Regex.run_lit_eq_nil l s h, List.flatMap_nil]

theorem Regex.mem_run_group (i : Nat) (r : Regex) (s m : MatchState) :
    m ∈ Regex.run (.group i r) s ↔ ∃ m2 ∈ Regex.run r s,
      { m2 with caps := (i, s.rest.take (s.rest.length - m2.rest.length)) :: m2.caps } = m := by
  simp only [Regex.run, List.mem_map]

/-- A match of the italic pattern needs two asterisks. -/
theorem italicRegex_count (s m : MatchState) (h : m ∈ Regex.run italicRegex s) :
    2 ≤ s.rest.count '*' := by
  unfold italicRegex at h
  obtain ⟨x, hx, hmx⟩ := (Regex.mem_run_seq _ _ s m).mp h
  have h1 := Regex.run_lit_rest _ s x hx
  obtain ⟨mid, h2⟩ := Regex.run_seq_lit_rest _ _ x m hmx
  rw [h1, h2]
  simp only [List.count_append]
  have : List.count '*' "*".toList = 1 := by decide
  omega

/-- A match of the inline-code pattern needs a backtick, then a character that is not a
backtick, then a later backtick. -/
theorem inlineCodeRegex_shape (s m : MatchState) (h : m ∈ Regex.run inlineCodeRegex s) :
    ∃ c r2, s.rest = '`' :: c :: r2 ∧ c ≠ '`' ∧ '`' ∈ r2 := by
  unfold inlineCodeRegex at h
  obtain ⟨x, hx, hmx⟩ := (Regex.mem_run_seq _ _ s m).mp h
  have h1 := Regex.run_lit_rest _ s x hx
  obtain ⟨y, hy, hmy⟩ := (Regex.mem_run_seq _ _ x m).mp hmx
  have h3 := Regex.run_lit_rest _ y m hmy
  obtain ⟨y2, hy2, rfl⟩ := (Regex.mem_run_group _ _ x y).mp hy
  unfold Regex.plus at hy2
  obtain ⟨z, hz, hyz⟩ := (Regex.mem_run_seq _ _ x y2).mp hy2
  obtain ⟨c, hc, hpc⟩ := Regex.mem_run_chr _ x z hz
  obtain ⟨mid, hmid⟩ := (Regex.run_extends _ z y2 hyz).1
  refine ⟨c, z.rest, ?_, by simpa using hpc, ?_⟩
  · rw [h1, hc]; rfl
  · rw [← hmid]
    simp only at h3
    rw [h3]
    simp

/-- A match of the fence pattern needs six backticks. -/
theorem fenceRegex_count (s m : MatchState) (h : m ∈ Regex.run fenceRegex s) :
    6 ≤ s.rest.count '`' := by
  unfold fenceRegex at h
  obtain ⟨x, hx, hmx⟩ := (Regex.mem_run_seq _ _ s m).mp h
  have h1 := Regex.run_lit_rest _ s x hx
  obtain ⟨y, hy, hmy⟩ := (Regex.mem_run_seq _ _ x m).mp hmx
  obtain ⟨z, hz, hmz⟩ := (Regex.mem_run_seq _ _ y m).mp hmy
  obtain ⟨mid, h2⟩ := Regex.run_seq_lit_rest _ _ z m hmz
  have hzx : z.rest <:+ x.rest :=
    (Regex.run_extends _ y z hz).1.trans (Regex.run_extends _ x y hy).1
  have hcount := hzx.count_le '`'
  rw [h1]
  rw [h2] at hcount
  simp only [List.count_append] at hcount ⊢
  have : List.count '`' "```".toList = 3 := by decide
  omega

/-- A suffix of `a ++ b` is a suffix of `b`, or a non-empty suffix of `a` followed by
`b`. -/
theorem suffix_append_cases (t a b : JSString) (h : t <:+ a ++ b) :
    t <:+ b ∨ ∃ a2, a2 ≠ [] ∧ a2 <:+ a ∧ t = a2 ++ b := by
  induction a with
  | nil => exact Or.inl (by simpa using h)
  | cons c a ih =>
    rw [List.cons_append, List.suffix_cons_iff] at h
    rcases h with h | h
    · exact Or.inr ⟨c :: a, by simp, List.suffix_refl _, by rw [h]; rfl⟩
    · rcases ih h with h2 | ⟨a2, hne, hsuf, heq⟩
      · exact Or.inl h2
      · exact Or.inr ⟨a2, hne, hsuf.trans (List.suffix_cons c a), heq⟩

theorem Regex.test_lit_seq_false (l : JSString) (r : Regex) (s : JSString)
    (h : ¬ l <:+: s) : Regex.test (.seq (Regex.lit l) r) s = false := by
  apply Regex.test_eq_false
  intro pos rest hsuf
  apply Regex.run_lit_seq_eq_nil
  exact fun hpre => h (hpre.isInfix.trans hsuf.isInfix)

theorem Regex.test_lit_false (l : JSString) (s : JSString)
    (h : ¬ l <:+: s) : Regex.test (Regex.lit l) s = false := by
  apply Regex.test_eq_false
  intro pos rest hsuf
  apply Regex.run_lit_eq_nil
  exact fun hpre => h (hpre.isInfix.trans hsuf.isInfix)

theorem test_italicRegex_false (s : JSString) (h : s.count '*' ≤ 1) :
    Regex.test italicRegex s = false := by
  apply Regex.test_eq_false
  intro pos rest hsuf
  rw [List.eq_nil_iff_forall_not_mem]
  intro m hm
  have h2 := italicRegex_count _ m hm
  have h3 := hsuf.count_le '*'
  simp only at h2
  omega

theorem test_inlineCodeRegex_false (s : JSString) (h : s.count '`' ≤ 1) :
    Regex.test inlineCodeRegex s = false := by
  apply Regex.test_eq_false
  intro pos rest hsuf
  rw [List.eq_nil_iff_forall_not_mem]
  intro m hm
  obtain ⟨c, r2, hrest, _, hmem⟩ := inlineCodeRegex_shape _ m hm
  have h3 := hsuf.count_le '`'
  simp only at hrest
  rw [hrest] at h3
  have h4 : 0 < List.count '`' r2 := List.count_pos_iff.mpr hmem
  simp only [List.count_cons, beq_self_eq_true, if_true] at h3
  omega

theorem test_fenceRegex_false (s : JSString) (h : s.count '`' ≤ 5) :
    Regex.test fenceRegex s = false := by
  apply Regex.test_eq_false
  intro pos rest hsuf
  rw [List.eq_nil_iff_forall_not_mem]
  intro m hm
  have h2 := fenceRegex_count _ m hm
  have h3 := hsuf.count_le '`'
  simp only at h2
  omega

/-- Around an unclosed triple backtick in text without backticks the inline-code
pattern finds nothing: the three backticks are adjacent and none follows. -/
theorem test_inlineCodeRegex_triple (pre post : JSString)
    (hpre : '`' ∉ pre) (hpost : '`' ∉ post) :
    Regex.test inlineCodeRegex (pre ++ "```".toList ++ post) = false := by
  apply Regex.test_eq_false
  intro pos rest hsuf
  rw [List.eq_nil_iff_forall_not_mem]
  intro m hm
  obtain ⟨c, r2, hrest, hc, hmem⟩ := inlineCodeRegex_shape _ m hm
  simp only at hrest
  rw [List.append_assoc] at hsuf
  rcases suffix_append_cases rest pre _ hsuf with h1 | ⟨a2, hne, ha2, heq⟩
  · have h2 : rest <:+ '`' :: '`' :: '`' :: post := h1
    rw [List.suffix_cons_iff] at h2
    rcases h2 with h2 | h2
    · rw [hrest] at h2
      simp only [List.cons.injEq, true_and] at h2
      exact hc h2.1
    · rw [List.suffix_cons_iff] at h2
      rcases h2 with h2 | h2
      · rw [hrest] at h2
        simp only [List.cons.injEq, true_and] at h2
        exact hc h2.1
      · rw [List.suffix_cons_iff] at h2
        rcases h2 with h2 | h2
        · rw [hrest] at h2
          simp only [List.cons.injEq, true_and] at h2
          apply hpost
          rw [← h2]
          exact List.mem_cons_of_mem _ hmem
        · apply hpost
          apply h2.subset
          rw [hrest]
          exact List.mem_cons_self _ _
  · apply hpre
    apply ha2.subset
    cases a2 with
    | nil => exact absurd rfl hne
    | cons d a3 =>
      rw [hrest] at heq
      simp only [List.cons_append, List.cons.injEq] at heq
      rw [← heq.1]
      exact List.mem_cons_self _ _

theorem not_infix_of_count_lt (w s : JSString) (c : Char)
    (h : s.count c < w.count c) : ¬ w <:+: s := by
  intro hin
  have := hin.count_le c
  omega

/-! ## First matches -/

theorem Regex.run_seq_eq (r1 r2 : Regex) (s : MatchState) :
    Regex.run (.seq r1 r2) s = (Regex.run r1 s).flatMap (Regex.run r2) := rfl

theorem Regex.run_star_eq (r : Regex) (greedy : Bool) (s : MatchState) :
    Regex.run (.star r greedy) s
      = Regex.starLoop (fun x => Regex.run r (Regex.resetCaps (Regex.groups r) x)) greedy
          s.rest.length s := rfl

theorem Regex.run_opt_eq (r : Regex) (s : MatchState) :
    Regex.run (.opt r) s
      = ((Regex.run r (Regex.resetCaps (Regex.groups r) s)).filter
          (fun s2 => decide (s2.rest.length < s.rest.length))) ++ [s] := rfl

theorem Regex.run_group_eq (i : Nat) (r : Regex) (s : MatchState) :
    Regex.run (.group i r) s
      = (Regex.run r s).map (fun s2 =>
          { s2 with caps := (i, s.rest.take (s.rest.length - s2.rest.length)) :: s2.caps }) :=
  rfl

/-- The first match of a concatenation goes through the first match of its first part,
when the second part matches from there. -/
theorem Regex.head_seq (r1 r2 : Regex) (s x m : MatchState)
    (h1 : (Regex.run r1 s).head? = some x) (h2 : (Regex.run r2 x).head? = some m) :
    (Regex.run (.seq r1 r2) s).head? = some m := by
  obtain ⟨l1, hl1⟩ := List.head?_eq_some_iff.mp h1
  obtain ⟨l2, hl2⟩ := List.head?_eq_some_iff.mp h2
  rw [Regex.run_seq_eq, hl1, List.flatMap_cons, hl2]
  rfl

theorem Regex.run_lit_eq (l : JSString) :
    ∀ (pos : Nat) (t : JSString) (caps : List (Nat × JSString)),
      Regex.run (Regex.lit l) ⟨pos, l ++ t, caps⟩ = [⟨pos + l.length, t, caps⟩] := by
  induction l with
  | nil => intro pos t caps; rfl
  | cons c l ih =>
    intro pos t caps
    have hpos : pos + 1 + l.length = pos + (c :: l).length := by
      simp only [List.length_cons]; omega
    rw [Regex.lit, Regex.run_seq_eq, List.cons_append,
      Regex.run_chr_cons _ pos c (l ++ t) caps (by simp), List.flatMap_cons,
      List.flatMap_nil, List.append_nil, ih, hpos]

/-- Under the `i` flag a literal consumes any spelling of itself. -/
theorem Regex.run_litCI_eq (l : JSString) :
    ∀ (o : JSString) (pos : Nat) (t : JSString) (caps : List (Nat × JSString)),
      o.map Char.toLower = l.map Char.toLower →
      Regex.run (Regex.litCI l) ⟨pos, o ++ t, caps⟩ = [⟨pos + o.length, t, caps⟩] := by
  induction l with
  | nil =>
    intro o pos t caps ho
    have : o = [] := by simpa using ho
    subst this
    rfl
  | cons c l ih =>
    intro o pos t caps ho
    rw [List.map_cons, List.map_eq_cons_iff] at ho
    obtain ⟨d, o2, rfl, hd, ho2⟩ := ho
    have hpos : pos + 1 + o2.length = pos + (d :: o2).length := by
      simp only [List.length_cons]; omega
    rw [Regex.litCI, Regex.run_seq_eq, List.cons_append,
      Regex.run_chr_cons _ pos d (o2 ++ t) caps (by simpa using hd), List.flatMap_cons,
      List.flatMap_nil, List.append_nil, ih o2 _ _ _ ho2, hpos]

theorem Regex.run_litCI_rest (l : JSString) :
    ∀ (s m : MatchState), m ∈ Regex.run (Regex.litCI l) s →
      ∃ o, s.rest = o ++ m.rest ∧ o.map Char.toLower = l.map Char.toLower := by
  induction l with
  | nil =>
    intro s m hm
    simp only [Regex.litCI, Regex.run, List.mem_singleton] at hm
    subst hm
    exact ⟨[], rfl, rfl⟩
  | cons c t ih =>
    intro s m hm
    unfold Regex.litCI at hm
    obtain ⟨x, hx, hmx⟩ := (Regex.mem_run_seq _ _ s m).mp hm
    obtain ⟨d, hd, hpd⟩ := Regex.mem_run_chr _ s x hx
    obtain ⟨o, ho, hol⟩ := ih x m hmx
    refine ⟨d :: o, by rw [hd, ho]; rfl, ?_⟩
    simp only [List.map_cons, hol]
    congr 1
    simpa using hpd

theorem Regex.run_anyChar_cons (pos : Nat) (c : Char) (t : JSString)
    (caps : List (Nat × JSString)) :
    Regex.run Regex.anyChar ⟨pos, c :: t, caps⟩ = [⟨pos + 1, t, caps⟩] :=
  Regex.run_chr_cons _ pos c t caps (by simp)

theorem Regex.run_star_lazy_nil (pos : Nat) (caps : List (Nat × JSString)) :
    Regex.run (.star Regex.anyChar false) ⟨pos, [], caps⟩ = [⟨pos, [], caps⟩] := rfl

/-- A lazy `[\s\S]*?` first stops at once, then after one more character, and so on. -/
theorem Regex.run_star_lazy_cons (pos : Nat) (c : Char) (t : JSString)
    (caps : List (Nat × JSString)) :
    Regex.run (.star Regex.anyChar false) ⟨pos, c :: t, caps⟩
      = ⟨pos, c :: t, caps⟩ :: Regex.run (.star Regex.anyChar false) ⟨pos + 1, t, caps⟩ := by
  rw [Regex.run_star_eq, Regex.run_star_eq]
  simp only [List.length_cons]
  rw [Regex.starLoop_succ]
  have hg : Regex.groups Regex.anyChar = [] := rfl
  simp only [Bool.false_eq_true, if_false, hg, Regex.resetCaps_nil, Regex.run_anyChar_cons,
    List.length_cons, Nat.lt_succ_self, decide_True, List.filter_cons_of_pos,
    List.filter_nil, List.flatMap_cons, List.flatMap_nil, List.append_nil]

/-- A lazy `[\s\S]*?` followed by something that cannot start at any character of
`body` gets past `body` before the continuation first succeeds. -/
theorem Regex.run_star_lazy_any (K : MatchState → List MatchState) (body : JSString)
    (hK : ∀ c ∈ body, ∀ (pos : Nat) (t : JSString) (caps : List (Nat × JSString)),
      K ⟨pos, c :: t, caps⟩ = []) :
    ∀ (pos : Nat) (tail : JSString) (caps : List (Nat × JSString)),
      ∃ l, (Regex.run (.star Regex.anyChar false) ⟨pos, body ++ tail, caps⟩).flatMap K
        = K ⟨pos + body.length, tail, caps⟩ ++ l := by
  induction body with
  | nil =>
    intro pos tail caps
    cases tail with
    | nil => exact ⟨[], by rw [List.nil_append, Regex.run_star_lazy_nil]; simp⟩
    | cons c t =>
      exact ⟨_, by rw [List.nil_append, Regex.run_star_lazy_cons, List.flatMap_cons]; rfl⟩
  | cons c b ih =>
    intro pos tail caps
    obtain ⟨l, hl⟩ := ih (fun d hd => hK d (List.mem_cons_of_mem _ hd)) (pos + 1) tail caps
    have hpos : pos + 1 + b.length = pos + (c :: b).length := by
      simp only [List.length_cons]; omega
    refine ⟨l, ?_⟩
    rw [List.cons_append, Regex.run_star_lazy_cons, List.flatMap_cons,
      hK c (List.mem_cons_self _ _), List.nil_append, hl, hpos]

theorem Regex.run_star_greedy_stop (p : Char → Bool) (pos : Nat) (t : JSString)
    (caps : List (Nat × JSString)) (ht : ∀ c t2, t = c :: t2 → p c = false) :
    Regex.run (.star (.chr p) true) ⟨pos, t, caps⟩ = [⟨pos, t, caps⟩] := by
  rw [Regex.run_star_eq]
  cases t with
  | nil => rfl
  | cons c t2 =>
    have hc := ht c t2 rfl
    simp only [List.length_cons]
    rw [Regex.starLoop_succ]
    have hg : Regex.groups (.chr p) = [] := rfl
    simp [hg, Regex.resetCaps_nil, Regex.run, hc]

theorem Regex.run_star_greedy_cons (p : Char → Bool) (pos : Nat) (c : Char) (t : JSString)
    (caps : List (Nat × JSString)) (hc : p c = true) :
    Regex.run (.star (.chr p) true) ⟨pos, c :: t, caps⟩
      = Regex.run (.star (.chr p) true) ⟨pos + 1, t, caps⟩ ++ [⟨pos, c :: t, caps⟩] := by
  rw [Regex.run_star_eq, Regex.run_star_eq]
  simp only [List.length_cons]
  rw [Regex.starLoop_succ]
  have hg : Regex.groups (.chr p) = [] := rfl
  simp only [if_true, hg, Regex.resetCaps_nil, Regex.run_chr_cons p pos c t caps hc,
    List.length_cons, Nat.lt_succ_self, decide_True, List.filter_cons_of_pos,
    List.filter_nil, List.flatMap_cons, List.flatMap_nil, List.append_nil]

/-- A greedy repetition of a class first takes the whole run of characters of the
class. -/
theorem Regex.head_star_greedy (p : Char → Bool) (w t : JSString)
    (hw : ∀ c ∈ w, p c = true) (ht : ∀ c t2, t = c :: t2 → p c = false)
    (caps : List (Nat × JSString)) :
    ∀ pos, (Regex.run (.star (.chr p) true) ⟨pos, w ++ t, caps⟩).head?
      = some ⟨pos + w.length, t, caps⟩ := by
  induction w with
  | nil =>
    intro pos
    rw [List.nil_append, Regex.run_star_greedy_stop p pos t caps ht]
    rfl
  | cons c w ih =>
    intro pos
    have hpos : pos + 1 + w.length = pos + (c :: w).length := by
      simp only [List.length_cons]; omega
    rw [List.cons_append, Regex.run_star_greedy_cons p pos c (w ++ t) caps
      (hw c (List.mem_cons_self _ _)), List.head?_append,
      ih (fun x hx => hw x (List.mem_cons_of_mem _ hx)) (pos + 1), hpos]
    rfl

theorem Regex.head_plus_greedy (p : Char → Bool) (w t : JSString) (hne : w ≠ [])
    (hw : ∀ c ∈ w, p c = true) (ht : ∀ c t2, t = c :: t2 → p c = false)
    (pos : Nat) (caps : List (Nat × JSString)) :
    (Regex.run (Regex.plus (.chr p) true) ⟨pos, w ++ t, caps⟩).head?
      = some ⟨pos + w.length, t, caps⟩ := by
  cases w with
  | nil => exact absurd rfl hne
  | cons c w =>
    have hpos : pos + 1 + w.length = pos + (c :: w).length := by
      simp only [List.length_cons]; omega
    rw [Regex.plus, Regex.run_seq_eq, List.cons_append,
      Regex.run_chr_cons p pos c (w ++ t) caps (hw c (List.mem_cons_self _ _)),
      List.flatMap_cons, List.flatMap_nil, List.append_nil,
      Regex.head_star_greedy p w t (fun x hx => hw x (List.mem_cons_of_mem _ hx)) ht caps,
      hpos]

/-- A capture group around a lazy `[\s\S]*?`, then a literal: the group takes the text
up to the first place where the literal stands, when the literal's first character is
not in that text. -/
theorem Regex.head_group_lazy_lit (i : Nat) (d : Char) (closing body tail : JSString)
    (hbody : d ∉ body) (pos : Nat) (caps : List (Nat × JSString)) :
    (Regex.run (.seq (.group i (.star Regex.anyChar false)) (Regex.lit (d :: closing)))
        ⟨pos, body ++ (d :: closing ++ tail), caps⟩).head?
      = some ⟨pos + body.length + (d :: closing).length, tail, (i, body) :: caps⟩ := by
  rw [Regex.run_seq_eq, Regex.run_group_eq, List.flatMap_map]
  obtain ⟨l, hl⟩ := Regex.run_star_lazy_any
    (fun a => Regex.run (Regex.lit (d :: closing))
      { a with caps := (i, (body ++ (d :: closing ++ tail)).take
          ((body ++ (d :: closing ++ tail)).length - a.rest.length)) :: a.caps })
    body (by
      intro c hc p t cs
      apply Regex.run_lit_eq_nil
      intro hpre
      rw [List.prefix_cons_iff] at hpre
      rcases hpre with h | ⟨t2, h, _⟩
      · cases h
      · simp only [List.cons.injEq] at h
        exact hbody (h.1 ▸ hc))
    pos (d :: closing ++ tail) caps
  rw [hl]
  have htake : (body ++ (d :: closing ++ tail)).take
      ((body ++ (d :: closing ++ tail)).length - (d :: closing ++ tail).length) = body := by
    apply List.take_left'
    simp only [List.length_append]
    omega
  simp only [htake]
  rw [Regex.run_lit_eq (d :: closing) (pos + body.length) tail ((i, body) :: caps)]
  rfl

theorem Regex.run_litCI_eq_nil (d c : Char) (l t : JSString) (pos : Nat)
    (caps : List (Nat × JSString)) (h : c.toLower ≠ d.toLower) :
    Regex.run (Regex.litCI (d :: l)) ⟨pos, c :: t, caps⟩ = [] := by
  have hb : (c.toLower == d.toLower) = false := by simpa using h
  simp [Regex.litCI, Regex.run, hb]

/-- A lazy `[\s\S]*?`, then a literal under the `i` flag: the repetition takes the text
up to the first place where a spelling of the literal stands. -/
theorem Regex.head_lazy_litCI (d : Char) (l o body tail : JSString)
    (ho : o.map Char.toLower = (d :: l).map Char.toLower)
    (hbody : ∀ c ∈ body, c.toLower ≠ d.toLower) (pos : Nat)
    (caps : List (Nat × JSString)) :
    (Regex.run (.seq (.star Regex.anyChar false) (Regex.litCI (d :: l)))
        ⟨pos, body ++ (o ++ tail), caps⟩).head?
      = some ⟨pos + body.length + o.length, tail, caps⟩ := by
  rw [Regex.run_seq_eq]
  obtain ⟨l2, hl⟩ := Regex.run_star_lazy_any (Regex.run (Regex.litCI (d :: l))) body
    (fun c hc p t cs => Regex.run_litCI_eq_nil d c l t p cs (hbody c hc))
    pos (o ++ tail) caps
  rw [hl, Regex.run_litCI_eq (d :: l) o _ tail caps ho]
  rfl

/-- The optional language tag of a fence: with a tag, the group takes it whole; without,
the option is skipped. -/
theorem head_fence_tag (tag rest : JSString) (htag : ∀ c ∈ tag, Regex.isWord c = true)
    (pos : Nat) :
    ∃ caps, (Regex.run (.opt (.group 1 (Regex.plus (.chr Regex.isWord) true)))
        ⟨pos, tag ++ '\n' :: rest, []⟩).head?
      = some ⟨pos + tag.length, '\n' :: rest, caps⟩ := by
  have hstop : ∀ c t2, '\n' :: rest = c :: t2 → Regex.isWord c = false := by
    intro c t2 h
    simp only [List.cons.injEq] at h
    rw [← h.1]
    decide
  have hreset : Regex.resetCaps (Regex.groups (.group 1 (Regex.plus (.chr Regex.isWord) true)))
      ⟨pos, tag ++ '\n' :: rest, []⟩ = ⟨pos, tag ++ '\n' :: rest, []⟩ := rfl
  rw [Regex.run_opt_eq, hreset, Regex.run_group_eq]
  cases tag with
  | nil =>
    refine ⟨[], ?_⟩
    have hnone : Regex.run (Regex.plus (.chr Regex.isWord) true) ⟨pos, [] ++ '\n' :: rest, []⟩
        = [] := by
      have : Regex.isWord '\n' = false := by decide
      simp [Regex.plus, Regex.run, this]
    rw [hnone]
    rfl
  | cons c tag =>
    have hhead := Regex.head_plus_greedy Regex.isWord (c :: tag) ('\n' :: rest) (by simp)
      htag hstop pos []
    obtain ⟨l, hl⟩ := List.head?_eq_some_iff.mp hhead
    refine ⟨[(1, (c :: tag ++ '\n' :: rest).take
      ((c :: tag ++ '\n' :: rest).length - ('\n' :: rest).length))], ?_⟩
    rw [hl, List.map_cons, List.filter_cons_of_pos (by simp; omega)]
    rfl

/-- The fence pattern applied at an opening fence with a word tag and a body without
backticks: the match ends after the closing fence and group 2 is the body. -/
theorem matchAt_fenceRegex (tag body tail : JSString)
    (htag : ∀ c ∈ tag, Regex.isWord c = true) (hbody : '`' ∉ body) (pos : Nat) :
    ∃ caps, Regex.matchAt fenceRegex pos
        ("```".toList ++ tag ++ "\n".toList ++ body ++ "```".toList ++ tail)
      = some ⟨pos + 3 + tag.length + 1 + body.length + 3, tail, (2, body) :: caps⟩ := by
  obtain ⟨caps, hopt⟩ := head_fence_tag tag (body ++ ("```".toList ++ tail)) htag (pos + 3)
  refine ⟨caps, ?_⟩
  have hshape : "```".toList ++ tag ++ "\n".toList ++ body ++ "```".toList ++ tail
      = "```".toList ++ (tag ++ '\n' :: (body ++ ("```".toList ++ tail))) := by
    simp
  unfold Regex.matchAt fenceRegex
  rw [hshape]
  apply Regex.head_seq _ _ _ ⟨pos + 3, tag ++ '\n' :: (body ++ ("```".toList ++ tail)), []⟩
  · rw [Regex.run_lit_eq]; rfl
  apply Regex.head_seq _ _ _ _ _ hopt
  apply Regex.head_seq _ _ _
    ⟨pos + 3 + tag.length + 1, body ++ ("```".toList ++ tail), caps⟩
  · have := Regex.run_lit_eq "\n".toList (pos + 3 + tag.length)
      (body ++ ("```".toList ++ tail)) caps
    rw [show "\n".toList ++ (body ++ ("```".toList ++ tail))
      = '\n' :: (body ++ ("```".toList ++ tail)) from rfl] at this
    rw [this]; rfl
  · exact Regex.head_group_lazy_lit 2 '`' "``".toList body tail hbody
      (pos + 3 + tag.length + 1) caps

/-- The fence step on a content that is one fenced block. -/
theorem replaceAll_fenceRegex_block (tag body : JSString)
    (htag : ∀ c ∈ tag, Regex.isWord c = true) (hbody : '`' ∉ body) :
    Regex.replaceAll fenceRegex
        (fun m => "<pre><code>".toList ++ Regex.capture m 2 ++ "</code></pre>".toList)
        ("```".toList ++ tag ++ "\n".toList ++ body ++ "```".toList)
      = "<pre><code>".toList ++ body ++ "</code></pre>".toList := by
  obtain ⟨caps, hm⟩ := matchAt_fenceRegex tag body [] htag hbody 0
  rw [List.append_nil] at hm
  have hend : ∀ fuel pos, Regex.replaceLoop fenceRegex
      (fun m => "<pre><code>".toList ++ Regex.capture m 2 ++ "</code></pre>".toList)
      fuel pos [] = [] := by
    intro fuel pos
    apply Regex.replaceLoop_of_search_none
    apply Regex.search_eq_none fenceRegex [] _ pos [] (List.suffix_refl _)
    intro p rest hsuf
    have hnil : rest = [] := by simpa using hsuf
    subst hnil
    apply Regex.run_lit_seq_eq_nil
    simp only
    decide
  have hcap : Regex.capture
      (⟨0 + 3 + tag.length + 1 + body.length + 3, [], (2, body) :: caps⟩ : MatchState) 2
      = body := by
    simp [Regex.capture, List.lookup]
  unfold Regex.replaceAll
  rw [Regex.replaceLoop_succ, hm]
  simp only [List.length_nil, List.length_append, List.length_cons, hend, hcap]
  have h3 : "```".toList.length = 3 := by decide
  rw [if_pos (by omega)]
  simp

theorem count_fence_output (body : JSString) (c : Char)
    (hc : c = '`' ∨ c = '*' ∨ c = '\n') :
    ("<pre><code>".toList ++ body ++ "</code></pre>".toList).count c = body.count c := by
  simp only [List.count_append]
  rcases hc with h | h | h
  · subst h
    have h1 : List.count '`' "<pre><code>".toList = 0 := by decide
    have h2 : List.count '`' "</code></pre>".toList = 0 := by decide
    omega
  · subst h
    have h1 : List.count '*' "<pre><code>".toList = 0 := by decide
    have h2 : List.count '*' "</code></pre>".toList = 0 := by decide
    omega
  · subst h
    have h1 : List.count '\n' "<pre><code>".toList = 0 := by decide
    have h2 : List.count '\n' "</code></pre>".toList = 0 := by decide
    omega

/-- C18, as stated, fails: a fenced block whose body has a newline comes back with the
newline turned into `<br>`, not with the body unchanged. -/
theorem fenced_block_counterexample :
    processMessageContent "```js\na = 1\nb = 2```".toList
      = "<pre><code>a = 1<br>b = 2</code></pre>".toList ∧
    processMessageContent "```js\na = 1\nb = 2```".toList
      ≠ "<pre><code>a = 1\nb = 2</code></pre>".toList := by
  decide

/-- C18, amended. Fenced code block: for every language tag made of word characters
(possibly empty) and every body with no backtick, no newline and at most one asterisk,
when the content (three backticks, the tag, a newline, the body, three backticks) holds
none of the stripped fragments, `processMessageContent` returns `<pre><code>`, the body
unchanged, `</code></pre>`: the tag is dropped and the code text is kept verbatim. -/
theorem processMessageContent_fenced_block (tag body : JSString)
    (htag : ∀ c ∈ tag, Regex.isWord c = true)
    (hbody : '`' ∉ body) (hnl : '\n' ∉ body) (hstar : body.count '*' ≤ 1)
    (hnoise : ∀ frag ∈ strippedFragments,
      ¬ frag <:+: "```".toList ++ tag ++ "\n".toList ++ body ++ "```".toList) :
    processMessageContent ("```".toList ++ tag ++ "\n".toList ++ body ++ "```".toList)
      = "<pre><code>".toList ++ body ++ "</code></pre>".toList := by
  have e1 : ∀ repl, Regex.replaceAll oaiRegex repl
      ("```".toList ++ tag ++ "\n".toList ++ body ++ "```".toList)
      = "```".toList ++ tag ++ "\n".toList ++ body ++ "```".toList := fun repl =>
    Regex.replaceAll_lit_seq_of_not_infix _ _ _ _ (hnoise _ (by simp [strippedFragments]))
  have e2 : ∀ repl, Regex.replaceAll rafRegex repl
      ("```".toList ++ tag ++ "\n".toList ++ body ++ "```".toList)
      = "```".toList ++ tag ++ "\n".toList ++ body ++ "```".toList := fun repl =>
    Regex.replaceAll_lit_seq_of_not_infix _ _ _ _ (hnoise _ (by simp [strippedFragments]))
  have e3 : ∀ repl, Regex.replaceAll starburstRegex repl
      ("```".toList ++ tag ++ "\n".toList ++ body ++ "```".toList)
      = "```".toList ++ tag ++ "\n".toList ++ body ++ "```".toList := fun repl =>
    Regex.replaceAll_lit_seq_of_not_infix _ _ _ _ (hnoise _ (by simp [strippedFragments]))
  have hb : ("<pre><code>".toList ++ body ++ "</code></pre>".toList).count '`' = 0 := by
    rw [count_fence_output body '`' (Or.inl rfl)]
    exact List.count_eq_zero_of_not_mem hbody
  have hs : ("<pre><code>".toList ++ body ++ "</code></pre>".toList).count '*' ≤ 1 := by
    rw [count_fence_output body '*' (Or.inr (Or.inl rfl))]
    exact hstar
  have hn : ("<pre><code>".toList ++ body ++ "</code></pre>".toList).count '\n' = 0 := by
    rw [count_fence_output body '\n' (Or.inr (Or.inr rfl))]
    exact List.count_eq_zero_of_not_mem hnl
  have e5 : ∀ repl, Regex.replaceAll inlineCodeRegex repl
      ("<pre><code>".toList ++ body ++ "</code></pre>".toList)
      = "<pre><code>".toList ++ body ++ "</code></pre>".toList := fun repl =>
    Regex.replaceAll_of_test_false _ _ _ (test_inlineCodeRegex_false _ (by omega))
  have e6 : ∀ repl, Regex.replaceAll boldRegex repl
      ("<pre><code>".toList ++ body ++ "</code></pre>".toList)
      = "<pre><code>".toList ++ body ++ "</code></pre>".toList := fun repl =>
    Regex.replaceAll_of_test_false _ _ _ (Regex.test_lit_seq_false _ _ _
      (not_infix_of_count_lt _ _ '*' (by
        have : List.count '*' "**".toList = 2 := by decide
        omega)))
  have e7 : ∀ repl, Regex.replaceAll italicRegex repl
      ("<pre><code>".toList ++ body ++ "</code></pre>".toList)
      = "<pre><code>".toList ++ body ++ "</code></pre>".toList := fun repl =>
    Regex.replaceAll_of_test_false _ _ _ (test_italicRegex_false _ hs)
  have e8 : ∀ repl, Regex.replaceAll (Regex.lit "\n\n".toList) repl
      ("<pre><code>".toList ++ body ++ "</code></pre>".toList)
      = "<pre><code>".toList ++ body ++ "</code></pre>".toList := fun repl =>
    Regex.replaceAll_of_test_false _ _ _ (Regex.test_lit_false _ _
      (not_infix_of_count_lt _ _ '\n' (by
        have : List.count '\n' "\n\n".toList = 2 := by decide
        omega)))
  have e9 : ∀ repl, Regex.replaceAll (Regex.lit "\n".toList) repl
      ("<pre><code>".toList ++ body ++ "</code></pre>".toList)
      = "<pre><code>".toList ++ body ++ "</code></pre>".toList := fun repl =>
    Regex.replaceAll_of_test_false _ _ _ (Regex.test_lit_false _ _
      (not_infix_of_count_lt _ _ '\n' (by
        have : List.count '\n' "\n".toList = 1 := by decide
        omega)))
  have hp : processReplacements
      ("```".toList ++ tag ++ "\n".toList ++ body ++ "```".toList)
      = "<pre><code>".toList ++ body ++ "</code></pre>".toList := by
    unfold processReplacements
    simp only
    rw [e1, e2, e3, replaceAll_fenceRegex_block tag body htag hbody, e5, e6, e7, e8, e9]
  have hinc : JSString.includes ("<pre><code>".toList ++ body ++ "</code></pre>".toList)
      "<".toList = true := by
    rw [JSString.includes_iff]
    exact ⟨[], "pre><code>".toList ++ body ++ "</code></pre>".toList, by simp⟩
  unfold processMessageContent
  simp only [hp, hinc, Bool.not_true, Bool.false_and, Bool.false_eq_true, if_false]

theorem processMessageContent_fenced_block_witness :
    processMessageContent "```js\nlet total = price * 2;```".toList
      = "<pre><code>let total = price * 2;</code></pre>".toList :=
  processMessageContent_fenced_block "js".toList "let total = price * 2;".toList
    (by decide) (by decide) (by decide) (by decide) (by decide)

/-! ## Script and style blocks -/

theorem toLower_eq_lt (c : Char) (h : c.toLower = '<') : c = '<' := by
  by_cases hc : c.toNat ≥ 65 ∧ c.toNat ≤ 90
  · exfalso
    have h2 : c.toLower.toNat = c.toNat + 32 := by
      simp only [Char.toLower, hc, and_self, if_true]
      obtain ⟨h1, h2⟩ := hc
      generalize c.toNat = n at h1 h2
      interval_cases n <;> rfl
    rw [h] at h2
    have : ('<' : Char).toNat = 60 := by decide
    omega
  · simpa [Char.toLower, hc] using h

theorem not_mem_map_toLower (s : JSString) (h : '<' ∉ s) : '<' ∉ s.map Char.toLower := by
  intro hm
  obtain ⟨c, hc, hcl⟩ := List.mem_map.mp hm
  exact h (toLower_eq_lt c hcl ▸ hc)

/-- A pattern that starts with `<` under the `i` flag matches nowhere in text without
`<`. -/
theorem Regex.test_tag_false (l : JSString) (r : Regex) (s : JSString) (h : '<' ∉ s) :
    Regex.test (.seq (Regex.litCI ('<' :: l)) r) s = false := by
  apply Regex.test_eq_false
  intro pos rest hsuf
  cases rest with
  | nil => rfl
  | cons c t =>
    have hc : c ≠ '<' := fun hc => h (hsuf.subset (hc ▸ List.mem_cons_self _ _))
    rw [Regex.run_seq_eq, Regex.run_litCI_eq_nil '<' c l t pos []
      (fun hl => hc (toLower_eq_lt c hl))]
    rfl

/-- A pattern that starts with a literal under the `i` flag matches nowhere in a string
whose lower-case form does not contain the lower-case literal. -/
theorem Regex.test_litCI_seq_false (l : JSString) (r : Regex) (s : JSString)
    (h : ¬ l.map Char.toLower <:+: s.map Char.toLower) :
    Regex.test (.seq (Regex.litCI l) r) s = false := by
  apply Regex.test_eq_false
  intro pos rest hsuf
  rw [List.eq_nil_iff_forall_not_mem]
  intro m hm
  obtain ⟨x, hx, _⟩ := (Regex.mem_run_seq _ _ _ m).mp hm
  obtain ⟨o, ho, hol⟩ := Regex.run_litCI_rest l _ x hx
  apply h
  obtain ⟨pre, hpre⟩ := hsuf
  refine ⟨pre.map Char.toLower, x.rest.map Char.toLower, ?_⟩
  simp only at ho
  rw [← hpre, ho, ← hol]
  simp

/-- A string that starts with a character that `a` lacks occurs in `a ++ s` only
inside `s`. -/
theorem infix_of_cons_infix_append (c : Char) (w a s : JSString) (hc : c ∉ a)
    (h : c :: w <:+: a ++ s) : c :: w <:+: s := by
  induction a with
  | nil => simpa using h
  | cons d a ih =>
    rw [List.cons_append, List.infix_cons_iff] at h
    rcases h with h | h
    · exfalso
      rw [List.prefix_cons_iff] at h
      rcases h with h | ⟨t, h, _⟩
      · cases h
      · simp only [List.cons.injEq] at h
        exact hc (h.1 ▸ List.mem_cons_self _ _)
    · exact ih (fun hm => hc (List.mem_cons_of_mem _ hm)) h

/-- The `replace` loop copies text at whose characters the pattern cannot start. -/
theorem Regex.replaceLoop_skip (r : Regex) (repl : MatchState → JSString) (a : JSString)
    (ha : ∀ c ∈ a, ∀ (pos : Nat) (t : JSString), Regex.matchAt r pos (c :: t) = none) :
    ∀ (fuel pos : Nat) (rest : JSString),
      Regex.replaceLoop r repl (a.length + fuel) pos (a ++ rest)
        = a ++ Regex.replaceLoop r repl fuel (pos + a.length) rest := by
  induction a with
  | nil => intro fuel pos rest; simp
  | cons c a ih =>
    intro fuel pos rest
    have hfuel : (c :: a).length + fuel = (a.length + fuel) + 1 := by
      simp only [List.length_cons]; omega
    have hpos : pos + 1 + a.length = pos + (c :: a).length := by
      simp only [List.length_cons]; omega
    rw [hfuel, Regex.replaceLoop_succ, List.cons_append,
      ha c (List.mem_cons_self _ _) pos (a ++ rest)]
    simp only
    rw [ih (fun d hd => ha d (List.mem_cons_of_mem _ hd)) fuel (pos + 1) rest, hpos]
    rfl

/-- One pass of a block pattern (`<tag`, anything, `</tag>`, any letter case) over text
without `<` around one block whose body has no `<`: the block is deleted. -/
theorem Regex.replaceAll_one_block (l l2 o c a x b : JSString)
    (ho : o.map Char.toLower = ('<' :: l).map Char.toLower)
    (hc : c.map Char.toLower = ('<' :: l2).map Char.toLower)
    (ha : '<' ∉ a) (hx : '<' ∉ x) (hb : '<' ∉ b) :
    Regex.replaceAll
        (.seq (Regex.litCI ('<' :: l))
          (.seq (.star Regex.anyChar false) (Regex.litCI ('<' :: l2))))
        removeMatch (a ++ (o ++ (x ++ (c ++ b))))
      = a ++ b := by
  have hskip : ∀ d ∈ a, ∀ (pos : Nat) (t : JSString),
      Regex.matchAt (.seq (Regex.litCI ('<' :: l))
          (.seq (.star Regex.anyChar false) (Regex.litCI ('<' :: l2)))) pos (d :: t)
        = none := by
    intro d hd pos t
    have hd2 : d ≠ '<' := fun h => ha (h ▸ hd)
    rw [Regex.matchAt, Regex.run_seq_eq, Regex.run_litCI_eq_nil '<' d l t pos []
      (fun hl => hd2 (toLower_eq_lt d hl))]
    rfl
  have hmatch : ∀ pos, Regex.matchAt (.seq (Regex.litCI ('<' :: l))
        (.seq (.star Regex.anyChar false) (Regex.litCI ('<' :: l2)))) pos
        (o ++ (x ++ (c ++ b)))
      = some ⟨pos + o.length + x.length + c.length, b, []⟩ := by
    intro pos
    unfold Regex.matchAt
    apply Regex.head_seq _ _ _ ⟨pos + o.length, x ++ (c ++ b), []⟩
    · rw [Regex.run_litCI_eq ('<' :: l) o pos _ [] ho]; rfl
    · exact Regex.head_lazy_litCI '<' l2 c x b hc
        (fun d hd hl => hx (toLower_eq_lt d hl ▸ hd)) (pos + o.length) []
  have htail : ∀ fuel pos, Regex.replaceLoop (.seq (Regex.litCI ('<' :: l))
        (.seq (.star Regex.anyChar false) (Regex.litCI ('<' :: l2)))) removeMatch
        fuel pos b = b := by
    intro fuel pos
    apply Regex.replaceLoop_of_search_none
    apply Regex.search_eq_none _ b _ pos b (List.suffix_refl _)
    intro p rest hsuf
    cases rest with
    | nil => rfl
    | cons d t =>
      have hd : d ≠ '<' := fun h => hb (hsuf.subset (h ▸ List.mem_cons_self _ _))
      rw [Regex.run_seq_eq, Regex.run_litCI_eq_nil '<' d l t p []
        (fun hl => hd (toLower_eq_lt d hl))]
      rfl
  have holen : 0 < o.length := by
    have := congrArg List.length ho
    simp only [List.length_map, List.length_cons] at this
    omega
  unfold Regex.replaceAll
  have hfuel : (a ++ (o ++ (x ++ (c ++ b)))).length + 1
      = a.length + ((o ++ (x ++ (c ++ b))).length + 1) := by
    simp only [List.length_append]; omega
  rw [hfuel, Regex.replaceLoop_skip _ _ a hskip, Regex.replaceLoop_succ, hmatch]
  simp only [List.length_append, htail]
  rw [if_pos (by omega)]
  rfl

theorem script_not_prefix_style (y : JSString) :
    ¬ "<script".toList <+: "<style".toList ++ y := by
  have e1 : "<script".toList = ['<', 's', 'c', 'r', 'i', 'p', 't'] := by decide
  have e2 : "<style".toList = ['<', 's', 't', 'y', 'l', 'e'] := by decide
  rw [e1, e2]
  simp [List.cons_prefix_cons]

theorem script_not_prefix_close (y : JSString) :
    ¬ "<script".toList <+: "</style>".toList ++ y := by
  have e1 : "<script".toList = ['<', 's', 'c', 'r', 'i', 'p', 't'] := by decide
  have e2 : "</style>".toList = ['<', '/', 's', 't', 'y', 'l', 'e', '>'] := by decide
  rw [e1, e2]
  simp [List.cons_prefix_cons]

/-- The script pattern matches nowhere in text without `<` around one style block whose
body has no `<`. -/
theorem test_scriptRegex_style_block (a o x c b : JSString)
    (ho : o.map Char.toLower = "<style".toList)
    (hc : c.map Char.toLower = "</style>".toList)
    (ha : '<' ∉ a) (hx : '<' ∉ x) (hb : '<' ∉ b) :
    Regex.test scriptRegex (a ++ (o ++ (x ++ (c ++ b)))) = false := by
  unfold scriptRegex
  apply Regex.test_litCI_seq_false
  have hl : "<script".toList.map Char.toLower = '<' :: "script".toList := by decide
  rw [hl]
  simp only [List.map_append, ho, hc]
  intro h
  have h1 := infix_of_cons_infix_append '<' _ _ _ (not_mem_map_toLower a ha) h
  have e2 : "<style".toList = '<' :: "style".toList := by decide
  rw [e2, List.cons_append, List.infix_cons_iff] at h1
  rcases h1 with h1 | h1
  · exact script_not_prefix_style _ h1
  · have h2 := infix_of_cons_infix_append '<' _ "style".toList _ (by decide) h1
    have h3 := infix_of_cons_infix_append '<' _ _ _ (not_mem_map_toLower x hx) h2
    have e3 : "</style>".toList = '<' :: "/style>".toList := by decide
    rw [e3, List.cons_append, List.infix_cons_iff] at h3
    rcases h3 with h3 | h3
    · exact script_not_prefix_close _ h3
    · have h4 := infix_of_cons_infix_append '<' _ "/style>".toList _ (by decide) h3
      have h5 : '<' :: "script".toList <:+: List.map Char.toLower b ++ [] := by
        simpa using h4
      have h6 := infix_of_cons_infix_append '<' _ _ _ (not_mem_map_toLower b hb) h5
      simp at h6

/-- C19, as stated, fails: the html `<scr<script></script>ipt>alert(1)</script>` has no
`window.__oai`; the script pass deletes the inner block and thereby joins the text around
it into `<script>alert(1)</script>`, which is the markup used. -/
theorem script_block_counterexample :
    JSString.includes nestedScriptMessage.html "window.__oai".toList = false ∧
    createMessageElement nestedScriptMessage = "<script>alert(1)</script>".toList ∧
    Regex.test scriptRegex (createMessageElement nestedScriptMessage) = true := by
  decide

/-! ## JSON: reading back what was written -/

theorem Json.parseString_plain (fuel : Nat) (c : Char) (t acc : JSString)
    (h1 : c ≠ '"') (h2 : c ≠ '\\') (h3 : 32 ≤ c.toNat) :
    Json.parseString (fuel + 1) (c :: t) acc = Json.parseString fuel t (c :: acc) := by
  have h4 : ¬ c.toNat < 32 := by omega
  conv => lhs; unfold Json.parseString
  split
  · rename_i h; exact absurd h (by omega)
  · rename_i h; exact absurd h (by simp)
  · rename_i h; simp only [List.cons.injEq] at h; exact absurd h.1 h1
  · rename_i h; simp only [List.cons.injEq] at h; exact absurd h.1 h2
  · rename_i h; simp only [List.cons.injEq] at h; exact absurd h.1 h2
  · rename_i hf h
    simp only [List.cons.injEq] at h
    obtain ⟨rfl, rfl⟩ := h
    have hf2 : fuel = _ := Nat.succ.inj hf
    subst hf2
    simp [h4, h2]

theorem Json.parseString_quote (fuel : Nat) (t acc : JSString) :
    Json.parseString (fuel + 1) ('"' :: t) acc = some (acc.reverse, t) := by
  rfl

theorem Json.parseString_escape_quote (fuel : Nat) (t acc : JSString) :
    Json.parseString (fuel + 1) ('\\' :: '"' :: t) acc
      = Json.parseString fuel t ('"' :: acc) := by
  rfl

theorem Json.parseString_escape_n (fuel : Nat) (t acc : JSString) :
    Json.parseString (fuel + 1) ('\\' :: 'n' :: t) acc
      = Json.parseString fuel t ('\n' :: acc) := by
  rfl

theorem Json.hexVal_hexDigit : ∀ n, n < 16 → Json.hexVal (Json.hexDigit n) = some n := by
  decide

theorem Json.parseString_escape_u (fuel : Nat) (n : Nat) (hn : n < 32) (t acc : JSString) :
    Json.parseString (fuel + 1)
        ('\\' :: 'u' :: '0' :: '0' :: Json.hexDigit (n / 16) :: Json.hexDigit (n % 16) :: t) acc
      = Json.parseString fuel t (Char.ofNat n :: acc) := by
  have h1 := Json.hexVal_hexDigit (n / 16) (by omega)
  have h2 := Json.hexVal_hexDigit (n % 16) (by omega)
  have h0 : Json.hexVal '0' = some 0 := by decide
  have hx : Json.hex4 ('0' :: '0' :: Json.hexDigit (n / 16) :: Json.hexDigit (n % 16) :: t)
      = some (n, t) := by
    simp only [Json.hex4, h0, h1, h2]
    congr 2
    omega
  conv => lhs; unfold Json.parseString
  simp only [hx]
  have g1 : ¬ 55296 ≤ n := by omega
  have g2 : ¬ 56320 ≤ n := by omega
  simp [g1, g2]

/-- Reading back one written character. -/
theorem Json.parseString_escapeChar (fuel : Nat) (c : Char) (t acc : JSString) :
    Json.parseString (fuel + 1) (Json.escapeChar c ++ t) acc
      = Json.parseString fuel t (c :: acc) := by
  by_cases h1 : c = '"'
  · subst h1; rfl
  by_cases h2 : c = '\\'
  · subst h2; rfl
  by_cases h8 : c.toNat = 8
  · have hc : c = Char.ofNat 8 := by rw [← h8, Char.ofNat_toNat]
    subst hc; rfl
  by_cases h12 : c.toNat = 12
  · have hc : c = Char.ofNat 12 := by rw [← h12, Char.ofNat_toNat]
    subst hc; rfl
  by_cases h10 : c.toNat = 10
  · have hc : c = Char.ofNat 10 := by rw [← h10, Char.ofNat_toNat]
    subst hc; rfl
  by_cases h13 : c.toNat = 13
  · have hc : c = Char.ofNat 13 := by rw [← h13, Char.ofNat_toNat]
    subst hc; rfl
  by_cases h9 : c.toNat = 9
  · have hc : c = Char.ofNat 9 := by rw [← h9, Char.ofNat_toNat]
    subst hc; rfl
  by_cases h32 : c.toNat < 32
  · have he : Json.escapeChar c
        = ['\\', 'u', '0', '0', Json.hexDigit (c.toNat / 16), Json.hexDigit (c.toNat % 16)] := by
      simp [Json.escapeChar, h1, h2, h8, h12, h10, h13, h9, h32]
    rw [he]
    have := Json.parseString_escape_u fuel c.toNat h32 t acc
    rw [Char.ofNat_toNat] at this
    exact this
  · have he : Json.escapeChar c = [c] := by
      simp [Json.escapeChar, h1, h2, h8, h12, h10, h13, h9, h32]
    rw [he]
    exact Json.parseString_plain fuel c t acc h1 h2 (by omega)

theorem Json.length_escapeChar_pos (c : Char) : 0 < (Json.escapeChar c).length := by
  unfold Json.escapeChar
  repeat' split
  all_goals simp

/-- Reading back a written string literal. -/
theorem Json.parseString_escape (s : JSString) :
    ∀ (acc rest : JSString) (fuel : Nat), (Json.escape s).length < fuel →
      Json.parseString fuel (Json.escape s ++ '"' :: rest) acc
        = some (acc.reverse ++ s, rest) := by
  induction s with
  | nil =>
    intro acc rest fuel hf
    cases fuel with
    | zero => simp [Json.escape] at hf
    | succ f => simp [Json.escape, Json.parseString_quote]
  | cons c s ih =>
    intro acc rest fuel hf
    have hpos := Json.length_escapeChar_pos c
    simp only [Json.escape, List.length_append] at hf
    cases fuel with
    | zero => omega
    | succ f =>
      rw [Json.escape, List.append_assoc, Json.parseString_escapeChar,
        ih (c :: acc) rest f (by omega)]
      simp

theorem Json.skipWs_blank (ws s : JSString) (h : Json.IsBlank ws) :
    Json.skipWs (ws ++ s) = Json.skipWs s := by
  induction ws with
  | nil => rfl
  | cons c t ih =>
    have hc := h c (List.mem_cons_self _ _)
    have ht : Json.IsBlank t := fun d hd => h d (List.mem_cons_of_mem _ hd)
    rcases hc with rfl | rfl
    · rw [List.cons_append, Json.skipWs]; simpa using ih ht
    · rw [List.cons_append, Json.skipWs]; simpa using ih ht

theorem Json.skipWs_cons (c : Char) (s : JSString)
    (h : c ≠ ' ' ∧ c ≠ '\t' ∧ c ≠ '\n' ∧ c ≠ '\r') :
    Json.skipWs (c :: s) = c :: s := by
  rw [Json.skipWs]
  simp [h.1, h.2.1, h.2.2.1, h.2.2.2]

theorem Json.parseAux_elements (fuel : Nat) (acc : List JSValue) (s : JSString) :
    Json.parseAux (fuel + 1) (.elements acc) s
      = match Json.parseAux fuel .value s with
        | none => none
        | some (v, r) =>
          match Json.skipWs r with
          | ',' :: r1 => Json.parseAux fuel (.elements (acc ++ [v])) r1
          | ']' :: r1 => some (.array (acc ++ [v]), r1)
          | _ => none := by
  rfl

theorem Json.parseAux_members (fuel : Nat) (acc : List (JSString × JSValue))
    (s : JSString) :
    Json.parseAux (fuel + 1) (.members acc) s
      = match Json.skipWs s with
        | '"' :: r =>
          match Json.parseString (r.length + 1) r [] with
          | none => none
          | some (key, r1) =>
            match Json.skipWs r1 with
            | ':' :: r2 =>
              match Json.parseAux fuel .value r2 with
              | none => none
              | some (v, r3) =>
                match Json.skipWs r3 with
                | ',' :: r4 => Json.parseAux fuel (.members (JSValue.setProp acc key v)) r4
                | '\x7d' :: r4 => some (.object (JSValue.setProp acc key v), r4)
                | _ => none
            | _ => none
        | _ => none := by
  rfl

theorem Json.parseAux_value (fuel : Nat) (s : JSString) :
    Json.parseAux (fuel + 1) .value s
      = match Json.skipWs s with
        | 'n' :: 'u' :: 'l' :: 'l' :: r => some (.null, r)
        | 't' :: 'r' :: 'u' :: 'e' :: r => some (.bool true, r)
        | 'f' :: 'a' :: 'l' :: 's' :: 'e' :: r => some (.bool false, r)
        | '"' :: r =>
          match Json.parseString (r.length + 1) r [] with
          | some (str, r1) => some (.string str, r1)
          | none => none
        | '[' :: r =>
          match Json.skipWs r with
          | ']' :: r1 => some (.array [], r1)
          | _ => Json.parseAux fuel (.elements []) r
        | '\x7b' :: r =>
          match Json.skipWs r with
          | '\x7d' :: r1 => some (.object [], r1)
          | _ => Json.parseAux fuel (.members []) r
        | other => Json.parseNumber other := by
  rfl

theorem Json.stringifyValue_head (indent : JSString) (v : JSValue)
    (hv : Json.Serializable v) :
    ∃ c t, Json.stringifyValue indent v = c :: t ∧ Json.IsStart c := by
  cases v with
  | null => exact ⟨'n', "ull".toList, rfl, Or.inl rfl⟩
  | bool b =>
    cases b
    · exact ⟨'f', "alse".toList, rfl, Or.inr (Or.inr (Or.inl rfl))⟩
    · exact ⟨'t', "rue".toList, rfl, Or.inr (Or.inl rfl)⟩
  | number n d e => simp [Json.Serializable] at hv
  | string s => exact ⟨'"', _, rfl, Or.inr (Or.inr (Or.inr (Or.inl rfl)))⟩
  | array items =>
    cases items with
    | nil => exact ⟨'[', "]".toList, rfl, Or.inr (Or.inr (Or.inr (Or.inr (Or.inl rfl))))⟩
    | cons x l =>
      exact ⟨'[', _, by rw [Json.stringifyValue]; rfl,
        Or.inr (Or.inr (Or.inr (Or.inr (Or.inl rfl))))⟩
  | object props =>
    cases props with
    | nil =>
      exact ⟨'\x7b', "\x7d".toList, rfl, Or.inr (Or.inr (Or.inr (Or.inr (Or.inr rfl))))⟩
    | cons kv l =>
      obtain ⟨k, x⟩ := kv
      exact ⟨'\x7b', _, by rw [Json.stringifyValue]; rfl,
        Or.inr (Or.inr (Or.inr (Or.inr (Or.inr rfl))))⟩

theorem Json.skipWs_start (c : Char) (t : JSString) (hc : Json.IsStart c) :
    Json.skipWs (c :: t) = c :: t := by
  rcases hc with rfl | rfl | rfl | rfl | rfl | rfl <;> rfl

/-- An opening bracket followed by a value starts a non-empty array. -/
theorem Json.parseAux_array_open (fuel : Nat) (ws r : JSString) (c : Char) (t : JSString)
    (hws : Json.IsBlank ws) (hr : Json.skipWs r = c :: t) (hc : Json.IsStart c) :
    Json.parseAux (fuel + 1) .value (ws ++ '[' :: r)
      = Json.parseAux fuel (.elements []) r := by
  rw [Json.parseAux_value, Json.skipWs_blank _ _ hws,
    Json.skipWs_cons '[' r (by decide)]
  simp only [hr]
  rcases hc with rfl | rfl | rfl | rfl | rfl | rfl <;> rfl

theorem Json.parseAux_object_open (fuel : Nat) (ws r : JSString) (t : JSString)
    (hws : Json.IsBlank ws) (hr : Json.skipWs r = '"' :: t) :
    Json.parseAux (fuel + 1) .value (ws ++ '\x7b' :: r)
      = Json.parseAux fuel (.members []) r := by
  rw [Json.parseAux_value, Json.skipWs_blank _ _ hws,
    Json.skipWs_cons '\x7b' r (by decide)]
  simp only [hr]
  rfl

/-- The elements of a written array, read back one after the other. -/
theorem Json.parseAux_elements_readsBack (items : List JSValue) :
    (∀ x ∈ items, Json.ReadsBack x) → ∀ (v : JSValue), Json.ReadsBack v →
    ∀ (inner outer tail : JSString) (acc : List JSValue) (fuel : Nat),
      Json.IsBlank inner → Json.IsBlank outer →
      2 * ('\n' :: inner ++ (Json.stringifyValue inner v ++
          (Json.stringifyItems inner items ++ ('\n' :: outer ++ ']' :: tail)))).length + 2
        ≤ fuel →
      Json.parseAux fuel (.elements acc)
          ('\n' :: inner ++ (Json.stringifyValue inner v ++
            (Json.stringifyItems inner items ++ ('\n' :: outer ++ ']' :: tail))))
        = some (.array (acc ++ v :: items), tail) := by
  induction items with
  | nil =>
    intro _ v hv inner outer tail acc fuel hin hout hfuel
    cases fuel with
    | zero => omega
    | succ g =>
      have hws : Json.IsBlank ('\n' :: inner) := by
        intro c hc
        rcases List.mem_cons.mp hc with rfl | hc
        · exact Or.inr rfl
        · exact hin c hc
      have hws2 : Json.IsBlank ('\n' :: outer) := by
        intro c hc
        rcases List.mem_cons.mp hc with rfl | hc
        · exact Or.inr rfl
        · exact hout c hc
      rw [Json.parseAux_elements,
        hv inner ('\n' :: inner) _ g hin hws (by
          simp only [List.length_append, List.length_cons] at hfuel ⊢; omega)]
      simp only [Json.stringifyItems, List.nil_append]
      rw [Json.skipWs_blank _ _ hws2, Json.skipWs_cons ']' tail (by decide)]
      rfl
  | cons v2 more ih =>
    intro hitems v hv inner outer tail acc fuel hin hout hfuel
    cases fuel with
    | zero => omega
    | succ g =>
      have hws : Json.IsBlank ('\n' :: inner) := by
        intro c hc
        rcases List.mem_cons.mp hc with rfl | hc
        · exact Or.inr rfl
        · exact hin c hc
      rw [Json.parseAux_elements,
        hv inner ('\n' :: inner) _ g hin hws (by
          simp only [List.length_append, List.length_cons] at hfuel ⊢; omega)]
      have hshape : Json.stringifyItems inner (v2 :: more) ++ ('\n' :: outer ++ ']' :: tail)
          = ',' :: ('\n' :: inner ++ (Json.stringifyValue inner v2 ++
              (Json.stringifyItems inner more ++ ('\n' :: outer ++ ']' :: tail)))) := by
        simp [Json.stringifyItems]
      simp only [hshape]
      rw [Json.skipWs_cons ',' _ (by decide)]
      simp only
      rw [ih (fun x hx => hitems x (List.mem_cons_of_mem _ hx)) v2
        (hitems v2 (List.mem_cons_self _ _)) inner outer tail (acc ++ [v]) g hin hout (by
          rw [hshape] at hfuel
          simp only [List.length_append, List.length_cons] at hfuel ⊢; omega)]
      simp

theorem Json.setProp_append (acc : List (JSString × JSValue)) (k : JSString) (v : JSValue)
    (h : k ∉ acc.map Prod.fst) : JSValue.setProp acc k v = acc ++ [(k, v)] := by
  induction acc with
  | nil => rfl
  | cons kv rest ih =>
    obtain ⟨k2, v2⟩ := kv
    have hne : k2 ≠ k := fun he =>
      h (List.mem_map.mpr ⟨(k2, v2), List.mem_cons_self _ _, he⟩)
    have hrest : k ∉ rest.map Prod.fst := fun hm => by
      obtain ⟨kv, hkv, hk⟩ := List.mem_map.mp hm
      exact h (List.mem_map.mpr ⟨kv, List.mem_cons_of_mem _ hkv, hk⟩)
    rw [JSValue.setProp, if_neg hne, ih hrest]
    rfl

theorem Json.isBlank_newline (s : JSString) (h : Json.IsBlank s) :
    Json.IsBlank ('\n' :: s) := by
  intro c hc
  rcases List.mem_cons.mp hc with rfl | hc
  · exact Or.inr rfl
  · exact h c hc

/-- Reading back the key of a member and the colon after it. -/
theorem Json.parseAux_member_key (fuel : Nat) (acc : List (JSString × JSValue))
    (ws k rest : JSString) (hws : Json.IsBlank ws) :
    Json.parseAux (fuel + 1) (.members acc) (ws ++ (Json.quote k ++ ':' :: ' ' :: rest))
      = match Json.parseAux fuel .value (' ' :: rest) with
        | none => none
        | some (v, r3) =>
          match Json.skipWs r3 with
          | ',' :: r4 => Json.parseAux fuel (.members (JSValue.setProp acc k v)) r4
          | '\x7d' :: r4 => some (.object (JSValue.setProp acc k v), r4)
          | _ => none := by
  rw [Json.parseAux_members, Json.skipWs_blank _ _ hws]
  have hq : Json.quote k ++ ':' :: ' ' :: rest
      = '"' :: (Json.escape k ++ '"' :: (':' :: ' ' :: rest)) := by
    simp [Json.quote]
  rw [hq, Json.skipWs_cons '"' _ (by decide)]
  simp only
  rw [Json.parseString_escape k [] _ _ (by simp only [List.length_append, List.length_cons]; omega)]
  simp only [List.reverse_nil, List.nil_append]
  rw [Json.skipWs_cons ':' _ (by decide)]
  rfl

/-- The members of a written object, read back one after the other. -/
theorem Json.parseAux_members_readsBack (props : List (JSString × JSValue)) :
    (∀ kv ∈ props, Json.ReadsBack kv.2) → ∀ (k : JSString) (v : JSValue), Json.ReadsBack v →
    ∀ (inner outer tail : JSString) (acc : List (JSString × JSValue)) (fuel : Nat),
      Json.IsBlank inner → Json.IsBlank outer →
      ((acc ++ (k, v) :: props).map Prod.fst).Nodup →
      2 * ('\n' :: inner ++ (Json.quote k ++ ':' :: ' ' :: (Json.stringifyValue inner v ++
          (Json.stringifyProps inner props ++ ('\n' :: outer ++ '\x7d' :: tail))))).length + 2
        ≤ fuel →
      Json.parseAux fuel (.members acc)
          ('\n' :: inner ++ (Json.quote k ++ ':' :: ' ' :: (Json.stringifyValue inner v ++
            (Json.stringifyProps inner props ++ ('\n' :: outer ++ '\x7d' :: tail)))))
        = some (.object (acc ++ (k, v) :: props), tail) := by
  induction props with
  | nil =>
    intro _ k v hv inner outer tail acc fuel hin hout hnodup hfuel
    cases fuel with
    | zero => omega
    | succ g =>
      have hk : k ∉ acc.map Prod.fst := by
        intro hm
        simp only [List.map_append, List.map_cons, List.map_nil] at hnodup
        exact (List.nodup_append.mp hnodup).2.2 hm (List.mem_cons_self _ _)
      rw [Json.parseAux_member_key g acc _ k _ (Json.isBlank_newline inner hin)]
      have := hv inner [' '] (Json.stringifyProps inner [] ++ ('\n' :: outer ++ '\x7d' :: tail))
        g hin (by intro c hc; simp at hc; exact Or.inl hc) (by
          simp only [List.length_append, List.length_cons] at hfuel ⊢; omega)
      rw [show ' ' :: (Json.stringifyValue inner v ++
          (Json.stringifyProps inner [] ++ ('\n' :: outer ++ '\x7d' :: tail)))
        = [' '] ++ (Json.stringifyValue inner v ++
          (Json.stringifyProps inner [] ++ ('\n' :: outer ++ '\x7d' :: tail))) from rfl, this]
      simp only [Json.stringifyProps, List.nil_append]
      rw [Json.skipWs_blank _ _ (Json.isBlank_newline outer hout),
        Json.skipWs_cons '\x7d' tail (by decide), Json.setProp_append acc k v hk]
      rfl
  | cons kv2 more ih =>
    obtain ⟨k2, v2⟩ := kv2
    intro hprops k v hv inner outer tail acc fuel hin hout hnodup hfuel
    cases fuel with
    | zero => omega
    | succ g =>
      have hk : k ∉ acc.map Prod.fst := by
        intro hm
        simp only [List.map_append, List.map_cons] at hnodup
        exact (List.nodup_append.mp hnodup).2.2 hm (List.mem_cons_self _ _)
      have hshape : Json.stringifyProps inner ((k2, v2) :: more)
            ++ ('\n' :: outer ++ '\x7d' :: tail)
          = ',' :: ('\n' :: inner ++ (Json.quote k2 ++ ':' :: ' ' ::
              (Json.stringifyValue inner v2 ++
                (Json.stringifyProps inner more ++ ('\n' :: outer ++ '\x7d' :: tail))))) := by
        simp [Json.stringifyProps]
      rw [Json.parseAux_member_key g acc _ k _ (Json.isBlank_newline inner hin)]
      have := hv inner [' '] (Json.stringifyProps inner ((k2, v2) :: more) ++
          ('\n' :: outer ++ '\x7d' :: tail))
        g hin (by intro c hc; simp at hc; exact Or.inl hc) (by
          simp only [List.length_append, List.length_cons] at hfuel ⊢; omega)
      rw [show ' ' :: (Json.stringifyValue inner v ++
          (Json.stringifyProps inner ((k2, v2) :: more) ++ ('\n' :: outer ++ '\x7d' :: tail)))
        = [' '] ++ (Json.stringifyValue inner v ++
          (Json.stringifyProps inner ((k2, v2) :: more) ++
            ('\n' :: outer ++ '\x7d' :: tail))) from rfl, this]
      simp only [hshape]
      rw [Json.skipWs_cons ',' _ (by decide), Json.setProp_append acc k v hk]
      simp only
      rw [ih (fun kv hkv => hprops kv (List.mem_cons_of_mem _ hkv)) k2 v2
        (hprops (k2, v2) (List.mem_cons_self _ _)) inner outer tail (acc ++ [(k, v)]) g
        hin hout (by simpa using hnodup) (by
          rw [hshape] at hfuel
          simp only [List.length_append, List.length_cons] at hfuel ⊢; omega)]
      simp

theorem Json.readsBack_null : Json.ReadsBack .null := by
  intro indent ws rest fuel _ hws hfuel
  cases fuel with
  | zero => omega
  | succ f =>
    rw [Json.parseAux_value, Json.skipWs_blank _ _ hws]
    rfl

theorem Json.readsBack_bool (b : Bool) : Json.ReadsBack (.bool b) := by
  intro indent ws rest fuel _ hws hfuel
  cases fuel with
  | zero => omega
  | succ f =>
    rw [Json.parseAux_value, Json.skipWs_blank _ _ hws]
    cases b <;> rfl

theorem Json.readsBack_string (s : JSString) : Json.ReadsBack (.string s) := by
  intro indent ws rest fuel _ hws hfuel
  cases fuel with
  | zero => omega
  | succ f =>
    have hq : Json.stringifyValue indent (.string s) ++ rest
        = '"' :: (Json.escape s ++ '"' :: rest) := by
      simp [Json.stringifyValue, Json.quote]
    rw [Json.parseAux_value, Json.skipWs_blank _ _ hws, hq,
      Json.skipWs_cons '"' _ (by decide)]
    simp only
    rw [Json.parseString_escape s [] rest _
      (by simp only [List.length_append, List.length_cons]; omega)]
    rfl

theorem Json.readsBack_array (items : List JSValue)
    (hser : Json.SerializableItems items) (hitems : ∀ x ∈ items, Json.ReadsBack x) :
    Json.ReadsBack (.array items) := by
  intro indent ws rest fuel hin hws hfuel
  cases fuel with
  | zero => omega
  | succ f =>
    cases items with
    | nil =>
      rw [Json.parseAux_value, Json.skipWs_blank _ _ hws]
      rfl
    | cons v more =>
      have hinner : Json.IsBlank (' ' :: ' ' :: indent) := by
        intro c hc
        simp only [List.mem_cons] at hc
        rcases hc with rfl | rfl | hc
        · exact Or.inl rfl
        · exact Or.inl rfl
        · exact hin c hc
      have hshape : Json.stringifyValue indent (.array (v :: more)) ++ rest
          = '[' :: ('\n' :: (' ' :: ' ' :: indent) ++
              (Json.stringifyValue (' ' :: ' ' :: indent) v ++
                (Json.stringifyItems (' ' :: ' ' :: indent) more ++
                  ('\n' :: indent ++ ']' :: rest)))) := by
        simp [Json.stringifyValue]
      obtain ⟨c, t, hct, hstart⟩ :=
        Json.stringifyValue_head (' ' :: ' ' :: indent) v hser.1
      rw [hshape] at hfuel ⊢
      rw [Json.parseAux_array_open f ws _ c
        (t ++ (Json.stringifyItems (' ' :: ' ' :: indent) more ++
          ('\n' :: indent ++ ']' :: rest))) hws (by
          rw [Json.skipWs_blank _ _ (Json.isBlank_newline _ hinner), hct, List.cons_append,
            Json.skipWs_start c _ hstart]) hstart]
      rw [Json.parseAux_elements_readsBack more
        (fun x hx => hitems x (List.mem_cons_of_mem _ hx)) v
        (hitems v (List.mem_cons_self _ _)) _ indent rest [] f hinner hin (by
          simp only [List.length_append, List.length_cons] at hfuel ⊢; omega)]
      rfl

theorem Json.readsBack_object (props : List (JSString × JSValue))
    (hnodup : (props.map Prod.fst).Nodup)
    (hprops : ∀ kv ∈ props, Json.ReadsBack kv.2) :
    Json.ReadsBack (.object props) := by
  intro indent ws rest fuel hin hws hfuel
  cases fuel with
  | zero => omega
  | succ f =>
    cases props with
    | nil =>
      rw [Json.parseAux_value, Json.skipWs_blank _ _ hws]
      rfl
    | cons kv more =>
      obtain ⟨k, v⟩ := kv
      have hinner : Json.IsBlank (' ' :: ' ' :: indent) := by
        intro c hc
        simp only [List.mem_cons] at hc
        rcases hc with rfl | rfl | hc
        · exact Or.inl rfl
        · exact Or.inl rfl
        · exact hin c hc
      have hshape : Json.stringifyValue indent (.object ((k, v) :: more)) ++ rest
          = '\x7b' :: ('\n' :: (' ' :: ' ' :: indent) ++ (Json.quote k ++ ':' :: ' ' ::
              (Json.stringifyValue (' ' :: ' ' :: indent) v ++
                (Json.stringifyProps (' ' :: ' ' :: indent) more ++
                  ('\n' :: indent ++ '\x7d' :: rest))))) := by
        simp [Json.stringifyValue]
      rw [hshape] at hfuel ⊢
      rw [Json.parseAux_object_open f ws _
        (Json.escape k ++ '"' :: (':' :: ' ' ::
          (Json.stringifyValue (' ' :: ' ' :: indent) v ++
            (Json.stringifyProps (' ' :: ' ' :: indent) more ++
              ('\n' :: indent ++ '\x7d' :: rest))))) hws (by
          rw [Json.skipWs_blank _ _ (Json.isBlank_newline _ hinner)]
          simp [Json.quote, Json.skipWs_cons])]
      rw [Json.parseAux_members_readsBack more
        (fun x hx => hprops x (List.mem_cons_of_mem _ hx)) k v
        (hprops (k, v) (List.mem_cons_self _ _)) _ indent rest [] f hinner hin
        (by exact hnodup) (by
          simp only [List.length_append, List.length_cons] at hfuel ⊢; omega)]
      rfl

/-- Every serializable value is read back as written. -/
theorem Json.readsBack_of_serializable (v : JSValue) :
    Json.Serializable v → Json.ReadsBack v := by
  refine JSValue.rec
    (motive_1 := fun v => Json.Serializable v → Json.ReadsBack v)
    (motive_2 := fun items => Json.SerializableItems items → ∀ x ∈ items, Json.ReadsBack x)
    (motive_3 := fun props => Json.SerializableProps props →
      ∀ kv ∈ props, Json.ReadsBack kv.2)
    (motive_4 := fun kv => Json.Serializable kv.2 → Json.ReadsBack kv.2)
    ?_ ?_ ?_ ?_ ?_ ?_ ?_ ?_ ?_ ?_ ?_ v
  · intro _; exact Json.readsBack_null
  · intro b _; exact Json.readsBack_bool b
  · intro n d e h; simp [Json.Serializable] at h
  · intro s _; exact Json.readsBack_string s
  · intro items ih h
    rw [Json.Serializable] at h
    exact Json.readsBack_array items h (ih h)
  · intro props ih h
    rw [Json.Serializable] at h
    exact Json.readsBack_object props h.1 (ih h.2)
  · intro _ x hx; simp at hx
  · intro head tail ih1 ih2 h x hx
    rw [Json.SerializableItems] at h
    rcases List.mem_cons.mp hx with rfl | hx
    · exact ih1 h.1
    · exact ih2 h.2 x hx
  · intro _ kv hkv; simp at hkv
  · intro head tail ih1 ih2 h kv hkv
    obtain ⟨k, v⟩ := head
    rw [Json.SerializableProps] at h
    rcases List.mem_cons.mp hkv with rfl | hkv
    · exact ih1 h.1
    · exact ih2 h.2 kv hkv
  · intro k v ih h; exact ih h

/-- Round trip: `parse (stringify v) = v` for every serializable value. -/
theorem Json.parse_stringify (v : JSValue) (hv : Json.Serializable v) :
    Json.parse (Json.stringify v) = .ok v := by
  have h := Json.readsBack_of_serializable v hv [] [] [] (2 * (Json.stringify v).length + 2)
    (by intro c hc; simp at hc) (by intro c hc; simp at hc)
    (by simp [Json.stringify])
  simp only [List.nil_append, List.append_nil] at h
  unfold Json.parse
  rw [show Json.stringify v = Json.stringifyValue [] v from rfl] at h ⊢
  rw [h]
  rfl


/-! ## The export document is serializable -/

theorem message_serializable (m : Message) : Json.Serializable m.toJSValue := by
  simp only [Message.toJSValue, Json.Serializable, Json.SerializableProps, and_true,
    List.map_cons, List.map_nil]
  decide

theorem serializableItems_messages (messages : List Message) :
    Json.SerializableItems (messages.map Message.toJSValue) := by
  induction messages with
  | nil => simp [Json.SerializableItems]
  | cons m rest ih =>
    simp only [List.map_cons, Json.SerializableItems]
    exact ⟨message_serializable m, ih⟩

theorem conversation_serializable (c : Conversation) :
    Json.Serializable c.toJSValue := by
  have hm := serializableItems_messages c.messages
  cases hl : c.lastUpdated with
  | none =>
    simp only [Conversation.toJSValue, hl, List.append_nil, Json.Serializable,
      Json.SerializableProps, and_true, true_and]
    exact ⟨by simp only [List.map_cons, List.map_nil]; decide, hm⟩
  | some t =>
    simp only [Conversation.toJSValue, hl, List.cons_append, List.nil_append,
      Json.Serializable, Json.SerializableProps, and_true, true_and]
    exact ⟨by simp only [List.map_cons, List.map_nil]; decide, hm⟩

theorem serializableProps_store (store : Store) :
    Json.SerializableProps (store.map (fun kv => (kv.1, kv.2.toJSValue))) := by
  induction store with
  | nil => simp [Json.SerializableProps]
  | cons kv rest ih =>
    simp only [List.map_cons, Json.SerializableProps]
    exact ⟨conversation_serializable kv.2, ih⟩

theorem store_serializable (store : Store) (hkeys : (store.map Prod.fst).Nodup) :
    Json.Serializable store.toJSValue := by
  simp only [Store.toJSValue, Json.Serializable, List.map_map]
  refine ⟨?_, serializableProps_store store⟩
  have : (Prod.fst ∘ fun kv : JSString × Conversation => (kv.1, kv.2.toJSValue))
      = Prod.fst := by
    funext kv; rfl
  rw [this]; exact hkeys

theorem exportDocument_serializable (now : JSString) (store : Store)
    (hkeys : (store.map Prod.fst).Nodup) :
    Json.Serializable (exportDocument now store.toJSValue) := by
  simp only [exportDocument, Json.Serializable, Json.SerializableProps, and_true, true_and]
  exact ⟨by simp only [List.map_cons, List.map_nil]; decide,
    store_serializable store hkeys⟩

/-- The text exported for an empty conversations map, as `JSON.stringify(value, null, 2)`
lays it out. -/
theorem exportData_empty_text :
    exportData Json.stringify t2 (.object []) =
      ("\x7b\n  \"version\": \"1.0.0\",\n  \"exportDate\": \"2024-05-01T10:05:00.000Z\"," ++
        "\n  \"conversations\": \x7b\x7d\n\x7d").toList := by
  decide

/-- C12. Import round trip: for every persisted conversations map `store` (a map: its keys
are pairwise different), whatever the clock reads at export and whatever is persisted
when the import runs, `importData` on the text returned by `exportData` succeeds with
`count` the number of keys of `store` and leaves `store` itself persisted: the same keys,
each with an equal record.  JSON text is written by `Json.stringify` and read by
`Json.parse`. -/
theorem import_export_round_trip (store : Store) (now typeErrorMessage : JSString)
    (persisted : JSValue) (hkeys : (store.map Prod.fst).Nodup) :
    importData Json.parse typeErrorMessage
        (exportData Json.stringify now store.toJSValue) persisted
      = (store.toJSValue, .success store.length) := by
  have hdoc : exportData Json.stringify now store.toJSValue
      = Json.stringify (exportDocument now store.toJSValue) := rfl
  rw [hdoc, importData, Json.parse_stringify _ (exportDocument_serializable now store hkeys)]
  have hconv : (exportDocument now store.toJSValue).conversations
      = some (some store.toJSValue) := by
    simp only [exportDocument, JSValue.conversations]
    rfl
  simp only [hconv]
  have htruthy : store.toJSValue.truthy = true := rfl
  rw [if_pos htruthy]
  simp [Store.toJSValue, JSValue.keyCount]

/-- C12 at a concrete input: the map holding `helloSnapshot` is exported at `t2` and
imported over an empty map. -/
theorem import_export_round_trip_witness :
    (helloStore.map Prod.fst).Nodup ∧
    importData Json.parse nullTypeError
        (exportData Json.stringify t2 helloStore.toJSValue) (.object [])
      = (helloStore.toJSValue, .success helloStore.length) :=
  ⟨by decide, import_export_round_trip helloStore t2 nullTypeError (.object []) (by decide)⟩


/-! ## Merge engine: the metadata of a stored record -/

/-- C21. Metadata frame on merge: when a record `e` is stored under the id of the incoming
snapshot, `saveConversation` leaves under that id a record with the `id`, `title`,
`createdAt` and `url` of `e`, so only `messages` and `lastUpdated` can differ, and with
at least as many messages as `e`; the map written back is the same whatever the `title`,
`createdAt` and `url` of the incoming snapshot are. -/
theorem saveConversation_metadata_frame (now : JSString) (c e : Conversation)
    (store : Store) (h : store.get c.id = some e) :
    (∃ r, (saveConversation now c store).get c.id = some r ∧
      r.id = e.id ∧ r.title = e.title ∧ r.createdAt = e.createdAt ∧ r.url = e.url ∧
      e.messages.length ≤ r.messages.length) ∧
    ∀ title createdAt url : JSString,
      saveConversation now { c with title := title, createdAt := createdAt, url := url } store
        = saveConversation now c store := by
  constructor
  · unfold saveConversation
    rw [h]
    simp only
    split
    · exact ⟨_, Store.get_set_self _ _ _, rfl, rfl, rfl, rfl, by simp⟩
    · exact ⟨e, h, rfl, rfl, rfl, rfl, le_refl _⟩
  · intro title createdAt url
    unfold saveConversation
    simp only [h]

/-- C21 at a concrete input: a later snapshot with another title, creation time and URL
is saved over the stored `helloRecord`. -/
theorem saveConversation_metadata_frame_witness :
    helloStore.get renamedThanksSnapshot.id = some helloRecord ∧
    ((∃ r, (saveConversation t2 renamedThanksSnapshot helloStore).get
          renamedThanksSnapshot.id = some r ∧
        r.id = helloRecord.id ∧ r.title = helloRecord.title ∧
        r.createdAt = helloRecord.createdAt ∧ r.url = helloRecord.url ∧
        helloRecord.messages.length ≤ r.messages.length) ∧
      ∀ title createdAt url : JSString,
        saveConversation t2
            { renamedThanksSnapshot with
              title := title, createdAt := createdAt, url := url } helloStore
          = saveConversation t2 renamedThanksSnapshot helloStore) :=
  ⟨by decide,
    saveConversation_metadata_frame t2 renamedThanksSnapshot helloRecord helloStore
      (by decide)⟩

/-- The record stored by that save: the metadata of `helloRecord`, one more message. -/
theorem renamed_save_record :
    (saveConversation t2 renamedThanksSnapshot helloStore).get "abc123".toList =
      some { helloRecord with
        messages := helloRecord.messages ++ [sampleMessage "msg_2" "user" "Thanks a lot"]
        lastUpdated := some t2 } := by
  decide


/-! ## The conversation id -/

/-- Where the id pattern matches, `/c/` and a character other than a slash are ahead. -/
theorem conversationIdRegex_shape (s m : MatchState)
    (h : m ∈ Regex.run conversationIdRegex s) :
    ∃ c t, s.rest = "/c/".toList ++ c :: t ∧ c ≠ '/' := by
  unfold conversationIdRegex at h
  obtain ⟨x, hx, hm⟩ := (Regex.mem_run_seq _ _ s m).mp h
  have hrest := Regex.run_lit_rest _ s x hx
  obtain ⟨m2, hm2, _⟩ := (Regex.mem_run_group _ _ x m).mp hm
  unfold Regex.plus at hm2
  obtain ⟨y, hy, _⟩ := (Regex.mem_run_seq _ _ x m2).mp hm2
  obtain ⟨c, hc, hp⟩ := Regex.mem_run_chr _ x y hy
  refine ⟨c, y.rest, by rw [hrest, hc], ?_⟩
  simpa using hp

/-- The match of the id pattern at `/c/`, a segment, and a slash or the end. -/
theorem matchAt_conversationIdRegex (segment rest : JSString) (hne : segment ≠ [])
    (hseg : '/' ∉ segment) (hrest : ∀ c t, rest = c :: t → c = '/') (pos : Nat) :
    Regex.matchAt conversationIdRegex pos ("/c/".toList ++ (segment ++ rest))
      = some ⟨pos + 3 + segment.length, rest, [(1, segment)]⟩ := by
  unfold Regex.matchAt conversationIdRegex
  apply Regex.head_seq _ _ _ ⟨pos + 3, segment ++ rest, []⟩
  · rw [Regex.run_lit_eq]; rfl
  · rw [Regex.run_group_eq, List.head?_map,
      Regex.head_plus_greedy _ segment rest hne
        (by intro c hc; simpa using fun h : c = '/' => hseg (h ▸ hc))
        (by intro c t2 h; simpa using hrest c t2 h)]
    simp

/-- The search passes over a prefix at no position of which the pattern matches. -/
theorem Regex.search_skip (r : Regex) (s : JSString) (m : MatchState) (hs : s ≠ []) :
    ∀ (pre : JSString) (pos : Nat),
      (∀ (y z : JSString) (p : Nat), pre = y ++ z → z ≠ [] →
        Regex.matchAt r p (z ++ s) = none) →
      Regex.matchAt r (pos + pre.length) s = some m →
      ∃ k, Regex.search r pos (pre ++ s) = some (k, m) := by
  intro pre
  induction pre with
  | nil =>
    intro pos _ hm
    cases s with
    | nil => exact absurd rfl hs
    | cons c t =>
      refine ⟨0, ?_⟩
      simp only [List.nil_append, Regex.search]
      rw [show pos = pos + ([] : JSString).length from rfl, hm]
  | cons x pre ih =>
    intro pos hnone hm
    have h0 := hnone [] (x :: pre) pos rfl (by simp)
    obtain ⟨k, hk⟩ := ih (pos + 1)
      (fun y z p hyz hz => hnone (x :: y) z p (by rw [hyz]; rfl) hz)
      (by rw [← hm]; congr 1; simp only [List.length_cons]; omega)
    refine ⟨k + 1, ?_⟩
    have hstep : Regex.search r pos (x :: (pre ++ s))
        = match Regex.matchAt r pos (x :: (pre ++ s)) with
          | some m => some (0, m)
          | none => (Regex.search r (pos + 1) (pre ++ s)).map
              (fun km => (km.1 + 1, km.2)) := rfl
    rw [List.cons_append, hstep, show x :: (pre ++ s) = (x :: pre) ++ s from rfl, h0]
    simp only
    rw [hk]
    rfl

/-- The id taken from a pathname is the segment after its first `/c/`. -/
theorem getConversationId_segment (pathname segment : JSString)
    (h : IsFirstChatSegment pathname segment) (time : Nat) :
    getConversationId pathname time = segment := by
  obtain ⟨pre, rest, hpath, hne, hseg, hrest, hfirst⟩ := h
  have hnone : ∀ (y z : JSString) (p : Nat), pre = y ++ z → z ≠ [] →
      Regex.matchAt conversationIdRegex p (z ++ ("/c/".toList ++ (segment ++ rest)))
        = none := by
    intro y z p hyz hz
    cases hm : Regex.matchAt conversationIdRegex p
        (z ++ ("/c/".toList ++ (segment ++ rest))) with
    | none => rfl
    | some m =>
      exfalso
      obtain ⟨c, t, hct, hc⟩ := conversationIdRegex_shape _ m (Regex.matchAt_mem _ _ _ _ hm)
      simp only at hct
      apply hfirst
      have hpre1 : "/c/".toList ++ [c] <+: z ++ ("/c/".toList ++ (segment ++ rest)) := by
        rw [hct]
        exact ⟨t, by simp⟩
      have hpre2 : z ++ "/c/".toList <+: z ++ ("/c/".toList ++ (segment ++ rest)) :=
        ⟨segment ++ rest, by simp⟩
      have hlen : ("/c/".toList ++ [c]).length ≤ (z ++ "/c/".toList).length := by
        have : 0 < z.length := List.length_pos.mpr hz
        simp only [List.length_append, List.length_cons, List.length_nil]
        have h3 : "/c/".toList.length = 3 := by decide
        omega
      obtain ⟨u, hu⟩ := List.prefix_of_prefix_length_le hpre1 hpre2 hlen
      refine ⟨y, u, c, ?_, hc⟩
      rw [hyz, List.append_assoc, ← hu]
      simp
  have hmatch := matchAt_conversationIdRegex segment rest hne hseg hrest (0 + pre.length)
  obtain ⟨k, hk⟩ := Regex.search_skip conversationIdRegex _ _ (by simp) pre 0 hnone hmatch
  unfold getConversationId
  rw [hpath, hk]
  rfl

/-- A pathname with `/c/` followed by a character other than a slash has a first such
segment. -/
theorem exists_first_chat_segment (pathname : JSString) (h : HasChatSegment pathname) :
    ∃ segment, IsFirstChatSegment pathname segment := by
  induction pathname with
  | nil =>
    obtain ⟨pre, rest, c, hp, _⟩ := h
    have := congrArg List.length hp
    simp at this
    omega
  | cons x path ih =>
    by_cases hhere : ∃ c r, x :: path = "/c/".toList ++ c :: r ∧ c ≠ '/'
    · obtain ⟨c, r, hcr, hc⟩ := hhere
      refine ⟨(c :: r).takeWhile (fun d => d != '/'), [],
        (c :: r).dropWhile (fun d => d != '/'), ?_, ?_, ?_, ?_, ?_⟩
      · rw [List.nil_append, List.takeWhile_append_dropWhile]
        exact hcr
      · have hcb : (c != '/') = true := by simpa using hc
        rw [List.takeWhile_cons, hcb]
        simp
      · intro hmem
        have := List.mem_takeWhile_imp hmem
        simp at this
      · intro d t hd
        have hhead : (List.dropWhile (fun d => d != '/') (c :: r)).head? = some d := by
          rw [hd]; rfl
        have := List.head?_dropWhile_not (fun d => d != '/') (c :: r)
        rw [hhead] at this
        simpa using this
      · rintro ⟨pre, rest, d, hp, _⟩
        have := congrArg List.length hp
        simp at this
        have h3 : "/c/".toList.length = 3 := by decide
        omega
    · obtain ⟨pre, rest, c, hp, hc⟩ := h
      cases pre with
      | nil => exact absurd ⟨c, rest, hp, hc⟩ hhere
      | cons x2 pre2 =>
        simp only [List.cons_append, List.cons.injEq] at hp
        obtain ⟨rfl, hpath⟩ := hp
        obtain ⟨segment, pre3, rest3, hp3, hne, hseg, hrest, hfirst⟩ :=
          ih ⟨pre2, rest, c, hpath, hc⟩
        refine ⟨segment, x :: pre3, rest3, by rw [hp3]; rfl, hne, hseg, hrest, ?_⟩
        rintro ⟨pre4, rest4, d, hp4, hd⟩
        cases pre4 with
        | nil =>
          apply hhere
          refine ⟨d, rest4 ++ (segment ++ rest3), ?_, hd⟩
          rw [hp3]
          have : x :: (pre3 ++ ("/c/".toList ++ (segment ++ rest3)))
              = (x :: pre3 ++ "/c/".toList) ++ (segment ++ rest3) := by simp
          rw [this, hp4]
          simp
        | cons x4 pre5 =>
          apply hfirst
          simp only [List.cons_append, List.cons.injEq] at hp4
          exact ⟨pre5, rest4, d, hp4.2, hd⟩

/-- Where the id pattern matches nowhere the id is built from the clock. -/
theorem getConversationId_fallback (pathname : JSString) (h : ¬ HasChatSegment pathname)
    (time : Nat) :
    getConversationId pathname time = "temp_".toList ++ (Nat.repr time).toList := by
  have hnone : Regex.search conversationIdRegex 0 pathname = none := by
    apply Regex.search_eq_none conversationIdRegex pathname _ 0 pathname
      (List.suffix_refl _)
    intro pos rest hsuf
    cases hrun : Regex.run conversationIdRegex ⟨pos, rest, []⟩ with
    | nil => rfl
    | cons m l =>
      exfalso
      obtain ⟨c, t, hct, hc⟩ := conversationIdRegex_shape ⟨pos, rest, []⟩ m
        (by rw [hrun]; exact List.mem_cons_self _ _)
      obtain ⟨pre, hpre⟩ := hsuf
      exact h ⟨pre, t, c, by rw [← hpre, ← hct], hc⟩
  unfold getConversationId
  rw [hnone]

/-- C15, as stated, fails: on a pathname without a `/c/<id>` segment the id is built
from the clock, and two runs at different times return different ids. -/
theorem conversation_id_counterexample :
    getConversationId "/".toList 1714557600000 = "temp_1714557600000".toList ∧
    getConversationId "/".toList 1714557601000 = "temp_1714557601000".toList ∧
    getConversationId "/".toList 1714557600000
      ≠ getConversationId "/".toList 1714557601000 := by
  decide

/-- C15, amended. Id stability: for every pathname that has `/c/` followed by a
character other than a slash, `getConversationId` returns at every time the same id, the
path segment after the first such `/c/` (up to the next slash or the end of the
pathname); so two runs at any two times return the same id.  For any other pathname the
id is `temp_` followed by the time of the run. -/
theorem getConversationId_stable (pathname : JSString) :
    (HasChatSegment pathname →
      ∃ segment, IsFirstChatSegment pathname segment ∧
        (∀ time : Nat, getConversationId pathname time = segment) ∧
        ∀ time1 time2 : Nat,
          getConversationId pathname time1 = getConversationId pathname time2) ∧
    (¬ HasChatSegment pathname → ∀ time : Nat,
      getConversationId pathname time = "temp_".toList ++ (Nat.repr time).toList) := by
  constructor
  · intro h
    obtain ⟨segment, hseg⟩ := exists_first_chat_segment pathname h
    refine ⟨segment, hseg, getConversationId_segment pathname segment hseg, ?_⟩
    intro time1 time2
    rw [getConversationId_segment pathname segment hseg time1,
      getConversationId_segment pathname segment hseg time2]
  · exact getConversationId_fallback pathname

/-- C15 on the pathname `/c/abc123/share`: the id is `abc123` at both times. -/
theorem getConversationId_stable_witness :
    HasChatSegment "/c/abc123/share".toList ∧
    ∃ segment, IsFirstChatSegment "/c/abc123/share".toList segment ∧
      (∀ time : Nat, getConversationId "/c/abc123/share".toList time = segment) ∧
      ∀ time1 time2 : Nat, getConversationId "/c/abc123/share".toList time1
        = getConversationId "/c/abc123/share".toList time2 :=
  ⟨⟨[], "bc123/share".toList, 'a', rfl, by decide⟩,
   (getConversationId_stable "/c/abc123/share".toList).1
     ⟨[], "bc123/share".toList, 'a', rfl, by decide⟩⟩

/-- The id of the pathname `/c/abc123/share`, and of a pathname with an empty first
`/c/` segment. -/
theorem getConversationId_examples :
    getConversationId "/c/abc123/share".toList 1714557600000 = "abc123".toList ∧
    getConversationId "/c//c/xyz".toList 1714557600000 = "xyz".toList := by
  decide


/-! ## Replacing a literal -/

theorem Regex.matchAt_lit_append (l u : JSString) (pos : Nat) :
    Regex.matchAt (Regex.lit l) pos (l ++ u) = some ⟨pos + l.length, u, []⟩ := by
  unfold Regex.matchAt
  rw [Regex.run_lit_eq]
  rfl

theorem Regex.matchAt_lit_none (l rest : JSString) (pos : Nat) (h : ¬ l <+: rest) :
    Regex.matchAt (Regex.lit l) pos rest = none := by
  unfold Regex.matchAt
  rw [Regex.run_lit_eq_nil l ⟨pos, rest, []⟩ h]
  rfl

/-- Any iteration bound above the length of the input gives the result of `replaceAll`'s
own bound. -/
theorem Regex.replaceLoop_fuel_add (r : Regex) (repl : MatchState → JSString)
    (pos : Nat) (s : JSString) :
    ∀ extra : Nat, Regex.replaceLoop r repl (s.length + 1 + extra) pos s
      = Regex.replaceLoop r repl (s.length + 1) pos s := by
  intro extra
  induction extra with
  | zero => rfl
  | succ k ih =>
    rw [← ih]
    exact Regex.replaceLoop_fuel_succ r repl (s.length + 1 + k) pos s (by omega)

/-- Any iteration bound above the length of the input left gives the repetitions of the
matcher's own bound. -/
theorem Regex.starLoop_fuel_add (body : MatchState → List MatchState) (greedy : Bool)
    (s : MatchState) :
    ∀ extra : Nat, Regex.starLoop body greedy (s.rest.length + extra) s
      = Regex.starLoop body greedy s.rest.length s := by
  intro extra
  induction extra with
  | zero => rfl
  | succ k ih =>
    rw [← ih]
    exact Regex.starLoop_fuel_succ body greedy (s.rest.length + k) s (by omega)

/-- The position counter does not matter when a literal is replaced by a fixed text. -/
theorem Regex.replaceLoop_lit_pos (l t : JSString) :
    ∀ (fuel pos pos2 : Nat) (s : JSString),
      Regex.replaceLoop (Regex.lit l) (fun _ => t) fuel pos s
        = Regex.replaceLoop (Regex.lit l) (fun _ => t) fuel pos2 s := by
  intro fuel
  induction fuel with
  | zero => intro pos pos2 s; rfl
  | succ f ih =>
    intro pos pos2 s
    rw [Regex.replaceLoop_succ, Regex.replaceLoop_succ]
    by_cases hp : l <+: s
    · obtain ⟨u, rfl⟩ := hp
      rw [Regex.matchAt_lit_append, Regex.matchAt_lit_append]
      simp only
      split
      · exact congrArg _ (ih _ _ u)
      · cases hlu : l ++ u with
        | nil => rfl
        | cons c v => simp only; rw [ih (pos + 1) (pos2 + 1) v]
    · rw [Regex.matchAt_lit_none l s pos hp, Regex.matchAt_lit_none l s pos2 hp]
      cases s with
      | nil => rfl
      | cons c v => simp only; rw [ih (pos + 1) (pos2 + 1) v]

/-- The loop from any position with enough fuel is `replaceAll`. -/
theorem Regex.replaceLoop_lit_eq (l t s : JSString) (fuel pos : Nat) (h : s.length < fuel) :
    Regex.replaceLoop (Regex.lit l) (fun _ => t) fuel pos s
      = Regex.replaceAll (Regex.lit l) (fun _ => t) s := by
  obtain ⟨k, rfl⟩ : ∃ k, fuel = s.length + 1 + k := ⟨fuel - (s.length + 1), by omega⟩
  rw [Regex.replaceLoop_fuel_add, Regex.replaceLoop_lit_pos l t _ pos 0]
  rfl

theorem Regex.replaceAll_lit_nil (l t : JSString) (hl : l ≠ []) :
    Regex.replaceAll (Regex.lit l) (fun _ => t) [] = [] := by
  unfold Regex.replaceAll
  rw [Regex.replaceLoop_succ, Regex.matchAt_lit_none l [] 0 (by
    intro h; exact hl (List.prefix_nil.mp h))]

theorem Regex.replaceAll_lit_append (l t u : JSString) (hl : l ≠ []) :
    Regex.replaceAll (Regex.lit l) (fun _ => t) (l ++ u)
      = t ++ Regex.replaceAll (Regex.lit l) (fun _ => t) u := by
  have hlen : u.length < (l ++ u).length := by
    have := List.length_pos.mpr hl
    simp only [List.length_append]; omega
  unfold Regex.replaceAll
  rw [Regex.replaceLoop_succ, Regex.matchAt_lit_append]
  simp only [hlen, if_true]
  rw [Regex.replaceLoop_lit_eq l t u _ _ hlen]
  rfl

theorem Regex.replaceAll_lit_cons (l t u : JSString) (x : Char) (h : ¬ l <+: x :: u) :
    Regex.replaceAll (Regex.lit l) (fun _ => t) (x :: u)
      = x :: Regex.replaceAll (Regex.lit l) (fun _ => t) u := by
  unfold Regex.replaceAll
  rw [Regex.replaceLoop_succ, Regex.matchAt_lit_none l _ 0 h]
  simp only
  rw [Regex.replaceLoop_lit_eq l t u _ _ (by simp)]
  rfl

theorem not_prefix_cons_of_not_mem (l rest : JSString) (c : Char) (hl : l ≠ [])
    (hc : c ∉ l) : ¬ l <+: c :: rest := by
  intro hp
  cases l with
  | nil => exact hl rfl
  | cons d l2 =>
    obtain ⟨u, hu⟩ := hp
    simp only [List.cons_append, List.cons.injEq] at hu
    exact hc (hu.1 ▸ List.mem_cons_self _ _)

/-- A character that is not in the literal splits the replacement. -/
theorem Regex.replaceAll_lit_split (l t : JSString) (hl : l ≠ []) (c : Char) (hc : c ∉ l)
    (rest : JSString) :
    ∀ (n : Nat) (a : JSString), a.length ≤ n →
      Regex.replaceAll (Regex.lit l) (fun _ => t) (a ++ c :: rest)
        = Regex.replaceAll (Regex.lit l) (fun _ => t) a
          ++ c :: Regex.replaceAll (Regex.lit l) (fun _ => t) rest := by
  intro n
  induction n with
  | zero =>
    intro a ha
    have : a = [] := List.length_eq_zero.mp (by omega)
    subst this
    rw [List.nil_append, Regex.replaceAll_lit_nil l t hl, List.nil_append]
    exact Regex.replaceAll_lit_cons l t rest c (not_prefix_cons_of_not_mem l rest c hl hc)
  | succ n ih =>
    intro a ha
    by_cases hp : l <+: a ++ c :: rest
    · obtain ⟨u, rfl⟩ := prefix_of_prefix_append_cons l a rest c hc hp
      have hlen : u.length ≤ n := by
        have := List.length_pos.mpr hl
        simp only [List.length_append] at ha; omega
      rw [List.append_assoc, Regex.replaceAll_lit_append l t _ hl, ih u hlen,
        Regex.replaceAll_lit_append l t _ hl, List.append_assoc]
    · cases a with
      | nil =>
        rw [List.nil_append, Regex.replaceAll_lit_nil l t hl, List.nil_append]
        exact Regex.replaceAll_lit_cons l t rest c hp
      | cons x a2 =>
        have hp1 : ¬ l <+: x :: (a2 ++ c :: rest) := hp
        have hp2 : ¬ l <+: x :: a2 := fun h =>
          hp (h.trans (List.prefix_append _ _))
        rw [List.cons_append, Regex.replaceAll_lit_cons l t _ x hp1,
          ih a2 (by simpa using ha), Regex.replaceAll_lit_cons l t _ x hp2,
          List.cons_append]

/-- Text none of whose characters is in the literal passes through the replacement. -/
theorem Regex.replaceAll_lit_pass (l t : JSString) (hl : l ≠ []) (b : JSString) :
    ∀ m : JSString, (∀ c ∈ m, c ∉ l) →
      Regex.replaceAll (Regex.lit l) (fun _ => t) (m ++ b)
        = m ++ Regex.replaceAll (Regex.lit l) (fun _ => t) b := by
  intro m
  induction m with
  | nil => intro _; rfl
  | cons c m ih =>
    intro hm
    rw [List.cons_append, Regex.replaceAll_lit_cons l t _ c
      (not_prefix_cons_of_not_mem l _ c hl (hm c (List.mem_cons_self _ _))),
      ih (fun d hd => hm d (List.mem_cons_of_mem _ hd))]
    rfl

/-- A non-empty text none of whose characters is in the literal splits the replacement:
what is before it and what is after it are replaced apart. -/
theorem Regex.replaceAll_lit_around (l t : JSString) (hl : l ≠ []) (a m b : JSString)
    (hne : m ≠ []) (hm : ∀ c ∈ m, c ∉ l) :
    Regex.replaceAll (Regex.lit l) (fun _ => t) (a ++ m ++ b)
      = Regex.replaceAll (Regex.lit l) (fun _ => t) a ++ m
        ++ Regex.replaceAll (Regex.lit l) (fun _ => t) b := by
  cases m with
  | nil => exact absurd rfl hne
  | cons c m2 =>
    rw [List.append_assoc, List.cons_append,
      Regex.replaceAll_lit_split l t hl c (hm c (List.mem_cons_self _ _)) _ a.length a
        (le_refl _),
      Regex.replaceAll_lit_pass l t hl b m2 (fun d hd => hm d (List.mem_cons_of_mem _ hd))]
    simp

/-- Replacing a literal by a text brings in no character that is in neither the input
nor the text. -/
theorem Regex.replaceAll_lit_not_mem (l t : JSString) (hl : l ≠ []) (c : Char)
    (ht : c ∉ t) :
    ∀ (n : Nat) (s : JSString), s.length ≤ n → c ∉ s →
      c ∉ Regex.replaceAll (Regex.lit l) (fun _ => t) s := by
  intro n
  induction n with
  | zero =>
    intro s hs _
    have : s = [] := List.length_eq_zero.mp (by omega)
    subst this
    rw [Regex.replaceAll_lit_nil l t hl]
    simp
  | succ n ih =>
    intro s hs hc
    by_cases hp : l <+: s
    · obtain ⟨u, rfl⟩ := hp
      have hlen : u.length ≤ n := by
        have := List.length_pos.mpr hl
        simp only [List.length_append] at hs; omega
      rw [Regex.replaceAll_lit_append l t u hl, List.mem_append]
      rintro (h | h)
      · exact ht h
      · exact ih u hlen (fun hu => hc (List.mem_append_right _ hu)) h
    · cases s with
      | nil => rw [Regex.replaceAll_lit_nil l t hl]; simp
      | cons x u =>
        rw [Regex.replaceAll_lit_cons l t u x hp, List.mem_cons]
        rintro (h | h)
        · exact hc (h ▸ List.mem_cons_self _ _)
        · exact ih u (by simpa using hs) (fun hu => hc (List.mem_cons_of_mem _ hu)) h

/-! ## Unclosed markers -/

theorem lineBreaks_around (a m b : JSString) (hne : m ≠ []) (hm : '\n' ∉ m) :
    lineBreaks (a ++ m ++ b) = lineBreaks a ++ m ++ lineBreaks b := by
  unfold lineBreaks
  rw [Regex.replaceAll_lit_around _ _ (by decide) a m b hne (by
      intro c hc hcl
      have : c = '\n' := by simpa using hcl
      exact hm (this ▸ hc)),
    Regex.replaceAll_lit_around _ _ (by decide) _ m _ hne (by
      intro c hc hcl
      have : c = '\n' := by simpa using hcl
      exact hm (this ▸ hc))]

theorem lineBreaks_markerFree (s : JSString) (h : MarkerFree s) :
    MarkerFree (lineBreaks s) := by
  intro c hc
  unfold lineBreaks at hc
  constructor
  · rintro rfl
    exact Regex.replaceAll_lit_not_mem _ _ (by decide) '`' (by decide) _ _ (le_refl _)
      (Regex.replaceAll_lit_not_mem _ _ (by decide) '`' (by decide) _ _ (le_refl _)
        (fun hm => (h _ hm).1 rfl)) hc
  · rintro rfl
    exact Regex.replaceAll_lit_not_mem _ _ (by decide) '*' (by decide) _ _ (le_refl _)
      (Regex.replaceAll_lit_not_mem _ _ (by decide) '*' (by decide) _ _ (le_refl _)
        (fun hm => (h _ hm).2 rfl)) hc

/-- When none of the patterns before the line breaks occurs in the content, the chain of
`replace` calls only renders the line breaks. -/
theorem processReplacements_eq_lineBreaks (content : JSString)
    (hrules : ∀ r ∈ markupRules, Regex.test r content = false) :
    processReplacements content = lineBreaks content := by
  have h : ∀ r ∈ markupRules, ∀ repl, Regex.replaceAll r repl content = content :=
    fun r hr repl => Regex.replaceAll_of_test_false r repl content (hrules r hr)
  unfold processReplacements lineBreaks
  simp only
  rw [h oaiRegex (by simp [markupRules]), h rafRegex (by simp [markupRules]),
    h starburstRegex (by simp [markupRules]), h fenceRegex (by simp [markupRules]),
    h inlineCodeRegex (by simp [markupRules]), h boldRegex (by simp [markupRules]),
    h italicRegex (by simp [markupRules])]

theorem MarkerFree.count_eq_zero (s : JSString) (h : MarkerFree s) :
    s.count '`' = 0 ∧ s.count '*' = 0 :=
  ⟨List.count_eq_zero_of_not_mem (fun hm => (h _ hm).1 rfl),
   List.count_eq_zero_of_not_mem (fun hm => (h _ hm).2 rfl)⟩

/-- One unclosed marker in text without backtick and asterisk: no pattern before the
line breaks occurs. -/
theorem no_markup_rule_matches (pre post marker : JSString)
    (hmarker : marker = "```".toList ∨ marker = "`".toList ∨ marker = "*".toList)
    (hpre : MarkerFree pre) (hpost : MarkerFree post)
    (hnoise : ∀ frag ∈ strippedFragments, ¬ frag <:+: pre ++ marker ++ post) :
    ∀ r ∈ markupRules, Regex.test r (pre ++ marker ++ post) = false := by
  obtain ⟨hb1, hs1⟩ := MarkerFree.count_eq_zero pre hpre
  obtain ⟨hb2, hs2⟩ := MarkerFree.count_eq_zero post hpost
  have hoai : Regex.test oaiRegex (pre ++ marker ++ post) = false :=
    Regex.test_lit_seq_false _ _ _ (hnoise _ (by simp [strippedFragments]))
  have hraf : Regex.test rafRegex (pre ++ marker ++ post) = false :=
    Regex.test_lit_seq_false _ _ _ (hnoise _ (by simp [strippedFragments]))
  have hstar : Regex.test starburstRegex (pre ++ marker ++ post) = false :=
    Regex.test_lit_seq_false _ _ _ (hnoise _ (by simp [strippedFragments]))
  have hms : marker.count '*' ≤ 1 := by
    rcases hmarker with h | h | h <;> rw [h] <;> decide
  have hmb : marker.count '`' ≤ 3 := by
    rcases hmarker with h | h | h <;> rw [h] <;> decide
  have hbold : Regex.test boldRegex (pre ++ marker ++ post) = false := by
    apply Regex.test_lit_seq_false
    apply not_infix_of_count_lt _ _ '*'
    simp only [List.count_append, hs1, hs2]
    have : List.count '*' "**".toList = 2 := by decide
    omega
  have hitalic : Regex.test italicRegex (pre ++ marker ++ post) = false := by
    apply test_italicRegex_false
    simp only [List.count_append, hs1, hs2]
    omega
  have hfence : Regex.test fenceRegex (pre ++ marker ++ post) = false := by
    apply test_fenceRegex_false
    simp only [List.count_append, hb1, hb2]
    omega
  have hinline : Regex.test inlineCodeRegex (pre ++ marker ++ post) = false := by
    rcases hmarker with h | h | h
    · rw [h]
      exact test_inlineCodeRegex_triple pre post (fun hm => (hpre _ hm).1 rfl)
        (fun hm => (hpost _ hm).1 rfl)
    · apply test_inlineCodeRegex_false
      rw [h]
      simp only [List.count_append, hb1, hb2]
      decide
    · apply test_inlineCodeRegex_false
      rw [h]
      simp only [List.count_append, hb1, hb2]
      decide
  intro r hr
  simp only [markupRules, List.mem_cons, List.mem_singleton, List.not_mem_nil,
    or_false] at hr
  rcases hr with rfl | rfl | rfl | rfl | rfl | rfl | rfl <;> assumption

/-- An unclosed `**` does not stay: the italic pattern reads the two asterisks as an
empty span. -/
theorem unclosed_bold_rendering :
    processMessageContent "**bold".toList = "<em></em>bold".toList := by
  decide

/-- C16, as stated, fails.  A lone backtick inside an instrumentation snippet is deleted
with the snippet.  A lone `*` in the text is paired with the `*` inside a later code
span: both are replaced by emphasis tags, across the code tags. -/
theorem unclosed_marker_counterexample :
    processMessageContent "see window.__oai_log(`); now".toList = "<p>see  now</p>".toList ∧
    '`' ∉ processMessageContent "see window.__oai_log(`); now".toList ∧
    processMessageContent "2 * 3 is `2*3`".toList
      = "2 <em> 3 is <code>2</em>3</code>".toList ∧
    '*' ∉ processMessageContent "2 * 3 is `2*3`".toList := by
  decide

/-- C16, amended. Malformed delimiters: every `replace` call of the model ends within its
iteration bound, with the same result under any larger bound, so `processMessageContent`
returns a string for every content string.  When the content is one unclosed triple
backtick, one lone backtick or one lone `*` between texts without backtick and asterisk
(newlines and anything else allowed), and holds none of the stripped fragments, the
marker is in the output literally, between the two texts with their line breaks
rendered (`</p><p>` for a double newline, `<br>` for a newline); the whole is wrapped in
one paragraph when it has no `<`.  No other backtick or asterisk is in the output. -/
theorem processMessageContent_unclosed_marker (pre post marker : JSString)
    (hmarker : marker = "```".toList ∨ marker = "`".toList ∨ marker = "*".toList)
    (hpre : MarkerFree pre) (hpost : MarkerFree post)
    (hnoise : ∀ frag ∈ strippedFragments, ¬ frag <:+: pre ++ marker ++ post) :
    (processMessageContent (pre ++ marker ++ post)
        = lineBreaks pre ++ marker ++ lineBreaks post ∨
      processMessageContent (pre ++ marker ++ post)
        = "<p>".toList ++ (lineBreaks pre ++ marker ++ lineBreaks post) ++ "</p>".toList) ∧
    MarkerFree (lineBreaks pre) ∧ MarkerFree (lineBreaks post) ∧
    marker <:+: processMessageContent (pre ++ marker ++ post) ∧
    (∀ (r : Regex) (repl : MatchState → JSString) (s : JSString) (extra : Nat),
      Regex.replaceLoop r repl (s.length + 1 + extra) 0 s = Regex.replaceAll r repl s) ∧
    (∀ (body : MatchState → List MatchState) (greedy : Bool) (s : MatchState)
        (extra : Nat),
      Regex.starLoop body greedy (s.rest.length + extra) s
        = Regex.starLoop body greedy s.rest.length s) := by
  have hmne : marker ≠ [] := by
    rcases hmarker with h | h | h <;> rw [h] <;> decide
  have hmnl : '\n' ∉ marker := by
    rcases hmarker with h | h | h <;> rw [h] <;> decide
  have hp : processReplacements (pre ++ marker ++ post)
      = lineBreaks pre ++ marker ++ lineBreaks post := by
    rw [processReplacements_eq_lineBreaks _
      (no_markup_rule_matches pre post marker hmarker hpre hpost hnoise),
      lineBreaks_around pre marker post hmne hmnl]
  have hcases : processMessageContent (pre ++ marker ++ post)
        = lineBreaks pre ++ marker ++ lineBreaks post ∨
      processMessageContent (pre ++ marker ++ post)
        = "<p>".toList ++ (lineBreaks pre ++ marker ++ lineBreaks post)
          ++ "</p>".toList := by
    unfold processMessageContent
    simp only [hp]
    split
    · exact Or.inr rfl
    · exact Or.inl rfl
  refine ⟨hcases, lineBreaks_markerFree pre hpre, lineBreaks_markerFree post hpost, ?_,
    fun r repl s extra => Regex.replaceLoop_fuel_add r repl 0 s extra,
    fun body greedy s extra => Regex.starLoop_fuel_add body greedy s extra⟩
  rcases hcases with h | h
  · rw [h]
    exact ⟨lineBreaks pre, lineBreaks post, rfl⟩
  · rw [h]
    exact ⟨"<p>".toList ++ lineBreaks pre, lineBreaks post ++ "</p>".toList, by simp⟩

/-- C16 on an unclosed fence: the three backticks stay in front of the language tag. -/
theorem processMessageContent_unclosed_marker_witness :
    processMessageContent ("Run:\n".toList ++ "```".toList ++ "python\nprint(1)".toList)
      = "Run:<br>```python<br>print(1)".toList ∧
    "```".toList <:+: processMessageContent
      ("Run:\n".toList ++ "```".toList ++ "python\nprint(1)".toList) :=
  ⟨by decide,
   (processMessageContent_unclosed_marker "Run:\n".toList "python\nprint(1)".toList
      "```".toList (by decide) (by decide) (by decide) (by decide)).2.2.2.1⟩

/-! ## Positions of matches -/

theorem Regex.starLoop_pos (body : MatchState → List MatchState) (greedy : Bool)
    (hbody : ∀ x y, y ∈ body x → y.pos + y.rest.length = x.pos + x.rest.length) :
    ∀ (fuel : Nat) (s m : MatchState), m ∈ Regex.starLoop body greedy fuel s →
      m.pos + m.rest.length = s.pos + s.rest.length := by
  intro fuel
  induction fuel with
  | zero =>
    intro s m hm
    simp only [Regex.starLoop, List.mem_singleton] at hm
    subst hm
    rfl
  | succ f ih =>
    intro s m hm
    have hcases : m = s ∨ m ∈ ((body s).filter
        (fun s2 => decide (s2.rest.length < s.rest.length))).flatMap
        (Regex.starLoop body greedy f) := by
      cases greedy with
      | true =>
        simp only [Regex.starLoop, if_true, List.mem_append, List.mem_singleton] at hm
        exact hm.symm
      | false =>
        simp only [Regex.starLoop, Bool.false_eq_true, if_false, List.mem_cons] at hm
        exact hm
    rcases hcases with rfl | hmore
    · rfl
    · obtain ⟨y, hy, hmy⟩ := List.mem_flatMap.mp hmore
      rw [ih y m hmy]
      exact hbody s y (List.mem_filter.mp hy).1

/-- A match advances the position by the number of characters it consumes. -/
theorem Regex.run_pos (r : Regex) :
    ∀ (s m : MatchState), m ∈ Regex.run r s →
      m.pos + m.rest.length = s.pos + s.rest.length := by
  induction r with
  | chr p =>
    intro s m hm
    obtain ⟨pos, rest, caps⟩ := s
    cases rest with
    | nil => simp [Regex.run] at hm
    | cons c t =>
      by_cases hp : p c = true
      · simp only [Regex.run, hp, if_true, List.mem_singleton] at hm
        subst hm
        simp only [List.length_cons]
        omega
      · simp [Regex.run, hp] at hm
  | empty =>
    intro s m hm
    simp only [Regex.run, List.mem_singleton] at hm
    subst hm
    rfl
  | seq r1 r2 ih1 ih2 =>
    intro s m hm
    obtain ⟨x, hx, hmx⟩ := (Regex.mem_run_seq r1 r2 s m).mp hm
    rw [ih2 x m hmx, ih1 s x hx]
  | star r greedy ih =>
    intro s m hm
    simp only [Regex.run] at hm
    refine Regex.starLoop_pos _ greedy ?_ _ s m hm
    intro x y hy
    exact ih (Regex.resetCaps (Regex.groups r) x) y hy
  | opt r ih =>
    intro s m hm
    simp only [Regex.run, List.mem_append, List.mem_singleton] at hm
    rcases hm with hm | rfl
    · exact ih (Regex.resetCaps (Regex.groups r) s) m (List.mem_filter.mp hm).1
    · rfl
  | group i r ih =>
    intro s m hm
    simp only [Regex.run, List.mem_map] at hm
    obtain ⟨s2, hs2, rfl⟩ := hm
    exact ih s s2 hs2
  | bol =>
    intro s m hm
    by_cases hp : s.pos = 0
    · simp only [Regex.run, hp, if_true, List.mem_singleton] at hm
      subst hm
      rfl
    · simp [Regex.run, hp] at hm
  | eol =>
    intro s m hm
    by_cases hp : s.rest.isEmpty = true
    · simp only [Regex.run, hp, if_true, List.mem_singleton] at hm
      subst hm
      rfl
    · simp [Regex.run, hp] at hm

/-- What a match at a position consumes: the input is the text consumed followed by
what the match leaves, and the match ends at the position after that text. -/
theorem Regex.matchAt_split (r : Regex) (pos : Nat) (rest : JSString) (m : MatchState)
    (h : Regex.matchAt r pos rest = some m) :
    ∃ d, rest = d ++ m.rest ∧ m.pos = pos + d.length := by
  have hmem := Regex.matchAt_mem r pos rest m h
  obtain ⟨d, hd⟩ := (Regex.run_extends r _ m hmem).1
  have hpos := Regex.run_pos r _ m hmem
  simp only at hd hpos
  refine ⟨d, hd.symm, ?_⟩
  rw [← hd] at hpos
  simp only [List.length_append] at hpos
  omega

/-! ## The deletion loop, step by step -/

/-- An invariant of the scan of `s.replace(regex, '')`: `inv a e rest` relates the input
read so far, the output written so far and the input ahead.  It holds at the end when it
holds at the start, is kept when a character is copied (the pattern does not match at
it) and when a match is dropped.  The pattern is one whose matches are never empty. -/
theorem Regex.replaceAll_remove_invariant (r : Regex) (s : JSString)
    (hcons : ∀ (pos : Nat) (rest : JSString) (m : MatchState),
      Regex.matchAt r pos rest = some m → m.rest.length < rest.length)
    (inv : JSString → JSString → JSString → Prop)
    (hkeep : ∀ (a e : JSString) (c : Char) (rest : JSString), s = a ++ c :: rest →
      inv a e (c :: rest) → Regex.matchAt r a.length (c :: rest) = none →
      inv (a ++ [c]) (e ++ [c]) rest)
    (hdrop : ∀ (a e d rest : JSString) (m : MatchState), s = a ++ (d ++ rest) →
      inv a e (d ++ rest) → Regex.matchAt r a.length (d ++ rest) = some m →
      m.rest = rest → d ≠ [] → inv (a ++ d) e rest)
    (h0 : inv [] [] s) :
    inv s (Regex.replaceAll r removeMatch s) [] := by
  have key : ∀ (fuel : Nat) (a e rest : JSString), s = a ++ rest → rest.length < fuel →
      inv a e rest →
      inv s (e ++ Regex.replaceLoop r removeMatch fuel a.length rest) [] := by
    intro fuel
    induction fuel with
    | zero => intro a e rest _ h; omega
    | succ f ih =>
      intro a e rest hs hlen hinv
      rw [Regex.replaceLoop_succ]
      cases hm : Regex.matchAt r a.length rest with
      | none =>
        cases rest with
        | nil =>
          simp only [List.append_nil] at hs ⊢
          rw [hs]
          exact hinv
        | cons c t =>
          simp only
          have := ih (a ++ [c]) (e ++ [c]) t (by simp [hs]) (by simpa using hlen)
            (hkeep a e c t hs hinv hm)
          simpa using this
      | some m =>
        have hprog := hcons _ _ m hm
        obtain ⟨d, hd, hpos⟩ := Regex.matchAt_split r _ _ m hm
        simp only [hprog, if_true]
        have hdne : d ≠ [] := by
          intro hnil
          rw [hnil, List.nil_append] at hd
          rw [hd] at hprog
          omega
        have hlen2 : m.rest.length < f := by omega
        have := ih (a ++ d) e m.rest (by rw [hs, hd]; simp) hlen2
          (hdrop a e d m.rest m (by rw [hs, hd]) (by rw [← hd]; exact hinv)
            (by rw [← hd]; exact hm) rfl hdne)
        rw [List.length_append, ← hpos] at this
        simpa [removeMatch] using this
  have := key (s.length + 1) [] [] s rfl (by omega) h0
  simpa [Regex.replaceAll] using this

/-! ## Deleted fragments that join text -/

theorem mem_beginnings (w p : JSString) :
    p ∈ beginnings w ↔ p ≠ [] ∧ p <+: w ∧ p.length < w.length := by
  unfold beginnings
  simp only [List.mem_map, List.mem_range]
  constructor
  · rintro ⟨k, hk, rfl⟩
    refine ⟨?_, List.take_prefix _ _, ?_⟩
    · intro h
      have := congrArg List.length h
      simp only [List.length_take, List.length_nil] at this
      omega
    · simp only [List.length_take]
      omega
  · rintro ⟨hne, hpre, hlen⟩
    have hpos : 0 < p.length := List.length_pos.mpr hne
    refine ⟨p.length - 1, by omega, ?_⟩
    have h1 : p.length - 1 + 1 = p.length := by omega
    rw [h1]
    exact (List.prefix_iff_eq_take.mp hpre).symm

/-- What the check `joins` excludes: at a match of the pattern, a beginning of `w` that
ends right before the match cannot be continued right after it. -/
theorem joins_sound (f : Char → Char) (r : Regex) (w s : JSString)
    (h : joins f r w s = false) (a d rest : JSString) (m : MatchState) (p : JSString)
    (hs : s = a ++ (d ++ rest)) (hm : Regex.matchAt r a.length (d ++ rest) = some m)
    (hp : p ∈ beginnings w) (hpa : p <:+ a.map f) :
    continues f r w p m.pos m.rest = false := by
  unfold joins at h
  rw [List.any_eq_false] at h
  have hi := h a.length (by
    rw [List.mem_range, hs]
    simp only [List.length_append]
    omega)
  unfold joinsAt at hi
  have hdrop : s.drop a.length = d ++ rest := by rw [hs]; simp
  have htake : s.take a.length = a := by rw [hs]; simp
  rw [hdrop, hm] at hi
  simp only [htake] at hi
  have hi2 : ¬ ((beginnings w).any (fun p =>
      p.isSuffixOf (a.map f) && continues f r w p m.pos m.rest) = true) := hi
  rw [List.any_eq_true] at hi2
  by_contra hcont
  apply hi2
  refine ⟨p, hp, ?_⟩
  have hsuf : p.isSuffixOf (a.map f) = true := List.isSuffixOf_iff_suffix.mpr hpa
  have hc : continues f r w p m.pos m.rest = true := by
    cases hcv : continues f r w p m.pos m.rest with
    | true => rfl
    | false => exact absurd hcv hcont
  rw [hsuf, hc]
  rfl

theorem tracked_start (f : Char → Char) (r : Regex) (w s : JSString) :
    Tracked f r w [] [] s := by
  intro p hp hsuf
  have hne := ((mem_beginnings w p).mp hp).1
  exact absurd (List.suffix_nil.mp (by simpa using hsuf)) hne

/-- A non-empty beginning of `w` (possibly all of `w`) that ends the output right after
a character was copied is a piece of the input, copied from a position where the pattern
did not match. -/
theorem tracked_copy (f : Char → Char) (r : Regex) (w a e : JSString) (c : Char)
    (rest : JSString) (ht : Tracked f r w a e (c :: rest))
    (hnone : Regex.matchAt r a.length (c :: rest) = none)
    (q : JSString) (hne : q ≠ []) (hq : q <+: w) (hsuf : q <:+ (e ++ [c]).map f) :
    ∃ a0 z, a ++ [c] = a0 ++ z ∧ z.map f = q ∧
      Regex.matchAt r a0.length (z ++ rest) = none := by
  have hlast : ∃ p, q = p ++ [f c] ∧ p <:+ e.map f := by
    rw [List.map_append, List.map_singleton] at hsuf
    obtain ⟨u, hu⟩ := hsuf
    rcases List.eq_nil_or_concat q with h | ⟨p, x, h⟩
    · exact absurd h hne
    · rw [h, List.concat_eq_append, ← List.append_assoc] at hu
      have h2 := List.append_inj' hu rfl
      refine ⟨p, ?_, ⟨u, h2.1⟩⟩
      rw [h, List.concat_eq_append]
      simp only [List.cons.injEq, and_true] at h2
      rw [h2.2]
  obtain ⟨p, rfl, hpe⟩ := hlast
  by_cases hpnil : p = []
  · subst hpnil
    exact ⟨a, [c], rfl, rfl, hnone⟩
  · have hpb : p ∈ beginnings w := by
      rw [mem_beginnings]
      refine ⟨hpnil, (List.prefix_append p [f c]).trans hq, ?_⟩
      have := hq.length_le
      simp only [List.length_append, List.length_singleton] at this
      omega
    rcases ht p hpb hpe with ⟨a0, z, ha, hz, hn⟩ | hdead
    · refine ⟨a0, z ++ [c], by rw [ha, List.append_assoc], by simp [hz], ?_⟩
      rw [List.append_assoc]
      exact hn
    · exfalso
      unfold continues at hdead
      simp only [Bool.or_eq_false_iff] at hdead
      have hpre : (p ++ [f c]).isPrefixOf w = true := List.isPrefixOf_iff_prefix.mpr hq
      rw [hpre] at hdead
      exact absurd hdead.2 (by simp)

theorem tracked_keep (f : Char → Char) (r : Regex) (w a e : JSString) (c : Char)
    (rest : JSString) (ht : Tracked f r w a e (c :: rest))
    (hnone : Regex.matchAt r a.length (c :: rest) = none) :
    Tracked f r w (a ++ [c]) (e ++ [c]) rest := by
  intro p hp hsuf
  obtain ⟨hne, hpre, _⟩ := (mem_beginnings w p).mp hp
  exact Or.inl (tracked_copy f r w a e c rest ht hnone p hne hpre hsuf)

theorem tracked_drop (f : Char → Char) (r : Regex) (w s : JSString)
    (hj : joins f r w s = false) (a e d rest : JSString) (m : MatchState)
    (hs : s = a ++ (d ++ rest)) (ht : Tracked f r w a e (d ++ rest))
    (hm : Regex.matchAt r a.length (d ++ rest) = some m) (hrest : m.rest = rest) :
    Tracked f r w (a ++ d) e rest := by
  intro p hp hsuf
  right
  obtain ⟨d2, hd2, hpos⟩ := Regex.matchAt_split r _ _ m hm
  have hdd : d2 = d := by
    rw [hrest] at hd2
    exact (List.append_cancel_right hd2).symm
  rcases ht p hp hsuf with ⟨a0, z, ha, hz, _⟩ | hdead
  · have hpa : p <:+ a.map f := ⟨a0.map f, by rw [ha, List.map_append, hz]⟩
    have := joins_sound f r w s hj a d rest m p hs hm hp hpa
    rw [hrest, hpos, hdd, ← List.length_append] at this
    exact this
  · exfalso
    unfold continues at hdead
    simp only [Bool.or_eq_false_iff] at hdead
    rw [hm] at hdead
    simp at hdead

theorem infix_concat (w l : JSString) (x : Char) (h : w <:+: l ++ [x]) :
    w <:+: l ∨ w <:+ l ++ [x] := by
  obtain ⟨u, v, huv⟩ := h
  rcases List.eq_nil_or_concat v with hv | ⟨v2, y, hv⟩
  · right
    exact ⟨u, by rw [← huv, hv, List.append_nil]⟩
  · left
    rw [hv, List.concat_eq_append, ← List.append_assoc] at huv
    have := (List.append_inj' huv rfl).1
    exact ⟨u, v2, this⟩

/-- One deletion pass cannot create the word `w` when no match can join text into it. -/
theorem Regex.replaceAll_remove_avoids (f : Char → Char) (r : Regex) (w s : JSString)
    (hcons : ∀ (pos : Nat) (rest : JSString) (m : MatchState),
      Regex.matchAt r pos rest = some m → m.rest.length < rest.length)
    (hw : w ≠ []) (hj : joins f r w s = false) (hs : ¬ w <:+: s.map f) :
    ¬ w <:+: (Regex.replaceAll r removeMatch s).map f := by
  have := Regex.replaceAll_remove_invariant r s hcons
    (fun a e rest => Tracked f r w a e rest ∧ ¬ w <:+: e.map f)
    (by
      intro a e c rest hsa hinv hnone
      refine ⟨tracked_keep f r w a e c rest hinv.1 hnone, ?_⟩
      intro hin
      rw [List.map_append, List.map_singleton] at hin
      rcases infix_concat w _ _ hin with h | h
      · exact hinv.2 h
      · obtain ⟨a0, z, ha, hz, _⟩ := tracked_copy f r w a e c rest hinv.1 hnone w hw
          (List.prefix_refl w) (by rw [List.map_append, List.map_singleton]; exact h)
        apply hs
        rw [hsa, show a ++ c :: rest = (a ++ [c]) ++ rest by simp, ha]
        exact ⟨a0.map f, rest.map f, by simp [hz]⟩)
    (by
      intro a e d rest m hsa hinv hm hrest _
      exact ⟨tracked_drop f r w s hj a e d rest m hsa hinv.1 hm hrest, hinv.2⟩)
    ⟨tracked_start f r w s, by simpa using hw⟩
  exact this.2

/-! ## The cleaning patterns never match the empty string -/

theorem Regex.matchAt_lit_seq_consumes (l : JSString) (r : Regex) (hl : l ≠ [])
    (pos : Nat) (rest : JSString) (m : MatchState)
    (h : Regex.matchAt (.seq (Regex.lit l) r) pos rest = some m) :
    m.rest.length < rest.length := by
  obtain ⟨x, hx, hmx⟩ := (Regex.mem_run_seq _ _ _ m).mp (Regex.matchAt_mem _ _ _ _ h)
  have h1 := Regex.run_lit_rest l _ x hx
  have h2 := (Regex.run_extends r x m hmx).1.length_le
  simp only at h1
  rw [h1, List.length_append]
  have := List.length_pos.mpr hl
  omega

theorem Regex.matchAt_litCI_seq_consumes (l : JSString) (r : Regex) (hl : l ≠ [])
    (pos : Nat) (rest : JSString) (m : MatchState)
    (h : Regex.matchAt (.seq (Regex.litCI l) r) pos rest = some m) :
    m.rest.length < rest.length := by
  obtain ⟨x, hx, hmx⟩ := (Regex.mem_run_seq _ _ _ m).mp (Regex.matchAt_mem _ _ _ _ h)
  obtain ⟨o, h1, ho⟩ := Regex.run_litCI_rest l _ x hx
  have h2 := (Regex.run_extends r x m hmx).1.length_le
  simp only at h1
  have holen : o.length = l.length := by
    have := congrArg List.length ho
    simpa using this
  rw [h1, List.length_append, holen]
  have := List.length_pos.mpr hl
  omega

/-! ## Render safety -/

theorem createMessageElement_text_branch (message : Message)
    (h : message.html = [] ∨ "window.__oai".toList <:+: message.html) :
    createMessageElement message = processMessageContent message.content := by
  have hcond : (!message.html.isEmpty && decide (JSString.length16 message.html > 0) &&
      !JSString.includes message.html "window.__oai".toList) = false := by
    rcases h with h | h
    · rw [h]
      rfl
    · have hinc : JSString.includes message.html "window.__oai".toList = true :=
        (JSString.includes_iff _ _).mpr h
      rw [hinc]
      simp only [Bool.not_true, Bool.and_false]
  unfold createMessageElement
  rw [if_neg (by rw [hcond]; simp)]

theorem createMessageElement_html_branch (message : Message)
    (hne : message.html ≠ []) (hoai : ¬ "window.__oai".toList <:+: message.html) :
    createMessageElement message
      = Regex.replaceAll styleRegex removeMatch (cleanAfterScript message.html) := by
  have hcond : (!message.html.isEmpty && decide (JSString.length16 message.html > 0) &&
      !JSString.includes message.html "window.__oai".toList) = true := by
    have h1 : message.html.isEmpty = false := by
      cases hm : message.html with
      | nil => exact absurd hm hne
      | cons d t => rfl
    have h2 : JSString.length16 message.html > 0 :=
      (JSString.length16_pos_iff _).mpr hne
    have h3 : JSString.includes message.html "window.__oai".toList = false :=
      (JSString.includes_eq_false_iff _ _).mpr hoai
    rw [h1, h3, decide_eq_true h2]
    rfl
  unfold createMessageElement
  rw [if_pos hcond]
  rfl

/-- The first cleaning step deletes nothing from an html without `window.__oai`. -/
theorem cleanAfterRaf_eq (html : JSString) (hoai : ¬ "window.__oai".toList <:+: html) :
    cleanAfterRaf html = Regex.replaceAll rafRegex removeMatch html := by
  unfold cleanAfterRaf oaiRegex
  rw [Regex.replaceAll_lit_seq_of_not_infix _ _ _ _ hoai]

/-- The html of the counterexample is of the excluded kind: its style block sits between
a beginning of `window.__oai` and the continuation. -/
theorem split_message_joins :
    joins id styleRegex "window.__oai".toList (cleanAfterScript splitMessage.html)
      = true := by
  decide

/-- C9, amended. Render safety, branch by branch.  A message whose html is empty or
contains `window.__oai` is rendered from its content, and the markup does not contain
`window.__oai` when the content contains none of `window.__oai`,
`requestAnimationFrame` and `.starburst`.  A message with any other html is rendered
from the html with the `requestAnimationFrame` fragments, the script blocks and the
style blocks deleted, and the markup does not contain `window.__oai` unless a deleted
fragment joins it: in the text one of these three deletion passes works on, a fragment
the pattern matches sits right after a beginning of `window.__oai` and right before a
character that continues it or before a further fragment. -/
theorem render_avoids_fingerprint (message : Message) :
    ((message.html = [] ∨ "window.__oai".toList <:+: message.html) →
      createMessageElement message = processMessageContent message.content ∧
      (¬ "window.__oai".toList <:+: message.content →
        ¬ "requestAnimationFrame".toList <:+: message.content →
        ¬ ".starburst".toList <:+: message.content →
        ¬ "window.__oai".toList <:+: createMessageElement message)) ∧
    (message.html ≠ [] → ¬ "window.__oai".toList <:+: message.html →
      createMessageElement message
        = Regex.replaceAll styleRegex removeMatch (cleanAfterScript message.html) ∧
      (joins id rafRegex "window.__oai".toList message.html = false →
        joins id scriptRegex "window.__oai".toList (cleanAfterRaf message.html) = false →
        joins id styleRegex "window.__oai".toList (cleanAfterScript message.html) = false →
        ¬ "window.__oai".toList <:+: createMessageElement message)) := by
  constructor
  · intro h
    have hb := createMessageElement_text_branch message h
    refine ⟨hb, ?_⟩
    intro h1 h2 h3
    rw [hb]
    exact processMessageContent_avoids_oai message.content h1 h2 h3
  · intro hne hoai
    have hb := createMessageElement_html_branch message hne hoai
    refine ⟨hb, ?_⟩
    intro j1 j2 j3
    have hw : "window.__oai".toList ≠ [] := by decide
    have s2 : ¬ "window.__oai".toList <:+: (cleanAfterRaf message.html).map id := by
      rw [cleanAfterRaf_eq _ hoai]
      exact Regex.replaceAll_remove_avoids id rafRegex _ _
        (Regex.matchAt_lit_seq_consumes _ _ (by decide)) hw j1 (by simpa using hoai)
    have s3 : ¬ "window.__oai".toList <:+: (cleanAfterScript message.html).map id :=
      Regex.replaceAll_remove_avoids id scriptRegex _ _
        (Regex.matchAt_litCI_seq_consumes _ _ (by decide)) hw j2 s2
    have s4 := Regex.replaceAll_remove_avoids id styleRegex _ _
        (Regex.matchAt_litCI_seq_consumes _ _ (by decide)) hw j3 s3
    rw [hb]
    simpa using s4

/-- C9 on two messages.  The html of `scriptedMessage` contains `window.__oai`: the
markup is made from the content.  The html of `trackedMessage` has a script block right
after the letter `w`, but what follows the block does not continue `window.__oai`: the
block is deleted and the markup is free of the fingerprint. -/
theorem render_avoids_fingerprint_witness :
    createMessageElement scriptedMessage = "<p>General Kenobi</p>".toList ∧
    ¬ "window.__oai".toList <:+: createMessageElement scriptedMessage ∧
    createMessageElement trackedMessage = "<p>Not now then</p>".toList ∧
    ¬ "window.__oai".toList <:+: createMessageElement trackedMessage :=
  ⟨((render_avoids_fingerprint scriptedMessage).1 (Or.inr (by decide))).1.trans
      (by decide),
   ((render_avoids_fingerprint scriptedMessage).1 (Or.inr (by decide))).2
      (by decide) (by decide) (by decide),
   ((render_avoids_fingerprint trackedMessage).2 (by decide) (by decide)).1.trans
      (by decide),
   ((render_avoids_fingerprint trackedMessage).2 (by decide) (by decide)).2
      (by decide) (by decide) (by decide)⟩

/-! ## Blocks -/

theorem lowBlock_of_hasBlock (o c s : JSString) (h : HasBlock o c s) :
    LowBlock o c (s.map Char.toLower) := by
  obtain ⟨a, x, mid, y, b, hs, hx, hy⟩ := h
  refine ⟨a.map Char.toLower, mid.map Char.toLower ++ (c ++ b.map Char.toLower), ?_,
    ⟨mid.map Char.toLower, b.map Char.toLower, by simp⟩⟩
  rw [hs]
  simp [hx, hy]

/-- A match of a block pattern starts with a spelling of the opening tag and ends with a
spelling of the closing tag. -/
theorem Regex.run_block_shape (o c : JSString) (s m : MatchState)
    (h : m ∈ Regex.run (.seq (Regex.litCI o)
      (.seq (.star Regex.anyChar false) (Regex.litCI c))) s) :
    ∃ x mid y, s.rest = x ++ (mid ++ (y ++ m.rest)) ∧
      x.map Char.toLower = o.map Char.toLower ∧
      y.map Char.toLower = c.map Char.toLower := by
  obtain ⟨x1, hx1, hm1⟩ := (Regex.mem_run_seq _ _ s m).mp h
  obtain ⟨x, hx, hxo⟩ := Regex.run_litCI_rest o s x1 hx1
  obtain ⟨x2, hx2, hm2⟩ := (Regex.mem_run_seq _ _ x1 m).mp hm1
  obtain ⟨y, hy, hyc⟩ := Regex.run_litCI_rest c x2 m hm2
  obtain ⟨mid, hmid⟩ := (Regex.run_extends _ x1 x2 hx2).1
  exact ⟨x, mid, y, by rw [hx, ← hmid, hy], hxo, hyc⟩

/-- A block pattern matches at a spelling of the opening tag that has a spelling of the
closing tag somewhere after it. -/
theorem Regex.matchAt_block_some (o c x mid y t : JSString) (pos : Nat)
    (hx : x.map Char.toLower = o.map Char.toLower)
    (hy : y.map Char.toLower = c.map Char.toLower) :
    Regex.matchAt (.seq (Regex.litCI o)
      (.seq (.star Regex.anyChar false) (Regex.litCI c))) pos (x ++ (mid ++ (y ++ t)))
      ≠ none := by
  have hmem : (⟨pos + x.length + mid.length + y.length, t, []⟩ : MatchState) ∈
      Regex.run (.seq (Regex.litCI o)
        (.seq (.star Regex.anyChar false) (Regex.litCI c)))
        ⟨pos, x ++ (mid ++ (y ++ t)), []⟩ := by
    rw [Regex.mem_run_seq]
    refine ⟨⟨pos + x.length, mid ++ (y ++ t), []⟩, ?_, ?_⟩
    · rw [Regex.run_litCI_eq o x pos _ [] hx]
      exact List.mem_singleton.mpr rfl
    · rw [Regex.mem_run_seq]
      refine ⟨⟨pos + x.length + mid.length, y ++ t, []⟩, ?_, ?_⟩
      · exact Regex.mem_run_star_chr _ false mid (y ++ t) (by intro d _; simp)
          (pos + x.length) []
      · rw [Regex.run_litCI_eq c y _ _ [] hy]
        exact List.mem_singleton.mpr rfl
  unfold Regex.matchAt
  intro hnone
  rw [List.head?_eq_none_iff] at hnone
  rw [hnone] at hmem
  simp at hmem

/-- A lower-case word inside the lower-case form of a string is the lower-case form of a
piece of the string. -/
theorem infix_map_split (f : Char → Char) (w t : JSString) (h : w <:+: t.map f) :
    ∃ a y b, t = a ++ (y ++ b) ∧ y.map f = w := by
  obtain ⟨u, v, huv⟩ := h
  rw [List.append_assoc] at huv
  obtain ⟨a, yb, rfl, _, hyb⟩ := List.map_eq_append_iff.mp huv.symm
  obtain ⟨y, b, rfl, hy, _⟩ := List.map_eq_append_iff.mp hyb
  exact ⟨a, y, b, rfl, hy⟩

/-- Where a block pattern does not match at a spelling of the opening tag, no spelling of
the closing tag follows. -/
theorem no_closing_of_matchAt_none (o c z t : JSString) (pos : Nat)
    (hz : z.map Char.toLower = o.map Char.toLower)
    (hnone : Regex.matchAt (.seq (Regex.litCI o)
      (.seq (.star Regex.anyChar false) (Regex.litCI c))) pos (z ++ t) = none) :
    ¬ c.map Char.toLower <:+: t.map Char.toLower := by
  intro hin
  obtain ⟨mid, y, b, rfl, hy⟩ := infix_map_split Char.toLower _ t hin
  exact Regex.matchAt_block_some o c z mid y b pos hz hy hnone

/-- Where a block pattern matches, a spelling of the closing tag is ahead. -/
theorem closing_of_matchAt_some (o c rest : JSString) (pos : Nat) (m : MatchState)
    (hm : Regex.matchAt (.seq (Regex.litCI o)
      (.seq (.star Regex.anyChar false) (Regex.litCI c))) pos rest = some m) :
    c.map Char.toLower <:+: rest.map Char.toLower := by
  obtain ⟨x, mid, y, hrest, _, hy⟩ :=
    Regex.run_block_shape o c _ m (Regex.matchAt_mem _ _ _ _ hm)
  simp only at hrest
  rw [hrest]
  refine ⟨(x ++ mid).map Char.toLower, m.rest.map Char.toLower, ?_⟩
  simp [hy]

/-- A word that ends `l ++ [x]`: splitting off what follows an occurrence. -/
theorem append_concat_cases (l e1 w e2 : JSString) (x : Char)
    (h : l ++ [x] = e1 ++ w ++ e2) :
    (e2 = [] ∧ w <:+ l ++ [x]) ∨ ∃ e3, e2 = e3 ++ [x] ∧ l = e1 ++ w ++ e3 := by
  rcases List.eq_nil_or_concat e2 with h2 | ⟨e3, y, h2⟩
  · left
    refine ⟨h2, e1, ?_⟩
    rw [h, h2, List.append_nil]
  · right
    rw [h2, List.concat_eq_append, ← List.append_assoc] at h
    have h3 := List.append_inj' h rfl
    refine ⟨e3, ?_, h3.1⟩
    rw [h2, List.concat_eq_append]
    simp only [List.cons.injEq, and_true] at h3
    rw [h3.2]

/-- A word that ends a string and is no longer than a later part of it ends that
part. -/
theorem suffix_of_suffix_append (w a1 a2 : JSString) (h : w <:+ a1 ++ a2)
    (hlen : w.length ≤ a2.length) : w <:+ a2 :=
  List.suffix_of_suffix_length_le h (List.suffix_append a1 a2) hlen

/-- One pass of a block pattern leaves no block of its own tags, unless a deleted block
joins text into one of the two tags. -/
theorem block_pass_kills (o c s : JSString) (ho : o ≠ []) (hc : c ≠ [])
    (hjo : joins Char.toLower (.seq (Regex.litCI o)
      (.seq (.star Regex.anyChar false) (Regex.litCI c))) (o.map Char.toLower) s = false)
    (hjc : joins Char.toLower (.seq (Regex.litCI o)
      (.seq (.star Regex.anyChar false) (Regex.litCI c))) (c.map Char.toLower) s = false) :
    ¬ LowBlock (o.map Char.toLower) (c.map Char.toLower)
      ((Regex.replaceAll (.seq (Regex.litCI o)
        (.seq (.star Regex.anyChar false) (Regex.litCI c))) removeMatch s).map
          Char.toLower) := by
  have hO : o.map Char.toLower ≠ [] := by simpa using ho
  have hC : c.map Char.toLower ≠ [] := by simpa using hc
  have := Regex.replaceAll_remove_invariant
    (.seq (Regex.litCI o) (.seq (.star Regex.anyChar false) (Regex.litCI c))) s
    (Regex.matchAt_litCI_seq_consumes o _ ho)
    (fun a e rest =>
      Tracked Char.toLower (.seq (Regex.litCI o)
        (.seq (.star Regex.anyChar false) (Regex.litCI c))) (o.map Char.toLower) a e rest ∧
      Tracked Char.toLower (.seq (Regex.litCI o)
        (.seq (.star Regex.anyChar false) (Regex.litCI c))) (c.map Char.toLower) a e rest ∧
      (∀ e1 e2, e.map Char.toLower = e1 ++ o.map Char.toLower ++ e2 →
        ∃ a1 a2, a = a1 ++ a2 ∧ e2.length ≤ a2.length ∧
          ¬ c.map Char.toLower <:+: (a2 ++ rest).map Char.toLower) ∧
      ¬ LowBlock (o.map Char.toLower) (c.map Char.toLower) (e.map Char.toLower))
    (by
      intro a e c0 rest hsa ⟨hto, htc, hL, hnb⟩ hnone
      refine ⟨tracked_keep _ _ _ a e c0 rest hto hnone,
        tracked_keep _ _ _ a e c0 rest htc hnone, ?_, ?_⟩
      · intro e1 e2 he
        rw [List.map_append, List.map_singleton] at he
        rcases append_concat_cases _ e1 _ e2 _ he with ⟨h2, hsuf⟩ | ⟨e3, h2, h3⟩
        · obtain ⟨a0, z, ha, hz, hn⟩ := tracked_copy _ _ _ a e c0 rest hto hnone
            (o.map Char.toLower) hO (List.prefix_refl _)
            (by rw [List.map_append, List.map_singleton]; exact hsuf)
          refine ⟨a ++ [c0], [], by simp, by simp [h2], ?_⟩
          rw [List.nil_append]
          exact no_closing_of_matchAt_none o c z rest a0.length hz hn
        · obtain ⟨a1, a2, ha, hlen, hno⟩ := hL e1 e3 h3
          refine ⟨a1, a2 ++ [c0], by rw [ha, List.append_assoc], ?_, ?_⟩
          · rw [h2]; simp only [List.length_append, List.length_singleton]; omega
          · rw [List.append_assoc]; exact hno
      · rintro ⟨u, v, huv, hcv⟩
        rw [List.map_append, List.map_singleton] at huv
        rcases append_concat_cases _ u _ v _ huv with ⟨h2, _⟩ | ⟨v0, h2, h3⟩
        · rw [h2] at hcv
          exact hC (List.infix_nil.mp hcv)
        · rw [h2] at hcv
          rcases infix_concat _ _ _ hcv with hin | hsuf
          · exact hnb ⟨u, v0, h3, hin⟩
          · obtain ⟨a1, a2, ha, hlen, hno⟩ := hL u v0 h3
            have hsuf2 : c.map Char.toLower <:+ (e ++ [c0]).map Char.toLower := by
              rw [List.map_append, List.map_singleton, h3]
              exact hsuf.trans (by
                rw [List.append_assoc]
                exact List.suffix_append _ _)
            obtain ⟨b0, z, hb, hz, _⟩ := tracked_copy _ _ _ a e c0 rest htc hnone
              (c.map Char.toLower) hC (List.prefix_refl _) hsuf2
            have hza : c.map Char.toLower <:+ (a1 ++ (a2 ++ [c0])).map Char.toLower := by
              rw [← List.append_assoc, ← ha, hb]
              exact ⟨b0.map Char.toLower, by rw [List.map_append, hz]⟩
            have hlen2 : (c.map Char.toLower).length
                ≤ ((a2 ++ [c0]).map Char.toLower).length := by
              have := hsuf.length_le
              simp only [List.length_append, List.length_singleton, List.length_map]
                at this ⊢
              omega
            rw [List.map_append] at hza
            have hfin := suffix_of_suffix_append _ _ _ hza hlen2
            apply hno
            have : a2 ++ c0 :: rest = (a2 ++ [c0]) ++ rest := by simp
            rw [this, List.map_append]
            exact hfin.isInfix.trans (List.prefix_append _ _).isInfix)
    (by
      intro a e d rest m hsa ⟨hto, htc, hL, hnb⟩ hm hrest _
      refine ⟨tracked_drop _ _ _ s hjo a e d rest m hsa hto hm hrest,
        tracked_drop _ _ _ s hjc a e d rest m hsa htc hm hrest, ?_, hnb⟩
      intro e1 e2 he
      exfalso
      obtain ⟨a1, a2, _, _, hno⟩ := hL e1 e2 he
      apply hno
      rw [List.map_append]
      exact (closing_of_matchAt_some o c _ _ m hm).trans (List.suffix_append _ _).isInfix)
    ⟨tracked_start _ _ _ s, tracked_start _ _ _ s,
      by
        intro e1 e2 he
        exfalso
        have := congrArg List.length he
        simp only [List.map_nil, List.length_nil, List.length_append] at this
        have := List.length_pos.mpr hO
        omega,
      by
        rintro ⟨u, v, huv, _⟩
        have := congrArg List.length huv
        simp only [List.map_nil, List.length_nil, List.length_append] at this
        have := List.length_pos.mpr hO
        omega⟩
  exact this.2.2.2

/-- A deletion pass keeps a string free of blocks of the given tags, unless a deleted
fragment joins text into one of the two tags. -/
theorem pass_keeps_block_free (r : Regex) (o c s : JSString)
    (hcons : ∀ (pos : Nat) (rest : JSString) (m : MatchState),
      Regex.matchAt r pos rest = some m → m.rest.length < rest.length)
    (ho : o ≠ []) (hc : c ≠ [])
    (hjo : joins Char.toLower r o s = false) (hjc : joins Char.toLower r c s = false)
    (hs : ¬ LowBlock o c (s.map Char.toLower)) :
    ¬ LowBlock o c ((Regex.replaceAll r removeMatch s).map Char.toLower) := by
  have := Regex.replaceAll_remove_invariant r s hcons
    (fun a e rest =>
      Tracked Char.toLower r o a e rest ∧ Tracked Char.toLower r c a e rest ∧
      (∀ e1 e2, e.map Char.toLower = e1 ++ o ++ e2 →
        ∃ a1 a2, a.map Char.toLower = a1 ++ o ++ a2 ∧ e2.length ≤ a2.length) ∧
      ¬ LowBlock o c (e.map Char.toLower))
    (by
      intro a e c0 rest hsa ⟨hto, htc, hM, hnb⟩ hnone
      refine ⟨tracked_keep _ _ _ a e c0 rest hto hnone,
        tracked_keep _ _ _ a e c0 rest htc hnone, ?_, ?_⟩
      · intro e1 e2 he
        rw [List.map_append, List.map_singleton] at he
        rcases append_concat_cases _ e1 _ e2 _ he with ⟨h2, hsuf⟩ | ⟨e3, h2, h3⟩
        · obtain ⟨a0, z, ha, hz, _⟩ := tracked_copy _ _ _ a e c0 rest hto hnone
            o ho (List.prefix_refl _)
            (by rw [List.map_append, List.map_singleton]; exact hsuf)
          refine ⟨a0.map Char.toLower, [], ?_, by simp [h2]⟩
          rw [ha, List.map_append, hz, List.append_nil]
        · obtain ⟨a1, a2, ha, hlen⟩ := hM e1 e3 h3
          refine ⟨a1, a2 ++ [c0.toLower], ?_, ?_⟩
          · rw [List.map_append, ha, List.map_singleton, List.append_assoc]
          · rw [h2]; simp only [List.length_append, List.length_singleton]; omega
      · rintro ⟨u, v, huv, hcv⟩
        rw [List.map_append, List.map_singleton] at huv
        rcases append_concat_cases _ u _ v _ huv with ⟨h2, _⟩ | ⟨v0, h2, h3⟩
        · rw [h2] at hcv
          exact hc (List.infix_nil.mp hcv)
        · rw [h2] at hcv
          rcases infix_concat _ _ _ hcv with hin | hsuf
          · exact hnb ⟨u, v0, h3, hin⟩
          · obtain ⟨a1, a2, ha, hlen⟩ := hM u v0 h3
            have hsuf2 : c <:+ (e ++ [c0]).map Char.toLower := by
              rw [List.map_append, List.map_singleton, h3]
              exact hsuf.trans (by
                rw [List.append_assoc]
                exact List.suffix_append _ _)
            obtain ⟨b0, z, hb, hz, _⟩ := tracked_copy _ _ _ a e c0 rest htc hnone
              c hc (List.prefix_refl _) hsuf2
            have hza : c <:+ (a1 ++ o) ++ (a2 ++ [c0.toLower]) := by
              have h4 : (a ++ [c0]).map Char.toLower
                  = (a1 ++ o) ++ (a2 ++ [c0.toLower]) := by
                rw [List.map_append, ha, List.map_singleton]
                simp
              rw [← h4, hb]
              exact ⟨b0.map Char.toLower, by rw [List.map_append, hz]⟩
            have hlen2 : c.length ≤ (a2 ++ [c0.toLower]).length := by
              have := hsuf.length_le
              simp only [List.length_append, List.length_singleton] at this ⊢
              omega
            have hfin := suffix_of_suffix_append _ _ _ hza hlen2
            apply hs
            refine ⟨a1, (a2 ++ [c0.toLower]) ++ rest.map Char.toLower, ?_,
              hfin.isInfix.trans (List.prefix_append _ _).isInfix⟩
            rw [hsa, show a ++ c0 :: rest = (a ++ [c0]) ++ rest by simp, List.map_append,
              List.map_append, ha, List.map_singleton]
            simp)
    (by
      intro a e d rest m hsa ⟨hto, htc, hM, hnb⟩ hm hrest _
      refine ⟨tracked_drop _ _ _ s hjo a e d rest m hsa hto hm hrest,
        tracked_drop _ _ _ s hjc a e d rest m hsa htc hm hrest, ?_, hnb⟩
      intro e1 e2 he
      obtain ⟨a1, a2, ha, hlen⟩ := hM e1 e2 he
      refine ⟨a1, a2 ++ d.map Char.toLower, ?_, ?_⟩
      · rw [List.map_append, ha, List.append_assoc]
      · simp only [List.length_append]; omega)
    ⟨tracked_start _ _ _ s, tracked_start _ _ _ s,
      by
        intro e1 e2 he
        exfalso
        have := congrArg List.length he
        simp only [List.map_nil, List.length_nil, List.length_append] at this
        have := List.length_pos.mpr ho
        omega,
      by
        rintro ⟨u, v, huv, _⟩
        have := congrArg List.length huv
        simp only [List.map_nil, List.length_nil, List.length_append] at this
        have := List.length_pos.mpr ho
        omega⟩
  exact this.2.2.2

theorem not_hasBlock_of_lowBlock (o c s : JSString)
    (h : ¬ LowBlock o c (s.map Char.toLower)) : ¬ HasBlock o c s :=
  fun hb => h (lowBlock_of_hasBlock o c s hb)

/-- A string without a block of the tags of a block pattern has no match of the
pattern. -/
theorem test_block_false (o c s : JSString)
    (h : ¬ HasBlock (o.map Char.toLower) (c.map Char.toLower) s) :
    Regex.test (.seq (Regex.litCI o)
      (.seq (.star Regex.anyChar false) (Regex.litCI c))) s = false := by
  apply Regex.test_eq_false
  intro pos rest hsuf
  rw [List.eq_nil_iff_forall_not_mem]
  intro m hm
  obtain ⟨x, mid, y, hrest, hx, hy⟩ := Regex.run_block_shape o c _ m hm
  obtain ⟨pre, hpre⟩ := hsuf
  simp only at hrest
  exact h ⟨pre, x, mid, y, m.rest, by rw [← hpre, hrest], hx, hy⟩

/-- The html of the counterexample is of the excluded kind: its inner script block sits
between a beginning of `<script` and the continuation. -/
theorem nested_script_joins :
    joins Char.toLower scriptRegex "<script".toList (cleanAfterRaf nestedScriptMessage.html)
      = true := by
  decide

/-- C19, amended. Script stripping in the raw-markup branch: for every message whose html
is non-empty and does not contain `window.__oai`, the markup `createMessageElement` uses
is the html after the four deletion passes, and it contains no script block and no style
block (no piece spelled `<script`, in any letter case, with a piece spelled `</script>`
after it, and the same for `<style` and `</style>`; the two patterns match nowhere in
it), unless a deleted block joins text into a tag: in the text the script pass works on,
a script block sits right after an unfinished beginning of `<script` or `</script>` and
right before a character that continues it or before a further script block; or in the
text the style pass works on, a style block sits so after an unfinished beginning of one
of the four tags. -/
theorem createMessageElement_strips_blocks (message : Message)
    (hne : message.html ≠ []) (hoai : ¬ "window.__oai".toList <:+: message.html)
    (hscript : ∀ tag ∈ ["<script".toList, "</script>".toList],
      joins Char.toLower scriptRegex tag (cleanAfterRaf message.html) = false)
    (hstyle : ∀ tag ∈ blockTags,
      joins Char.toLower styleRegex tag (cleanAfterScript message.html) = false) :
    createMessageElement message
      = Regex.replaceAll styleRegex removeMatch (cleanAfterScript message.html) ∧
    ¬ HasBlock "<script".toList "</script>".toList (createMessageElement message) ∧
    ¬ HasBlock "<style".toList "</style>".toList (createMessageElement message) ∧
    Regex.test scriptRegex (createMessageElement message) = false ∧
    Regex.test styleRegex (createMessageElement message) = false := by
  have hb := createMessageElement_html_branch message hne hoai
  have e1 : "<script".toList.map Char.toLower = "<script".toList := by decide
  have e2 : "</script>".toList.map Char.toLower = "</script>".toList := by decide
  have e3 : "<style".toList.map Char.toLower = "<style".toList := by decide
  have e4 : "</style>".toList.map Char.toLower = "</style>".toList := by decide
  have k1 := block_pass_kills "<script".toList "</script>".toList
    (cleanAfterRaf message.html) (by decide) (by decide)
    (by rw [e1]; exact hscript _ (by simp))
    (by rw [e2]; exact hscript _ (by simp))
  rw [e1, e2] at k1
  have k2 := pass_keeps_block_free styleRegex "<script".toList "</script>".toList
    (cleanAfterScript message.html)
    (Regex.matchAt_litCI_seq_consumes _ _ (by decide)) (by decide) (by decide)
    (hstyle _ (by simp [blockTags])) (hstyle _ (by simp [blockTags])) k1
  have k3 := block_pass_kills "<style".toList "</style>".toList
    (cleanAfterScript message.html) (by decide) (by decide)
    (by rw [e3]; exact hstyle _ (by simp [blockTags]))
    (by rw [e4]; exact hstyle _ (by simp [blockTags]))
  rw [e3, e4] at k3
  have n1 : ¬ HasBlock "<script".toList "</script>".toList (createMessageElement message) := by
    rw [hb]
    exact not_hasBlock_of_lowBlock _ _ _ k2
  have n2 : ¬ HasBlock "<style".toList "</style>".toList (createMessageElement message) := by
    rw [hb]
    exact not_hasBlock_of_lowBlock _ _ _ k3
  refine ⟨hb, n1, n2, ?_, ?_⟩
  · exact test_block_false "<script".toList "</script>".toList _ (by rw [e1, e2]; exact n1)
  · exact test_block_false "<style".toList "</style>".toList _ (by rw [e3, e4]; exact n2)

/-- C19 on an html with an element around text and a script block: the block is
deleted, the element stays. -/
theorem createMessageElement_strips_blocks_witness :
    createMessageElement divScriptMessage = "<div>General Kenobi</div>".toList ∧
    ¬ HasBlock "<script".toList "</script>".toList (createMessageElement divScriptMessage) ∧
    ¬ HasBlock "<style".toList "</style>".toList (createMessageElement divScriptMessage) :=
  ⟨by decide,
   (createMessageElement_strips_blocks divScriptMessage (by decide) (by decide)
      (by decide) (by decide)).2.1,
   (createMessageElement_strips_blocks divScriptMessage (by decide) (by decide)
      (by decide) (by decide)).2.2.1⟩

end ChatArchive
